import Mathlib

/-!
# Verification of the rigorous linear-algebra core of `diffop_factorization`

This file embeds the row-echelon engine `REF`, the invariant-subspace
generator `orbit` and `generated_algebra` from `src/reduction.py`, together
with the error discipline of the package, over a rational midpoint–radius
model of the ball (enclosure) arithmetic the code is designed for
(`RealBallField` / `ComplexBallField`), and proves / refutes the stated
correctness properties.

The algorithms are written generically over a structure `BallOps` of the
arithmetic operations actually used by the Python code (the Sage code is
itself generic over the base ring object).  Running them at `Ball` gives the
embedding proper; running them at `Ball × ℚ` pairs every ball with one exact
value flowing through the very same operations, which is how the
"for every true matrix contained in the input there is a true output
contained in the output" statements are proved.
-/

/-- A ball (enclosure) with rational midpoint and radius: the model of one
entry of a `RealBallField` element as used by `reduction.py`.  A rational
`x` is enclosed iff `|x - mid| ≤ rad`. -/
structure Ball where
  mid : ℚ
  rad : ℚ
deriving DecidableEq, Repr

namespace Ball

/-- The exact zero ball. -/
def zero : Ball := ⟨0, 0⟩

/-- The exact one ball. -/
def one : Ball := ⟨1, 0⟩

/-- An exact (radius zero) ball. -/
def exact (x : ℚ) : Ball := ⟨x, 0⟩

/-- Conservative ball addition. -/
def add (a b : Ball) : Ball := ⟨a.mid + b.mid, a.rad + b.rad⟩

/-- Conservative ball subtraction. -/
def sub (a b : Ball) : Ball := ⟨a.mid - b.mid, a.rad + b.rad⟩

/-- Conservative ball multiplication. -/
def mul (a b : Ball) : Ball :=
  ⟨a.mid * b.mid, |a.mid| * b.rad + |b.mid| * a.rad + a.rad * b.rad⟩

/-- Conservative ball inverse (meaningful when the ball excludes zero). -/
def inv (a : Ball) : Ball :=
  ⟨a.mid⁻¹, a.rad / (|a.mid| * (|a.mid| - a.rad))⟩

/-- Conservative ball division, as multiplication by the inverse. -/
def div (a b : Ball) : Ball := a.mul b.inv

/-- `is_nonzero` of Arb balls: the enclosure certifiably excludes zero. -/
def isNonzero (a : Ball) : Bool := decide (a.rad < |a.mid|)

/-- `contains_zero` of Arb balls. -/
def containsZero (a : Ball) : Bool := decide (|a.mid| ≤ a.rad)

/-- `below_abs` of Arb balls: a lower bound for the absolute value of any
enclosed number. -/
def belowAbs (a : Ball) : ℚ := max (|a.mid| - a.rad) 0

/-- Containment: the rational `x` is one of the true values enclosed by `a`. -/
def mem (x : ℚ) (a : Ball) : Prop := |x - a.mid| ≤ a.rad

instance (x : ℚ) (a : Ball) : Decidable (mem x a) :=
  inferInstanceAs (Decidable (_ ≤ _))

theorem mem_exact (x : ℚ) : mem x (exact x) := by
  simp [mem, exact]

theorem mem_zero : mem 0 zero := by simp [mem, zero]

theorem mem_one : mem 1 one := by simp [mem, one]

theorem mem_zero_iff {x : ℚ} : mem x zero ↔ x = 0 := by
  simp [mem, zero, abs_le]
  constructor
  · rintro ⟨h1, h2⟩; linarith
  · rintro rfl; constructor <;> norm_num

theorem mem_one_iff {x : ℚ} : mem x one ↔ x = 1 := by
  constructor
  · intro h
    have : |x - 1| ≤ 0 := h
    have h0 : x - 1 = 0 := by
      have := abs_nonneg (x - 1)
      have : |x - 1| = 0 := le_antisymm ‹|x - 1| ≤ 0› this
      exact abs_eq_zero.mp this
    linarith
  · rintro rfl; simp [mem, one]

theorem rad_nonneg_of_mem {x : ℚ} {a : Ball} (h : mem x a) : 0 ≤ a.rad :=
  le_trans (abs_nonneg _) h

theorem mem_add {x y : ℚ} {a b : Ball} (hx : mem x a) (hy : mem y b) :
    mem (x + y) (a.add b) := by
  unfold mem add at *
  calc |x + y - (a.mid + b.mid)| = |(x - a.mid) + (y - b.mid)| := by ring_nf
    _ ≤ |x - a.mid| + |y - b.mid| := abs_add _ _
    _ ≤ a.rad + b.rad := add_le_add hx hy

theorem mem_sub {x y : ℚ} {a b : Ball} (hx : mem x a) (hy : mem y b) :
    mem (x - y) (a.sub b) := by
  unfold mem sub at *
  calc |x - y - (a.mid - b.mid)| = |(x - a.mid) + -(y - b.mid)| := by ring_nf
    _ ≤ |x - a.mid| + |-(y - b.mid)| := abs_add _ _
    _ ≤ a.rad + b.rad := by rw [abs_neg]; exact add_le_add hx hy

theorem mem_mul {x y : ℚ} {a b : Ball} (hx : mem x a) (hy : mem y b) :
    mem (x * y) (a.mul b) := by
  unfold mem mul at *
  have hra : 0 ≤ a.rad := le_trans (abs_nonneg _) hx
  have hrb : 0 ≤ b.rad := le_trans (abs_nonneg _) hy
  have key : x * y - a.mid * b.mid
      = (x - a.mid) * (y - b.mid) + a.mid * (y - b.mid) + (x - a.mid) * b.mid := by
    ring
  rw [key]
  calc |(x - a.mid) * (y - b.mid) + a.mid * (y - b.mid) + (x - a.mid) * b.mid|
      ≤ |(x - a.mid) * (y - b.mid) + a.mid * (y - b.mid)| + |(x - a.mid) * b.mid| :=
        abs_add _ _
    _ ≤ |(x - a.mid) * (y - b.mid)| + |a.mid * (y - b.mid)| + |(x - a.mid) * b.mid| := by
        have := abs_add ((x - a.mid) * (y - b.mid)) (a.mid * (y - b.mid))
        linarith
    _ = |x - a.mid| * |y - b.mid| + |a.mid| * |y - b.mid| + |x - a.mid| * |b.mid| := by
        rw [abs_mul, abs_mul, abs_mul]
    _ ≤ a.rad * b.rad + |a.mid| * b.rad + a.rad * |b.mid| := by
        have h1 : |x - a.mid| * |y - b.mid| ≤ a.rad * b.rad :=
          mul_le_mul hx hy (abs_nonneg _) hra
        have h2 : |a.mid| * |y - b.mid| ≤ |a.mid| * b.rad :=
          mul_le_mul_of_nonneg_left hy (abs_nonneg _)
        have h3 : |x - a.mid| * |b.mid| ≤ a.rad * |b.mid| :=
          mul_le_mul_of_nonneg_right hx (abs_nonneg _)
        linarith
    _ = |a.mid| * b.rad + |b.mid| * a.rad + a.rad * b.rad := by ring

theorem abs_pos_of_isNonzero {x : ℚ} {a : Ball} (hnz : a.isNonzero = true)
    (hx : mem x a) : 0 < |x| ∧ |a.mid| - a.rad ≤ |x| := by
  have h : a.rad < |a.mid| := of_decide_eq_true hnz
  have h2 : |a.mid| - |x| ≤ |x - a.mid| := by
    have := abs_sub_abs_le_abs_sub a.mid x
    rw [abs_sub_comm] at this
    linarith
  have h3 : |a.mid| - |x| ≤ a.rad := le_trans h2 hx
  exact ⟨by linarith, by linarith⟩

theorem ne_zero_of_isNonzero {x : ℚ} {a : Ball} (hnz : a.isNonzero = true)
    (hx : mem x a) : x ≠ 0 := by
  intro h
  have h1 := (abs_pos_of_isNonzero hnz hx).1
  rw [h, abs_zero] at h1
  exact lt_irrefl 0 h1

theorem mem_inv {x : ℚ} {a : Ball} (hnz : a.isNonzero = true) (hx : mem x a) :
    mem x⁻¹ a.inv := by
  have hra : 0 ≤ a.rad := rad_nonneg_of_mem hx
  have hmr : a.rad < |a.mid| := of_decide_eq_true hnz
  have hm0 : a.mid ≠ 0 := by
    intro h; rw [h, abs_zero] at hmr; linarith
  have hx0 : x ≠ 0 := ne_zero_of_isNonzero hnz hx
  have hxabs : |a.mid| - a.rad ≤ |x| := (abs_pos_of_isNonzero hnz hx).2
  have hxpos : 0 < |x| := by
    have := (abs_pos_of_isNonzero hnz hx).1
    linarith
  have hgap : 0 < |a.mid| - a.rad := by linarith
  have hmabs : 0 < |a.mid| := abs_pos.mpr hm0
  unfold mem inv
  rw [inv_sub_inv hx0 hm0, abs_div, abs_mul]
  rw [div_le_div_iff₀ (mul_pos hxpos hmabs) (mul_pos hmabs hgap)]
  have h1 : |a.mid - x| ≤ a.rad := by rw [abs_sub_comm]; exact hx
  have h2 : |a.mid| * (|a.mid| - a.rad) ≤ |x| * |a.mid| := by
    have he : |a.mid| * (|a.mid| - a.rad) = (|a.mid| - a.rad) * |a.mid| := by ring
    rw [he]
    exact mul_le_mul_of_nonneg_right hxabs (abs_nonneg _)
  calc |a.mid - x| * (|a.mid| * (|a.mid| - a.rad))
      ≤ a.rad * (|a.mid| * (|a.mid| - a.rad)) := by
        exact mul_le_mul_of_nonneg_right h1 (le_of_lt (mul_pos hmabs hgap))
    _ ≤ a.rad * (|x| * |a.mid|) := mul_le_mul_of_nonneg_left h2 hra

theorem mem_div {x y : ℚ} {a b : Ball} (hnz : b.isNonzero = true)
    (hx : mem x a) (hy : mem y b) : mem (x / y) (a.div b) := by
  rw [div_eq_mul_inv]
  exact mem_mul hx (mem_inv hnz hy)

theorem containsZero_iff {a : Ball} : a.containsZero = true ↔ mem 0 a := by
  unfold containsZero mem
  rw [decide_eq_true_eq]
  constructor <;> intro h <;> simpa [abs_sub_comm] using h

theorem not_isNonzero_iff {a : Ball} : a.isNonzero = false ↔ mem 0 a := by
  unfold isNonzero mem
  rw [decide_eq_false_iff_not]
  push_neg
  constructor <;> intro h <;> simpa [abs_sub_comm] using h

theorem mem_exact_eq {x : ℚ} {v : ℚ} (h : mem x (exact v)) : x = v := by
  unfold mem exact at h
  have : |x - v| = 0 := le_antisymm h (abs_nonneg _)
  have := abs_eq_zero.mp this
  linarith

end Ball

/-!
## The operations `REF` uses, generically

`REF` (reduction.py line 123-158) uses, on its base-ring elements: `+`, `-`,
`*`, `/`, `is_nonzero`, `below_abs` (as a sort key) and the constants `0`,
`1`.  We package these so the very same algorithm text can be run over
`Ball` (the embedding) and over `Ball × ℚ` (ball paired with an exact value
passed through the same computation). -/

structure BallOps (α : Type) where
  zero : α
  one : α
  add : α → α → α
  sub : α → α → α
  mul : α → α → α
  div : α → α → α
  isNonzero : α → Bool
  belowAbs : α → ℚ

/-- The operations on balls themselves. -/
def ballOps : BallOps Ball :=
  ⟨Ball.zero, Ball.one, Ball.add, Ball.sub, Ball.mul, Ball.div,
   Ball.isNonzero, Ball.belowAbs⟩

/-- Balls paired with exact rational values: the ball component runs exactly
as in `ballOps` (all tests read only the ball), while the rational component
performs the corresponding exact field operation. -/
def prOps : BallOps (Ball × ℚ) where
  zero := (Ball.zero, 0)
  one := (Ball.one, 1)
  add a b := (a.1.add b.1, a.2 + b.2)
  sub a b := (a.1.sub b.1, a.2 - b.2)
  mul a b := (a.1.mul b.1, a.2 * b.2)
  div a b := (a.1.div b.1, a.2 / b.2)
  isNonzero a := a.1.isNonzero
  belowAbs a := a.1.belowAbs

/-- A pair is coherent when its exact component is enclosed by its ball. -/
def pmem (x : Ball × ℚ) : Prop := Ball.mem x.2 x.1

/-- Dot product of two length-`m` coordinate functions (the entrywise sums
occurring in Sage's matrix/vector products; ball addition is associative and
commutative on the nose, so the summation order is immaterial). -/
def BallOps.dot {α : Type} (O : BallOps α) (m : ℕ) (u v : ℕ → α) : α :=
  ((List.range m).map fun k => O.mul (u k) (v k)).foldr O.add O.zero

/-- Matrices are total functions on `ℕ × ℕ`; only the entries with indices
below the stated dimensions are meaningful. -/
def idMat {α : Type} (O : BallOps α) : ℕ → ℕ → α :=
  fun i k => if i = k then O.one else O.zero

/-- `col = T * vector(mat[:,j])` (reduction.py lines 129 and 136). -/
def colOf {α : Type} (O : BallOps α) (m : ℕ) (T mat : ℕ → ℕ → α) (j : ℕ) :
    ℕ → α :=
  fun i => O.dot m (T i) fun k => mat k j

/-- `for l in idxs: T[l] = [T[l,k] - col[l]*T[piv,k] for k in range(m)]`
(reduction.py lines 130-131 and 144-145). -/
def eliminateRows {α : Type} (O : BallOps α) (idxs : List ℕ) (piv : ℕ)
    (col : ℕ → α) (T : ℕ → ℕ → α) : ℕ → ℕ → α :=
  idxs.foldl
    (fun T l => Function.update T l fun k => O.sub (T l k) (O.mul (col l) (T piv k)))
    T

/-- Replay of the already-certified pivot rows (reduction.py lines 128-131):
`for j in p: col = T*mat[:,j]; for i in range(r, m): T[i] -= col[i]*T[p[j]]`. -/
def replayPivots {α : Type} (O : BallOps α) (m : ℕ) (mat : ℕ → ℕ → α)
    (p₀ : List (ℕ × ℕ)) : ℕ → ℕ → α :=
  p₀.foldl
    (fun T jp =>
      eliminateRows O (List.range' p₀.length (m - p₀.length)) jp.2
        (colOf O m T mat jp.1) T)
    (idMat O)

/-- Python's `max(cand, key=lambda l: col[l].below_abs(), default=None)`:
first element attaining the maximal key, `none` on an empty candidate list. -/
def pickPivot {α : Type} (O : BallOps α) (col : ℕ → α) (cand : List ℕ) :
    Option ℕ :=
  cand.foldl
    (fun acc l =>
      match acc with
      | none => some l
      | some l₀ => if O.belowAbs (col l₀) < O.belowAbs (col l) then some l else some l₀)
    none

/-- Simultaneous swap of two values of a function (Python's tuple swap
`T[i], T[r] = T[r], T[i]`). -/
def swapFun {β : Type} (f : ℕ → β) (i r : ℕ) : ℕ → β :=
  fun a => if a = i then f r else if a = r then f i else f a

/-- One iteration of `for j in range(n)` of `REF` (reduction.py lines
133-145): skip already-pivoted columns, otherwise look for a certified
nonzero entry of largest lower absolute bound among the remaining rows of
`T*mat[:,j]`; on success record the pivot, swap, normalize the pivot row and
eliminate below it. -/
def mainStep {α : Type} (O : BallOps α) (m : ℕ) (mat : ℕ → ℕ → α)
    (st : (ℕ → ℕ → α) × List (ℕ × ℕ)) (j : ℕ) :
    (ℕ → ℕ → α) × List (ℕ × ℕ) :=
  if (st.2.lookup j).isSome then st
  else
    let r := st.2.length
    let col := colOf O m st.1 mat j
    let cand := (List.range' r (m - r)).filter fun l => O.isNonzero (col l)
    match pickPivot O col cand with
    | none => st
    | some i =>
      let T₁ := swapFun st.1 i r
      let col' := swapFun col i r
      let T₂ := Function.update T₁ r fun k => O.div (T₁ r k) (col' r)
      let T₃ := eliminateRows O (List.range' (r + 1) (m - (r + 1))) r col' T₂
      (T₃, st.2 ++ [(j, r)])

/-- The elimination phase of `REF` (lines 123-145): the copied pivot
dictionary, the replay of `prec_pivots`, then the column loop. -/
def elimRun {α : Type} (O : BallOps α) (m n : ℕ) (mat : ℕ → ℕ → α)
    (p₀ : List (ℕ × ℕ)) : (ℕ → ℕ → α) × List (ℕ × ℕ) :=
  (List.range n).foldl (mainStep O m mat) (replayPivots O m mat p₀, p₀)

/-- `R = T * mat` (line 147). -/
def matMulF {α : Type} (O : BallOps α) (m : ℕ) (A B : ℕ → ℕ → α) :
    ℕ → ℕ → α :=
  fun i j => O.dot m (A i) fun k => B k j

/-- Write a single entry of a matrix. -/
def setEntry {α : Type} (R : ℕ → ℕ → α) (i j : ℕ) (v : α) : ℕ → ℕ → α :=
  fun a b => if a = i ∧ b = j then v else R a b

/-- `for j in p: R[p[j],j] = 1; for i in range(p[j]+1, m): R[i,j] = 0`
(lines 148-150). -/
def overwritePivots {α : Type} (O : BallOps α) (m : ℕ) (p : List (ℕ × ℕ))
    (R : ℕ → ℕ → α) : ℕ → ℕ → α :=
  p.foldl
    (fun R jp =>
      (List.range' (jp.2 + 1) (m - (jp.2 + 1))).foldl
        (fun R i => setEntry R i jp.1 O.zero)
        (setEntry R jp.2 jp.1 O.one))
    R

/-- The full data `(R, T, p)` computed by `REF(mat)` on an `m×n` matrix with
resumed pivots `p₀`, before the output selection and the invertibility
check. -/
def REFcore {α : Type} (O : BallOps α) (m n : ℕ) (mat : ℕ → ℕ → α)
    (p₀ : List (ℕ × ℕ)) : (ℕ → ℕ → α) × (ℕ → ℕ → α) × List (ℕ × ℕ) :=
  let st := elimRun O m n mat p₀
  (overwritePivots O m st.2 (matMulF O m st.1 mat), st.1, st.2)

/-- Cofactor-expansion enclosure of the determinant of a `k×k` ball matrix
(the model of Sage's `T.det()` on a ball field: some conservative enclosure
of the determinant). -/
def detB : (k : ℕ) → (ℕ → ℕ → Ball) → Ball
  | 0, _ => Ball.one
  | k + 1, A =>
      ((List.range (k + 1)).map fun i =>
          Ball.mul (if i % 2 = 0 then Ball.one else ⟨-1, 0⟩)
            (Ball.mul (A i 0)
              (detB k fun a b => A (if a < i then a else a + 1) (b + 1)))).foldr
        Ball.add Ball.zero

/-- `PrecisionError` of `precision_error.py`. -/
structure PrecisionError where
  msg : String
deriving DecidableEq, Repr

/-- `REF(mat, transformation=..., pivots=..., prec_pivots=...)`
(reduction.py lines 123-158), including the output selection and the
invertibility check raising `PrecisionError` (lines 152-158).  The output
carries `T` and `p` as `Option`s mirroring the Python tuple shapes. -/
def REF (m n : ℕ) (mat : ℕ → ℕ → Ball) (transformation pivots : Bool)
    (p₀ : List (ℕ × ℕ)) :
    Except PrecisionError
      ((ℕ → ℕ → Ball) × Option (ℕ → ℕ → Ball) × Option (List (ℕ × ℕ))) :=
  let res := REFcore ballOps m n mat p₀
  if transformation then
    if (detB m res.2.1).containsZero then
      Except.error ⟨"Cannot compute an invertible matrix."⟩
    else if pivots then Except.ok (res.1, some res.2.1, some res.2.2)
    else Except.ok (res.1, some res.2.1, none)
  else if pivots then Except.ok (res.1, none, some res.2.2)
  else Except.ok (res.1, none, none)

/-!
## Projection: the ball component of the paired run is the `Ball` run

Every operation of `prOps` acts on the ball component exactly as `ballOps`,
and every branch of `REF` tests only the ball component, so the paired run
projects onto the plain run. -/

/-- Ball component of a paired matrix. -/
def liftT (T : ℕ → ℕ → Ball × ℚ) : ℕ → ℕ → Ball := fun i k => (T i k).1

/-- Exact component of a paired matrix. -/
def sndT (T : ℕ → ℕ → Ball × ℚ) : ℕ → ℕ → ℚ := fun i k => (T i k).2

/-- Exact dot product, the `ℚ` shadow of `BallOps.dot`. -/
def dotQ (m : ℕ) (u v : ℕ → ℚ) : ℚ :=
  ((List.range m).map fun k => u k * v k).foldr (· + ·) 0


@[simp] theorem prOps_zero_fst : (prOps.zero).1 = Ball.zero := rfl

@[simp] theorem prOps_zero_snd : (prOps.zero).2 = 0 := rfl

@[simp] theorem prOps_one_fst : (prOps.one).1 = Ball.one := rfl

@[simp] theorem prOps_one_snd : (prOps.one).2 = 1 := rfl

@[simp] theorem prOps_add_fst (a b : Ball × ℚ) : (prOps.add a b).1 = a.1.add b.1 := rfl

@[simp] theorem prOps_add_snd (a b : Ball × ℚ) : (prOps.add a b).2 = a.2 + b.2 := rfl

@[simp] theorem prOps_sub_fst (a b : Ball × ℚ) : (prOps.sub a b).1 = a.1.sub b.1 := rfl

@[simp] theorem prOps_sub_snd (a b : Ball × ℚ) : (prOps.sub a b).2 = a.2 - b.2 := rfl

@[simp] theorem prOps_mul_fst (a b : Ball × ℚ) : (prOps.mul a b).1 = a.1.mul b.1 := rfl

@[simp] theorem prOps_mul_snd (a b : Ball × ℚ) : (prOps.mul a b).2 = a.2 * b.2 := rfl

@[simp] theorem prOps_div_fst (a b : Ball × ℚ) : (prOps.div a b).1 = a.1.div b.1 := rfl

@[simp] theorem prOps_div_snd (a b : Ball × ℚ) : (prOps.div a b).2 = a.2 / b.2 := rfl

@[simp] theorem prOps_isNonzero (a : Ball × ℚ) : prOps.isNonzero a = a.1.isNonzero := rfl

@[simp] theorem prOps_belowAbs (a : Ball × ℚ) : prOps.belowAbs a = a.1.belowAbs := rfl

theorem dot_fst (m : ℕ) (u v : ℕ → Ball × ℚ) :
    (prOps.dot m u v).1 = ballOps.dot m (fun k => (u k).1) (fun k => (v k).1) := by
  unfold BallOps.dot
  induction (List.range m) with
  | nil => rfl
  | cons a l ih =>
    simp only [List.map_cons, List.foldr_cons, prOps_add_fst, prOps_mul_fst, ih]
    rfl

theorem dot_snd (m : ℕ) (u v : ℕ → Ball × ℚ) :
    (prOps.dot m u v).2 = dotQ m (fun k => (u k).2) (fun k => (v k).2) := by
  unfold BallOps.dot dotQ
  induction (List.range m) with
  | nil => rfl
  | cons a l ih =>
    simp only [List.map_cons, List.foldr_cons, prOps_add_snd, prOps_mul_snd, ih]

theorem liftT_update (T : ℕ → ℕ → Ball × ℚ) (l : ℕ) (g : ℕ → Ball × ℚ) :
    liftT (Function.update T l g) = Function.update (liftT T) l (fun k => (g k).1) := by
  funext i k
  by_cases h : i = l
  · subst h; simp [liftT, Function.update_same]
  · simp [liftT, Function.update_noteq h]

theorem swapFun_apply {β : Type} (f : ℕ → β) (i r a : ℕ) :
    swapFun f i r a = if a = i then f r else if a = r then f i else f a := rfl

theorem liftT_swapFun (T : ℕ → ℕ → Ball × ℚ) (i r : ℕ) :
    liftT (swapFun T i r) = swapFun (liftT T) i r := by
  funext a k
  show (swapFun T i r a k).1 = swapFun (liftT T) i r a k
  unfold swapFun
  by_cases h : a = i
  · rw [if_pos h, if_pos h]; rfl
  · rw [if_neg h, if_neg h]
    by_cases h2 : a = r
    · rw [if_pos h2, if_pos h2]; rfl
    · rw [if_neg h2, if_neg h2]; rfl

theorem colOf_fst (m : ℕ) (T mat : ℕ → ℕ → Ball × ℚ) (j i : ℕ) :
    (colOf prOps m T mat j i).1 = colOf ballOps m (liftT T) (liftT mat) j i := by
  unfold colOf
  rw [dot_fst]
  rfl

theorem eliminateRows_fst (idxs : List ℕ) (piv : ℕ) (col : ℕ → Ball × ℚ)
    (T : ℕ → ℕ → Ball × ℚ) :
    liftT (eliminateRows prOps idxs piv col T)
      = eliminateRows ballOps idxs piv (fun l => (col l).1) (liftT T) := by
  unfold eliminateRows
  induction idxs generalizing T with
  | nil => rfl
  | cons a l ih =>
    simp only [List.foldl_cons]
    rw [ih, liftT_update]
    congr 1

theorem pickPivot_fst (col : ℕ → Ball × ℚ) (cand : List ℕ) :
    pickPivot prOps col cand = pickPivot ballOps (fun l => (col l).1) cand := by
  unfold pickPivot
  rfl

theorem idMat_fst : liftT (idMat prOps) = idMat ballOps := by
  funext i k
  unfold liftT idMat
  by_cases h : i = k <;> simp only [h, if_true, if_false] <;> rfl

theorem foldl_replay_fst (m : ℕ) (mat : ℕ → ℕ → Ball × ℚ) (rs : List ℕ)
    (l : List (ℕ × ℕ)) (T₀ : ℕ → ℕ → Ball × ℚ) :
    liftT (l.foldl
        (fun T jp => eliminateRows prOps rs jp.2 (colOf prOps m T mat jp.1) T) T₀)
      = l.foldl
        (fun T jp => eliminateRows ballOps rs jp.2 (colOf ballOps m T (liftT mat) jp.1) T)
        (liftT T₀) := by
  induction l generalizing T₀ with
  | nil => rfl
  | cons a l ih =>
    simp only [List.foldl_cons]
    rw [ih, eliminateRows_fst]
    have hcol : (fun l => (colOf prOps m T₀ mat a.1 l).1)
        = colOf ballOps m (liftT T₀) (liftT mat) a.1 :=
      funext fun i => colOf_fst m T₀ mat a.1 i
    rw [hcol]

theorem replayPivots_fst (m : ℕ) (mat : ℕ → ℕ → Ball × ℚ) (p₀ : List (ℕ × ℕ)) :
    liftT (replayPivots prOps m mat p₀)
      = replayPivots ballOps m (liftT mat) p₀ := by
  unfold replayPivots
  rw [foldl_replay_fst, idMat_fst]

theorem mainStep_fst (m : ℕ) (mat : ℕ → ℕ → Ball × ℚ)
    (st : (ℕ → ℕ → Ball × ℚ) × List (ℕ × ℕ)) (j : ℕ) :
    (liftT (mainStep prOps m mat st j).1, (mainStep prOps m mat st j).2)
      = mainStep ballOps m (liftT mat) (liftT st.1, st.2) j := by
  unfold mainStep
  by_cases hj : (st.2.lookup j).isSome
  · simp [hj]
  · simp only [hj, Bool.false_eq_true, if_false, if_neg]
    have hc : ∀ l, (colOf prOps m st.1 mat j l).1
        = colOf ballOps m (liftT st.1) (liftT mat) j l := colOf_fst m st.1 mat j
    have hcand :
        ((List.range' st.2.length (m - st.2.length)).filter
            fun l => prOps.isNonzero (colOf prOps m st.1 mat j l))
          = ((List.range' st.2.length (m - st.2.length)).filter
            fun l => ballOps.isNonzero (colOf ballOps m (liftT st.1) (liftT mat) j l)) := by
      apply List.filter_congr
      intro l _
      rw [prOps_isNonzero, hc l]
      rfl
    have hscru :
        pickPivot prOps (colOf prOps m st.1 mat j)
            ((List.range' st.2.length (m - st.2.length)).filter
              fun l => prOps.isNonzero (colOf prOps m st.1 mat j l))
          = pickPivot ballOps (colOf ballOps m (liftT st.1) (liftT mat) j)
            ((List.range' st.2.length (m - st.2.length)).filter
              fun l => ballOps.isNonzero (colOf ballOps m (liftT st.1) (liftT mat) j l)) := by
      rw [pickPivot_fst, hcand]
      congr 1
      funext l
      exact hc l
    rw [hscru]
    cases hp : pickPivot ballOps (colOf ballOps m (liftT st.1) (liftT mat) j)
        ((List.range' st.2.length (m - st.2.length)).filter
          fun l => ballOps.isNonzero (colOf ballOps m (liftT st.1) (liftT mat) j l)) with
    | none => rfl
    | some i =>
      simp only []
      have hsw : ∀ l, ((swapFun (colOf prOps m st.1 mat j) i st.2.length) l).1
          = swapFun (colOf ballOps m (liftT st.1) (liftT mat) j) i st.2.length l := by
        intro l
        show ((if l = i then _ else if l = st.2.length then _ else _ : Ball × ℚ)).1 = _
        unfold swapFun
        by_cases h : l = i
        · rw [if_pos h, if_pos h]; exact hc _
        · rw [if_neg h, if_neg h]
          by_cases h2 : l = st.2.length
          · rw [if_pos h2, if_pos h2]; exact hc _
          · rw [if_neg h2, if_neg h2]; exact hc _
      have hT2 : liftT (Function.update (swapFun st.1 i st.2.length) st.2.length
            fun k => prOps.div (swapFun st.1 i st.2.length st.2.length k)
              (swapFun (colOf prOps m st.1 mat j) i st.2.length st.2.length))
          = Function.update (swapFun (liftT st.1) i st.2.length) st.2.length
            fun k => ballOps.div (swapFun (liftT st.1) i st.2.length st.2.length k)
              (swapFun (colOf ballOps m (liftT st.1) (liftT mat) j) i st.2.length
                st.2.length) := by
        rw [liftT_update, liftT_swapFun]
        have harg : (fun k => (prOps.div (swapFun st.1 i st.2.length st.2.length k)
              (swapFun (colOf prOps m st.1 mat j) i st.2.length st.2.length)).1)
            = fun k => ballOps.div (swapFun (liftT st.1) i st.2.length st.2.length k)
              (swapFun (colOf ballOps m (liftT st.1) (liftT mat) j) i st.2.length
                st.2.length) := by
          funext k
          rw [prOps_div_fst, hsw st.2.length]
          have hrow : (swapFun st.1 i st.2.length st.2.length k).1
              = swapFun (liftT st.1) i st.2.length st.2.length k :=
            congrFun (congrFun (liftT_swapFun st.1 i st.2.length) st.2.length) k
          rw [hrow]
          rfl
        rw [harg]
      rw [Prod.mk.injEq]
      refine ⟨?_, rfl⟩
      rw [eliminateRows_fst, hT2]
      have hcolsw : (fun l => ((swapFun (colOf prOps m st.1 mat j) i st.2.length) l).1)
          = swapFun (colOf ballOps m (liftT st.1) (liftT mat) j) i st.2.length :=
        funext hsw
      rw [hcolsw]

theorem foldl_mainStep_fst (m : ℕ) (mat : ℕ → ℕ → Ball × ℚ) (l : List ℕ)
    (st : (ℕ → ℕ → Ball × ℚ) × List (ℕ × ℕ)) :
    (liftT (l.foldl (mainStep prOps m mat) st).1,
        (l.foldl (mainStep prOps m mat) st).2)
      = l.foldl (mainStep ballOps m (liftT mat)) (liftT st.1, st.2) := by
  induction l generalizing st with
  | nil => rfl
  | cons a l ih =>
    simp only [List.foldl_cons]
    rw [ih, mainStep_fst]

theorem elimRun_fst (m n : ℕ) (mat : ℕ → ℕ → Ball × ℚ) (p₀ : List (ℕ × ℕ)) :
    (liftT (elimRun prOps m n mat p₀).1, (elimRun prOps m n mat p₀).2)
      = elimRun ballOps m n (liftT mat) p₀ := by
  unfold elimRun
  rw [foldl_mainStep_fst, replayPivots_fst]

theorem matMulF_fst (m : ℕ) (A B : ℕ → ℕ → Ball × ℚ) (i j : ℕ) :
    (matMulF prOps m A B i j).1 = matMulF ballOps m (liftT A) (liftT B) i j := by
  unfold matMulF
  rw [dot_fst]
  rfl

theorem setEntry_fst (R : ℕ → ℕ → Ball × ℚ) (i j : ℕ) (v : Ball × ℚ) :
    liftT (setEntry R i j v) = setEntry (liftT R) i j v.1 := by
  funext a b
  show (setEntry R i j v a b).1 = _
  unfold setEntry
  by_cases h : a = i ∧ b = j
  · rw [if_pos h, if_pos h]
  · rw [if_neg h, if_neg h]; rfl

theorem foldl_setEntry_fst (rs : List ℕ) (j : ℕ) (R : ℕ → ℕ → Ball × ℚ) :
    liftT (rs.foldl (fun R i => setEntry R i j prOps.zero) R)
      = rs.foldl (fun R i => setEntry R i j ballOps.zero) (liftT R) := by
  induction rs generalizing R with
  | nil => rfl
  | cons b bs ih =>
    simp only [List.foldl_cons]
    rw [ih, setEntry_fst]
    rfl

theorem overwritePivots_fst (m : ℕ) (p : List (ℕ × ℕ)) (R : ℕ → ℕ → Ball × ℚ) :
    liftT (overwritePivots prOps m p R) = overwritePivots ballOps m p (liftT R) := by
  unfold overwritePivots
  induction p generalizing R with
  | nil => rfl
  | cons a l ih =>
    simp only [List.foldl_cons]
    rw [ih, foldl_setEntry_fst, setEntry_fst]
    rfl

theorem REFcore_fst (m n : ℕ) (mat : ℕ → ℕ → Ball × ℚ) (p₀ : List (ℕ × ℕ)) :
    REFcore ballOps m n (liftT mat) p₀
      = (liftT (REFcore prOps m n mat p₀).1,
         liftT (REFcore prOps m n mat p₀).2.1,
         (REFcore prOps m n mat p₀).2.2) := by
  unfold REFcore
  simp only []
  have h := elimRun_fst m n mat p₀
  have h1 : (elimRun ballOps m n (liftT mat) p₀).1 = liftT (elimRun prOps m n mat p₀).1 := by
    rw [← h]
  have h2 : (elimRun ballOps m n (liftT mat) p₀).2 = (elimRun prOps m n mat p₀).2 := by
    rw [← h]
  have hmm : matMulF ballOps m (liftT (elimRun prOps m n mat p₀).1) (liftT mat)
      = liftT (matMulF prOps m (elimRun prOps m n mat p₀).1 mat) := by
    funext i j
    exact (matMulF_fst m _ mat i j).symm
  rw [Prod.mk.injEq, Prod.mk.injEq]
  refine ⟨?_, h1, h2⟩
  rw [h1, h2, hmm, overwritePivots_fst]

/-!
## Control flow of `REF`: when `PrecisionError` is raised (claim C4)
-/

/-- **C4.**  `REF` raises a `PrecisionError` if and only if a transformation
matrix was requested and the determinant enclosure of the computed
transformation contains zero; in particular `REF` without `transformation`
returns normally on every input matrix (rank-deficient and zero matrices
included). -/
theorem REF_precisionError_iff (m n : ℕ) (mat : ℕ → ℕ → Ball)
    (transformation pivots : Bool) (p₀ : List (ℕ × ℕ)) :
    (∃ e, REF m n mat transformation pivots p₀ = Except.error e)
      ↔ transformation = true
        ∧ (detB m (REFcore ballOps m n mat p₀).2.1).containsZero = true := by
  unfold REF
  cases transformation <;> cases pivots <;>
    cases hz : (detB m (REFcore ballOps m n mat p₀).2.1).containsZero <;>
    simp [hz]

/-!
## A matrix on which the rows of `R` beyond the pivots do not enclose zero

`REF`'s docstring (reduction.py lines 19-27) asserts, unconditionally, that
"only the `len(p)` first rows of `R` do not contain the null row", and the
spec repeats it as "rows beyond the last pivot are certified zero rows".
The matrix below refutes this: the pivot search certifies pivots in columns
0 and 2 only, and the final row of `R` is `[0, ⟨-3/2, 1/2⟩, 0]`, whose middle
entry excludes zero — so no true matrix enclosed by `R` has a zero third
row, let alone a certified one.  (All radii here are exact and at least as
small as any conservative ball arithmetic would produce, so the behaviour
is faithful to the Arb arithmetic the code runs on.) -/
def pathologicalMat : ℕ → ℕ → Ball := fun i j =>
  (([[Ball.exact 1, ⟨0, 1⟩, Ball.exact 0],
     [Ball.exact 1, Ball.exact 1, Ball.exact 1],
     [Ball.exact 1, Ball.exact (-1), Ball.exact (1/2)]].getD i []).getD j Ball.zero)

set_option maxRecDepth 10000

unseal Rat.add Rat.mul Rat.sub Rat.inv in
/-- **C2 (code_bug).**  On `pathologicalMat`, `REF(mat, pivots=True)` returns
two pivots, yet entry `(2,1)` of `R` — in a row beyond the first `len(p)`
rows — is the enclosure `⟨-3/2, 1/2⟩`, which is not a certified zero and does
not even contain zero, contradicting the function's own docstring (and §4.1
of the spec). -/
theorem REF_zero_row_guarantee_fails :
    REF 3 3 pathologicalMat false true []
      = Except.ok ((REFcore ballOps 3 3 pathologicalMat []).1, none,
          some ((REFcore ballOps 3 3 pathologicalMat []).2.2))
    ∧ (REFcore ballOps 3 3 pathologicalMat []).2.2 = [(0, 0), (2, 1)]
    ∧ (REFcore ballOps 3 3 pathologicalMat []).1 2 1 = ⟨-3/2, 1/2⟩
    ∧ Ball.containsZero ⟨-3/2, 1/2⟩ = false
    ∧ ¬ Ball.mem 0 ⟨-3/2, 1/2⟩ :=
  ⟨rfl, by decide, by decide, by decide, by decide⟩

unseal Rat.add Rat.mul Rat.sub Rat.inv in
/-- **C5 (counterexample).**  Re-running `REF` on its own output `(R, p)`
from `pathologicalMat`, with `prec_pivots = p`, does *not* change nothing:
the entry `⟨-3/2, 1/2⟩` of `R` beyond the pivot rows is certified nonzero, so
the second run finds a third pivot in column 1 and returns a different
echelon form and pivot dictionary. -/
theorem REF_not_idempotent :
    REF 3 3 (REFcore ballOps 3 3 pathologicalMat []).1 false true
        ((REFcore ballOps 3 3 pathologicalMat []).2.2)
      = Except.ok
          ((REFcore ballOps 3 3 (REFcore ballOps 3 3 pathologicalMat []).1
              ((REFcore ballOps 3 3 pathologicalMat []).2.2)).1, none,
           some (REFcore ballOps 3 3 (REFcore ballOps 3 3 pathologicalMat []).1
              ((REFcore ballOps 3 3 pathologicalMat []).2.2)).2.2)
    ∧ (REFcore ballOps 3 3 pathologicalMat []).2.2 = [(0, 0), (2, 1)]
    ∧ (REFcore ballOps 3 3 (REFcore ballOps 3 3 pathologicalMat []).1
          ((REFcore ballOps 3 3 pathologicalMat []).2.2)).2.2
        = [(0, 0), (2, 1), (1, 2)]
    ∧ ([(0, 0), (2, 1), (1, 2)] : List (ℕ × ℕ)) ≠ [(0, 0), (2, 1)] :=
  ⟨rfl, by decide, by decide, by decide⟩

/-!
## The simulation invariant

Fix a paired matrix (each entry a ball and one exact rational it encloses).
Through the whole elimination the following are maintained: every entry of
the paired transformation is coherent (`pmem`); the pivot values are
`0, 1, 2, …` in insertion order; the exact product `E · mat·` has an exact
`1` at every pivot and exact `0` below it; and the exact transformation has
nonzero determinant (it is a product of elementary operations). -/

/-- Entrywise containment of an exact `m×n` matrix in a ball matrix. -/
def matMem (m n : ℕ) (A : ℕ → ℕ → ℚ) (B : ℕ → ℕ → Ball) : Prop :=
  ∀ i, i < m → ∀ j, j < n → Ball.mem (A i j) (B i j)

/-- Exact matrix product (`m` inner summands). -/
def mulQ (m : ℕ) (A B : ℕ → ℕ → ℚ) : ℕ → ℕ → ℚ :=
  fun i j => dotQ m (A i) fun k => B k j

/-- The `m×m` corner of an exact matrix, as a Mathlib matrix. -/
def finMat (m : ℕ) (E : ℕ → ℕ → ℚ) : Matrix (Fin m) (Fin m) ℚ :=
  Matrix.of fun i j => E i.1 j.1

/-- The `m×n` corner of an exact matrix, as a Mathlib matrix. -/
def finMatR (m n : ℕ) (E : ℕ → ℕ → ℚ) : Matrix (Fin m) (Fin n) ℚ :=
  Matrix.of fun i j => E i.1 j.1

/-- Structural well-formedness of a pivot dictionary for an `m×n` matrix:
values are `0, 1, 2, …` in insertion order, keys are column indices. -/
def pivotsOk (m n : ℕ) (p : List (ℕ × ℕ)) : Prop :=
  p.map Prod.snd = List.range p.length
    ∧ (∀ jp ∈ p, jp.1 < n) ∧ p.length ≤ m ∧ (p.map Prod.fst).Nodup

/-- Exact echelon pattern of a matrix at the pivots: `1` on each pivot,
`0` strictly below it. -/
def patternOk (m : ℕ) (E : ℕ → ℕ → ℚ) (p : List (ℕ × ℕ)) : Prop :=
  ∀ jp ∈ p, E jp.2 jp.1 = 1 ∧ ∀ i, jp.2 < i → i < m → E i jp.1 = 0

/-- The running invariant of the elimination loop on the paired state. -/
structure ElimInv (m n : ℕ) (matP : ℕ → ℕ → Ball × ℚ)
    (s : (ℕ → ℕ → Ball × ℚ) × List (ℕ × ℕ)) : Prop where
  hmem : ∀ i, i < m → ∀ k, k < m → pmem (s.1 i k)
  hpiv : pivotsOk m n s.2
  hpat : patternOk m (mulQ m (sndT s.1) (sndT matP)) s.2
  hdet : (finMat m (sndT s.1)).det ≠ 0

theorem dot_pmem (m : ℕ) (u v : ℕ → Ball × ℚ)
    (hu : ∀ k, k < m → pmem (u k)) (hv : ∀ k, k < m → pmem (v k)) :
    pmem (prOps.dot m u v) := by
  unfold BallOps.dot pmem
  have : ∀ l : List ℕ, (∀ k ∈ l, k < m) →
      Ball.mem ((l.map fun k => prOps.mul (u k) (v k)).foldr prOps.add prOps.zero).2
        ((l.map fun k => prOps.mul (u k) (v k)).foldr prOps.add prOps.zero).1 := by
    intro l hl
    induction l with
    | nil => exact Ball.mem_zero
    | cons a t ih =>
      simp only [List.map_cons, List.foldr_cons, prOps_add_fst, prOps_add_snd,
        prOps_mul_fst, prOps_mul_snd]
      exact Ball.mem_add
        (Ball.mem_mul (hu a (hl a (List.mem_cons_self a t)))
          (hv a (hl a (List.mem_cons_self a t))))
        (ih fun k hk => hl k (List.mem_cons_of_mem a hk))
  exact this (List.range m) fun k hk => List.mem_range.mp hk

theorem dotQ_congr (m : ℕ) (u u' v : ℕ → ℚ) (h : ∀ k, k < m → u k = u' k) :
    dotQ m u v = dotQ m u' v := by
  unfold dotQ
  congr 1
  apply List.map_congr_left
  intro k hk
  rw [h k (List.mem_range.mp hk)]

theorem dotQ_sub_smul (m : ℕ) (u w v : ℕ → ℚ) (c : ℚ) :
    dotQ m (fun k => u k - c * w k) v = dotQ m u v - c * dotQ m w v := by
  unfold dotQ
  induction (List.range m) with
  | nil => simp
  | cons a t ih =>
    simp only [List.map_cons, List.foldr_cons, ih]
    ring

theorem dotQ_smul (m : ℕ) (u v : ℕ → ℚ) (c : ℚ) :
    dotQ m (fun k => u k * c) v = c * dotQ m u v := by
  unfold dotQ
  induction (List.range m) with
  | nil => simp
  | cons a t ih =>
    simp only [List.map_cons, List.foldr_cons, ih]
    ring

theorem eliminateRows_apply {α : Type} (O : BallOps α) (idxs : List ℕ)
    (piv : ℕ) (col : ℕ → α) (T : ℕ → ℕ → α) (hnd : idxs.Nodup)
    (hpiv : piv ∉ idxs) (a : ℕ) :
    eliminateRows O idxs piv col T a
      = if a ∈ idxs then (fun k => O.sub (T a k) (O.mul (col a) (T piv k)))
        else T a := by
  induction idxs generalizing T with
  | nil => simp [eliminateRows]
  | cons b bs ih =>
    have hndb : b ∉ bs := (List.nodup_cons.mp hnd).1
    have hndbs : bs.Nodup := (List.nodup_cons.mp hnd).2
    have hpb : piv ≠ b := fun h => hpiv (h ▸ List.mem_cons_self b bs)
    have hpbs : piv ∉ bs := fun h => hpiv (List.mem_cons_of_mem b h)
    show eliminateRows O bs piv col
        (Function.update T b fun k => O.sub (T b k) (O.mul (col b) (T piv k))) a = _
    rw [ih _ hndbs hpbs]
    by_cases hab : a ∈ bs
    · have hanb : a ≠ b := fun h => hndb (h ▸ hab)
      rw [if_pos hab, if_pos (List.mem_cons_of_mem b hab)]
      rw [Function.update_noteq hanb, Function.update_noteq hpb]
    · rw [if_neg hab]
      by_cases haeq : a = b
      · subst haeq
        rw [Function.update_same, if_pos (List.mem_cons_self a bs)]
      · rw [Function.update_noteq haeq, if_neg]
        intro h
        rcases List.mem_cons.mp h with h | h
        · exact haeq h
        · exact hab h

theorem pickPivot_aux {α : Type} (O : BallOps α) (col : ℕ → α)
    (cand : List ℕ) (acc : Option ℕ) (i : ℕ)
    (h : cand.foldl
        (fun acc l =>
          match acc with
          | none => some l
          | some l₀ =>
            if O.belowAbs (col l₀) < O.belowAbs (col l) then some l else some l₀)
        acc = some i) :
    i ∈ cand ∨ acc = some i := by
  induction cand generalizing acc with
  | nil => exact Or.inr h
  | cons b bs ih =>
    simp only [List.foldl_cons] at h
    rcases ih _ h with h2 | h2
    · exact Or.inl (List.mem_cons_of_mem b h2)
    · cases acc with
      | none =>
        simp only [] at h2
        left
        rw [Option.some.injEq] at h2
        exact h2 ▸ List.mem_cons_self b bs
      | some l₀ =>
        simp only [] at h2
        by_cases hlt : O.belowAbs (col l₀) < O.belowAbs (col b)
        · rw [if_pos hlt, Option.some.injEq] at h2
          exact Or.inl (h2 ▸ List.mem_cons_self b bs)
        · rw [if_neg hlt] at h2
          exact Or.inr h2

theorem pickPivot_some_mem {α : Type} (O : BallOps α) (col : ℕ → α)
    (cand : List ℕ) (i : ℕ) (h : pickPivot O col cand = some i) : i ∈ cand := by
  rcases pickPivot_aux O col cand none i h with h2 | h2
  · exact h2
  · exact absurd h2 (by simp)

theorem lookup_isSome_iff (p : List (ℕ × ℕ)) (j : ℕ) :
    (p.lookup j).isSome = true ↔ ∃ jp ∈ p, jp.1 = j := by
  induction p with
  | nil => simp [List.lookup]
  | cons a l ih =>
    obtain ⟨k, v⟩ := a
    by_cases h : j = k
    · subst h
      have hl : List.lookup j ((j, v) :: l) = some v := by
        simp [List.lookup]
      rw [hl]
      simp only [Option.isSome_some, true_iff]
      exact ⟨(j, v), List.mem_cons_self _ l, rfl⟩
    · have hl : List.lookup j ((k, v) :: l) = List.lookup j l := by
        simp [List.lookup, beq_eq_false_iff_ne.mpr h]
      rw [hl, ih]
      constructor
      · rintro ⟨jp, hjp, rfl⟩
        exact ⟨jp, List.mem_cons_of_mem _ hjp, rfl⟩
      · rintro ⟨jp, hjp, hj⟩
        rcases List.mem_cons.mp hjp with rfl | hmem
        · exact absurd hj.symm h
        · exact ⟨jp, hmem, hj⟩

theorem sndT_update (T : ℕ → ℕ → Ball × ℚ) (l : ℕ) (g : ℕ → Ball × ℚ) :
    sndT (Function.update T l g) = Function.update (sndT T) l (fun k => (g k).2) := by
  funext i k
  by_cases h : i = l
  · subst h; simp [sndT, Function.update_same]
  · simp [sndT, Function.update_noteq h]

theorem sndT_swapFun (T : ℕ → ℕ → Ball × ℚ) (i r : ℕ) :
    sndT (swapFun T i r) = swapFun (sndT T) i r := by
  funext a k
  show (swapFun T i r a k).2 = swapFun (sndT T) i r a k
  unfold swapFun
  by_cases h : a = i
  · rw [if_pos h, if_pos h]; rfl
  · rw [if_neg h, if_neg h]
    by_cases h2 : a = r
    · rw [if_pos h2, if_pos h2]; rfl
    · rw [if_neg h2, if_neg h2]; rfl

theorem swapFun_at_snd {β : Type} (f : ℕ → β) (i r : ℕ) : swapFun f i r r = f i := by
  unfold swapFun
  by_cases h : r = i
  · rw [if_pos h, h]
  · rw [if_neg h, if_pos rfl]

theorem swapFun_at_fst {β : Type} (f : ℕ → β) (i r : ℕ) : swapFun f i r i = f r := by
  unfold swapFun
  rw [if_pos rfl]

theorem swapFun_other {β : Type} (f : ℕ → β) (i r a : ℕ) (h1 : a ≠ i) (h2 : a ≠ r) :
    swapFun f i r a = f a := by
  unfold swapFun
  rw [if_neg h1, if_neg h2]

theorem colOf_snd (m : ℕ) (T mat : ℕ → ℕ → Ball × ℚ) (j i : ℕ) :
    (colOf prOps m T mat j i).2 = mulQ m (sndT T) (sndT mat) i j := by
  unfold colOf mulQ
  rw [dot_snd]
  rfl

theorem mulQ_row_congr (m : ℕ) (E E' B : ℕ → ℕ → ℚ) (a : ℕ) (h : E a = E' a) :
    ∀ j, mulQ m E B a j = mulQ m E' B a j := by
  intro j
  unfold mulQ
  rw [h]

theorem mulQ_swap_row (m : ℕ) (E B : ℕ → ℕ → ℚ) (i r a j : ℕ) :
    mulQ m (swapFun E i r) B a j = swapFun (fun l => mulQ m E B l j) i r a := by
  unfold mulQ swapFun
  by_cases h : a = i
  · rw [if_pos h, if_pos h]
  · rw [if_neg h, if_neg h]
    by_cases h2 : a = r
    · rw [if_pos h2, if_pos h2]
    · rw [if_neg h2, if_neg h2]

theorem finMat_swap (m : ℕ) (E : ℕ → ℕ → ℚ) (i r : ℕ) (him : i < m) (hrm : r < m) :
    finMat m (swapFun E i r)
      = (finMat m E).submatrix (Equiv.swap (⟨i, him⟩ : Fin m) ⟨r, hrm⟩) id := by
  funext a b
  show swapFun E i r a.1 b.1 = E ((Equiv.swap (⟨i, him⟩ : Fin m) ⟨r, hrm⟩) a).1 b.1
  unfold swapFun
  rw [Equiv.swap_apply_def]
  by_cases h : a.1 = i
  · have : a = (⟨i, him⟩ : Fin m) := Fin.ext h
    rw [if_pos h, if_pos this]
  · have hne : a ≠ (⟨i, him⟩ : Fin m) := fun hh => h (by rw [hh])
    rw [if_neg h, if_neg hne]
    by_cases h2 : a.1 = r
    · have : a = (⟨r, hrm⟩ : Fin m) := Fin.ext h2
      rw [if_pos h2, if_pos this]
    · have hne2 : a ≠ (⟨r, hrm⟩ : Fin m) := fun hh => h2 (by rw [hh])
      rw [if_neg h2, if_neg hne2]

theorem finMat_update (m : ℕ) (E : ℕ → ℕ → ℚ) (r : ℕ) (hrm : r < m) (g : ℕ → ℚ) :
    finMat m (Function.update E r g)
      = (finMat m E).updateRow ⟨r, hrm⟩ (fun k : Fin m => g k.1) := by
  funext a b
  show Function.update E r g a.1 b.1 = _
  by_cases h : a.1 = r
  · have ha : a = (⟨r, hrm⟩ : Fin m) := Fin.ext h
    rw [h, Function.update_same, ha, Matrix.updateRow_self]
  · have hne : a ≠ (⟨r, hrm⟩ : Fin m) := fun hh => h (by rw [hh])
    rw [Function.update_noteq h, Matrix.updateRow_ne hne]
    rfl

/-- Determinant survives simultaneously subtracting multiples of an
untouched row from a set of other rows. -/
theorem det_ne_zero_elim (m : ℕ) (M : Matrix (Fin m) (Fin m) ℚ) (r : ℕ)
    (hrm : r < m) (idxs : List ℕ) (c : ℕ → ℚ) (hnd : idxs.Nodup)
    (hr : r ∉ idxs) (helem : ∀ a ∈ idxs, a < m) (hdet : M.det ≠ 0) :
    (Matrix.of fun a k : Fin m =>
        if a.1 ∈ idxs then M a k - c a.1 * M ⟨r, hrm⟩ k else M a k).det ≠ 0 := by
  induction idxs generalizing M with
  | nil =>
    have : (Matrix.of fun a k : Fin m =>
        if a.1 ∈ ([] : List ℕ) then M a k - c a.1 * M ⟨r, hrm⟩ k else M a k) = M := by
      funext a k
      simp
    rw [this]
    exact hdet
  | cons b bs ih =>
    have hbm : b < m := helem b (List.mem_cons_self b bs)
    have hbbs : b ∉ bs := (List.nodup_cons.mp hnd).1
    have hrb : r ≠ b := fun h => hr (h ▸ List.mem_cons_self b bs)
    have hrbs : r ∉ bs := fun h => hr (List.mem_cons_of_mem b h)
    have hkey : (Matrix.of fun a k : Fin m =>
          if a.1 ∈ b :: bs then M a k - c a.1 * M ⟨r, hrm⟩ k else M a k)
        = Matrix.updateRow
            (Matrix.of fun a k : Fin m =>
              if a.1 ∈ bs then M a k - c a.1 * M ⟨r, hrm⟩ k else M a k)
            ⟨b, hbm⟩
            ((Matrix.of fun a k : Fin m =>
              if a.1 ∈ bs then M a k - c a.1 * M ⟨r, hrm⟩ k else M a k) ⟨b, hbm⟩
              + (-(c b)) • (Matrix.of fun a k : Fin m =>
              if a.1 ∈ bs then M a k - c a.1 * M ⟨r, hrm⟩ k else M a k) ⟨r, hrm⟩) := by
      funext a k
      by_cases hab : a.1 = b
      · have ha : a = (⟨b, hbm⟩ : Fin m) := Fin.ext hab
        subst ha
        rw [Matrix.updateRow_self]
        show (if (b : ℕ) ∈ b :: bs then M _ k - c b * M ⟨r, hrm⟩ k else M _ k) = _
        rw [if_pos (List.mem_cons_self b bs)]
        simp only [Matrix.of_apply, Pi.add_apply, Pi.smul_apply, smul_eq_mul]
        rw [if_neg hbbs, if_neg (fun h => hrbs h)]
        ring
      · have hne : a ≠ (⟨b, hbm⟩ : Fin m) := fun hh => hab (by rw [hh])
        rw [Matrix.updateRow_ne hne]
        show (if a.1 ∈ b :: bs then M a k - c a.1 * M ⟨r, hrm⟩ k else M a k) = _
        simp only [Matrix.of_apply]
        by_cases habs : a.1 ∈ bs
        · rw [if_pos (List.mem_cons_of_mem b habs), if_pos habs]
        · rw [if_neg (fun h => (List.mem_cons.mp h).elim hab habs), if_neg habs]
    rw [hkey]
    have hne : (⟨b, hbm⟩ : Fin m) ≠ ⟨r, hrm⟩ := by
      intro h
      exact hrb (congrArg Fin.val h).symm
    rw [Matrix.det_updateRow_add_smul_self _ hne]
    exact ih _ hnd.of_cons hrbs (fun a ha => helem a (List.mem_cons_of_mem b ha)) hdet

theorem pivotsOk_val_lt {m n : ℕ} {p : List (ℕ × ℕ)} (h : pivotsOk m n p) :
    ∀ jp ∈ p, jp.2 < p.length := by
  intro jp hjp
  have hmem : jp.2 ∈ p.map Prod.snd := List.mem_map_of_mem _ hjp
  rw [h.1] at hmem
  exact List.mem_range.mp hmem

theorem mainStep_inv (m n : ℕ) (matP : ℕ → ℕ → Ball × ℚ)
    (hmat : ∀ i, i < m → ∀ j, j < n → pmem (matP i j))
    (s : (ℕ → ℕ → Ball × ℚ) × List (ℕ × ℕ)) (j : ℕ) (hj : j < n)
    (inv : ElimInv m n matP s) : ElimInv m n matP (mainStep prOps m matP s j) := by
  unfold mainStep
  by_cases hl : (s.2.lookup j).isSome = true
  · rw [if_pos hl]; exact inv
  rw [if_neg hl]
  simp only []
  cases hp : pickPivot prOps (colOf prOps m s.1 matP j)
      ((List.range' s.2.length (m - s.2.length)).filter
        fun l => prOps.isNonzero (colOf prOps m s.1 matP j l)) with
  | none => exact inv
  | some i =>
    simp only []
    -- notation
    have hrlem : s.2.length ≤ m := inv.hpiv.2.2.1
    have hfil := List.mem_filter.mp (pickPivot_some_mem _ _ _ _ hp)
    have hir := List.mem_range'_1.mp hfil.1
    have hri : s.2.length ≤ i := hir.1
    have him : i < m := by
      have := hir.2
      rwa [Nat.add_sub_cancel' hrlem] at this
    have hrm : s.2.length < m := lt_of_le_of_lt hri him
    have hinz : (colOf prOps m s.1 matP j i).1.isNonzero = true := hfil.2
    set r := s.2.length with hr
    set col := colOf prOps m s.1 matP j with hcol
    set E0 := sndT s.1 with hE0
    set B := sndT matP with hB
    have hcolmem : ∀ l, l < m → pmem (col l) := by
      intro l hlm
      exact dot_pmem m (s.1 l) (fun k => matP k j)
        (fun k hk => inv.hmem l hlm k hk) (fun k hk => hmat k hk j hj)
    have hcolsnd : ∀ l, (col l).2 = mulQ m E0 B l j := fun l => colOf_snd m s.1 matP j l
    set c := (col i).2 with hcdef
    have hc0 : c ≠ 0 := Ball.ne_zero_of_isNonzero hinz (hcolmem i him)
    set col' := swapFun col i r with hcol'
    have hcol'r : col' r = col i := swapFun_at_snd col i r
    set T1 := swapFun s.1 i r with hT1
    set T2 := Function.update T1 r
      (fun k => prOps.div (T1 r k) (col' r)) with hT2
    set rs := List.range' (r + 1) (m - (r + 1)) with hrs
    set T3 := eliminateRows prOps rs r col' T2 with hT3
    -- index set facts
    have hndrs : rs.Nodup := List.nodup_range' _ _
    have hrnotrs : r ∉ rs := by
      intro hmem
      have := (List.mem_range'_1.mp hmem).1
      omega
    have hrselem : ∀ a ∈ rs, r < a ∧ a < m := by
      intro a ha
      have h2 := List.mem_range'_1.mp ha
      constructor
      · omega
      · have : r + 1 + (m - (r + 1)) = m := by omega
        omega
    have hrs_iff : ∀ a, a ∈ rs ↔ r < a ∧ a < m := by
      intro a
      rw [hrs, List.mem_range'_1]
      omega
    -- exact components of the intermediate transformations
    have hE1 : sndT T1 = swapFun E0 i r := sndT_swapFun s.1 i r
    have hE2 : sndT T2 = Function.update (sndT T1) r (fun k => sndT T1 r k / c) := by
      rw [hT2, sndT_update]
      have harg : (fun k => (prOps.div (T1 r k) (col' r)).2)
          = fun k => sndT T1 r k / c := by
        funext k
        rw [prOps_div_snd, hcol'r]
        rfl
      rw [harg]
    have hE3 : ∀ a, sndT T3 a
        = if a ∈ rs then (fun k => sndT T2 a k - (col' a).2 * sndT T2 r k)
          else sndT T2 a := by
      intro a
      have happ := eliminateRows_apply prOps rs r col' T2 hndrs hrnotrs a
      by_cases ha : a ∈ rs
      · rw [if_pos ha]
        funext k
        show (T3 a k).2 = _
        rw [hT3, happ, if_pos ha]
        rfl
      · rw [if_neg ha]
        funext k
        show (T3 a k).2 = _
        rw [hT3, happ, if_neg ha]
        rfl
    have hE2r : sndT T2 r = fun k => E0 i k / c := by
      rw [hE2]
      rw [Function.update_same]
      funext k
      rw [hE1, swapFun_at_snd]
    have hE2other : ∀ a, a ≠ r → sndT T2 a = sndT T1 a := by
      intro a ha
      rw [hE2, Function.update_noteq ha]
    have hE3r : sndT T3 r = fun k => E0 i k / c := by
      rw [hE3, if_neg hrnotrs, hE2r]
    have hRowLow : ∀ a, a < r → sndT T3 a = E0 a := by
      intro a ha
      have hanr : a ≠ r := Nat.ne_of_lt ha
      have hani : a ≠ i := Nat.ne_of_lt (lt_of_lt_of_le ha hri)
      have hans : a ∉ rs := by
        rw [hrs_iff]
        omega
      rw [hE3, if_neg hans, hE2other a hanr, hE1, swapFun_other _ _ _ _ hani hanr]
    -- products of the new exact transformation with the exact input
    have hREr : ∀ j', mulQ m (sndT T3) B r j' = c⁻¹ * mulQ m E0 B i j' := by
      intro j'
      have h1 : mulQ m (sndT T3) B r j' = dotQ m (fun k => E0 i k * c⁻¹) (fun k => B k j') := by
        unfold mulQ
        rw [hE3r]
        apply dotQ_congr
        intro k _
        rw [div_eq_mul_inv]
      rw [h1, dotQ_smul]
      rfl
    have hRE1 : ∀ a j', mulQ m (sndT T1) B a j' = mulQ m E0 B (swapFun id i r a) j' := by
      intro a j'
      rw [hE1, mulQ_swap_row]
      unfold swapFun
      by_cases h1 : a = i
      · rw [if_pos h1, if_pos h1]; rfl
      · rw [if_neg h1, if_neg h1]
        by_cases h2 : a = r
        · rw [if_pos h2, if_pos h2]; rfl
        · rw [if_neg h2, if_neg h2]
          rfl
    have hcol'snd : ∀ a, (col' a).2 = mulQ m E0 B (swapFun id i r a) j := by
      intro a
      rw [hcol']
      unfold swapFun
      by_cases h1 : a = i
      · rw [if_pos h1, if_pos h1, hcolsnd]; rfl
      · rw [if_neg h1, if_neg h1]
        by_cases h2 : a = r
        · rw [if_pos h2, if_pos h2, hcolsnd]; rfl
        · rw [if_neg h2, if_neg h2, hcolsnd]
          rfl
    have hREelim : ∀ a ∈ rs, ∀ j', mulQ m (sndT T3) B a j'
        = mulQ m E0 B (swapFun id i r a) j'
          - (col' a).2 * (c⁻¹ * mulQ m E0 B i j') := by
      intro a ha j'
      have hanr : a ≠ r := Nat.ne_of_gt (hrselem a ha).1
      have h1 : mulQ m (sndT T3) B a j'
          = dotQ m (fun k => sndT T1 a k - (col' a).2 * ((fun k => E0 i k / c) k))
              (fun k => B k j') := by
        unfold mulQ
        rw [hE3, if_pos ha, hE2other a hanr, hE2r]
      rw [h1, dotQ_sub_smul]
      have h2 : dotQ m (fun k => E0 i k / c) (fun k => B k j')
          = c⁻¹ * mulQ m E0 B i j' := by
        rw [dotQ_congr m _ (fun k => E0 i k * c⁻¹) _ (fun k _ => div_eq_mul_inv _ _),
          dotQ_smul]
        rfl
      rw [h2]
      have h3 : dotQ m (sndT T1 a) (fun k => B k j') = mulQ m E0 B (swapFun id i r a) j' :=
        hRE1 a j'
      rw [h3]
    -- the new pivot column value
    have hREij : mulQ m E0 B i j = c := (hcolsnd i).symm
    -- old pattern facts transported
    have hpatold := inv.hpat
    have hvignette : ∀ jp ∈ s.2, jp.2 < r := pivotsOk_val_lt inv.hpiv
    refine ⟨?_, ?_, ?_, ?_⟩
    · -- membership
      intro a ham k hkm
      have hT2mem : ∀ x, x < m → pmem (T2 x k) := by
        intro x hxm
        by_cases hxr : x = r
        · subst hxr
          rw [hT2, Function.update_same]
          have h1 : pmem (T1 r k) := by
            rw [hT1]
            unfold swapFun
            by_cases h : r = i
            · rw [if_pos h]; exact inv.hmem r hxm k hkm
            · rw [if_neg h, if_pos rfl]; exact inv.hmem i him k hkm
          have h2 : pmem (col' r) := by
            rw [hcol'r]; exact hcolmem i him
          have h3 : (col' r).1.isNonzero = true := by
            rw [hcol'r]; exact hinz
          show Ball.mem ((prOps.div (T1 r k) (col' r))).2 ((prOps.div (T1 r k) (col' r))).1
          rw [prOps_div_snd, prOps_div_fst]
          exact Ball.mem_div h3 h1 h2
        · rw [hT2, Function.update_noteq hxr, hT1]
          unfold swapFun
          by_cases h : x = i
          · rw [if_pos h]
            exact inv.hmem r hrm k hkm
          · rw [if_neg h]
            by_cases h2 : x = r
            · exact absurd h2 hxr
            · rw [if_neg h2]
              exact inv.hmem x hxm k hkm
      have happ := eliminateRows_apply prOps rs r col' T2 hndrs hrnotrs a
      by_cases ha : a ∈ rs
      · show pmem (T3 a k)
        rw [hT3, happ, if_pos ha]
        have h1 : pmem (col' a) := by
          rw [hcol']
          unfold swapFun
          by_cases h : a = i
          · rw [if_pos h]; exact hcolmem r hrm
          · rw [if_neg h]
            by_cases h2 : a = r
            · rw [if_pos h2]; exact hcolmem i him
            · rw [if_neg h2]; exact hcolmem a ham
        show Ball.mem ((prOps.sub (T2 a k) (prOps.mul (col' a) (T2 r k)))).2
          ((prOps.sub (T2 a k) (prOps.mul (col' a) (T2 r k)))).1
        rw [prOps_sub_snd, prOps_sub_fst, prOps_mul_snd, prOps_mul_fst]
        exact Ball.mem_sub (hT2mem a ham) (Ball.mem_mul h1 (hT2mem r hrm))
      · show pmem (T3 a k)
        rw [hT3, happ, if_neg ha]
        exact hT2mem a ham
    · -- pivot dictionary structure
      obtain ⟨hsnd, hkeys, hlen, hnod⟩ := inv.hpiv
      refine ⟨?_, ?_, ?_, ?_⟩
      · rw [List.map_append, hsnd, List.length_append]
        simp [List.range_succ]
      · intro jp hjp
        rcases List.mem_append.mp hjp with h | h
        · exact hkeys jp h
        · rcases List.mem_singleton.mp h with rfl
          exact hj
      · rw [List.length_append]
        simpa using hrm
      · rw [List.map_append]
        rw [List.nodup_append]
        refine ⟨hnod, List.nodup_singleton _, ?_⟩
        intro a hain hain2
        rcases List.mem_singleton.mp hain2 with rfl
        apply hl
        rw [lookup_isSome_iff]
        rcases List.mem_map.mp hain with ⟨jp, hjp, rfl⟩
        exact ⟨jp, hjp, rfl⟩
    · -- echelon pattern
      intro jp hjp
      rcases List.mem_append.mp hjp with hold | hnew
      · -- an old pivot
        have hpjr : jp.2 < r := hvignette jp hold
        have hkey := hpatold jp hold
        constructor
        · have hrow := hRowLow jp.2 hpjr
          rw [mulQ_row_congr m _ E0 B jp.2 hrow]
          exact hkey.1
        · intro i' hi'1 hi'2
          by_cases hc1 : i' < r
          · have hrow := hRowLow i' hc1
            rw [mulQ_row_congr m _ E0 B i' hrow]
            exact hkey.2 i' hi'1 hi'2
          · by_cases hc2 : i' = r
            · subst hc2
              rw [hREr jp.1]
              rw [hkey.2 i (lt_of_lt_of_le hpjr hri) him]
              ring
            · have hi'rs : i' ∈ rs := by
                rw [hrs_iff]
                omega
              rw [hREelim i' hi'rs jp.1]
              have hz1 : mulQ m E0 B (swapFun id i r i') jp.1 = 0 := by
                unfold swapFun
                by_cases h : i' = i
                · rw [if_pos h]
                  exact hkey.2 r (lt_of_lt_of_le hpjr (le_refl r)) hrm
                · rw [if_neg h, if_neg hc2]
                  show mulQ m E0 B (id i') jp.1 = 0
                  exact hkey.2 i' hi'1 hi'2
              have hz2 : mulQ m E0 B i jp.1 = 0 :=
                hkey.2 i (lt_of_lt_of_le hpjr hri) him
              rw [hz1, hz2]
              ring
      · -- the new pivot
        rcases List.mem_singleton.mp hnew with rfl
        constructor
        · show mulQ m (sndT T3) B r j = 1
          rw [hREr j, hREij]
          exact inv_mul_cancel₀ hc0
        · intro i' hi'1 hi'2
          show mulQ m (sndT T3) B i' j = 0
          have hi'rs : i' ∈ rs := by
            rw [hrs_iff]
            exact ⟨hi'1, hi'2⟩
          rw [hREelim i' hi'rs j, hREij, hcol'snd i']
          have : mulQ m E0 B (swapFun id i r i') j
              - mulQ m E0 B (swapFun id i r i') j * (c⁻¹ * c) = 0 := by
            rw [inv_mul_cancel₀ hc0]
            ring
          exact this
    · -- determinant of the exact transformation
      have hdet0 : (finMat m E0).det ≠ 0 := inv.hdet
      have hdet1 : (finMat m (sndT T1)).det ≠ 0 := by
        rw [hE1, finMat_swap m E0 i r him hrm]
        have := Matrix.det_permute (Equiv.swap (⟨i, him⟩ : Fin m) ⟨r, hrm⟩) (finMat m E0)
        rw [this]
        apply mul_ne_zero _ hdet0
        rcases Int.units_eq_one_or (Equiv.Perm.sign (Equiv.swap (⟨i, him⟩ : Fin m) ⟨r, hrm⟩)) with h | h <;>
          rw [h] <;> norm_num
      have hdet2 : (finMat m (sndT T2)).det ≠ 0 := by
        rw [hE2, finMat_update m (sndT T1) r hrm]
        have harg : (fun k : Fin m => (fun k => sndT T1 r k / c) k.1)
            = c⁻¹ • ((finMat m (sndT T1)) ⟨r, hrm⟩) := by
          funext k
          show sndT T1 r k.1 / c = c⁻¹ * sndT T1 r k.1
          rw [div_eq_mul_inv, mul_comm]
        rw [harg, Matrix.det_updateRow_smul, Matrix.updateRow_eq_self]
        exact mul_ne_zero (inv_ne_zero hc0) hdet1
      have hfin3 : finMat m (sndT T3)
          = Matrix.of fun a k : Fin m =>
              if a.1 ∈ rs then finMat m (sndT T2) a k
                  - (col' a.1).2 * finMat m (sndT T2) ⟨r, hrm⟩ k
                else finMat m (sndT T2) a k := by
        funext a k
        show sndT T3 a.1 k.1 = _
        rw [hE3 a.1]
        by_cases ha : a.1 ∈ rs
        · rw [if_pos ha]
          simp only [Matrix.of_apply, if_pos ha]
          rfl
        · rw [if_neg ha]
          simp only [Matrix.of_apply, if_neg ha]
          rfl
      rw [hfin3]
      exact det_ne_zero_elim m (finMat m (sndT T2)) r hrm rs (fun a => (col' a).2)
        hndrs hrnotrs (fun a ha => (hrselem a ha).2) hdet2

theorem foldl_mainStep_inv (m n : ℕ) (matP : ℕ → ℕ → Ball × ℚ)
    (hmat : ∀ i, i < m → ∀ j, j < n → pmem (matP i j)) (l : List ℕ)
    (hl : ∀ j ∈ l, j < n) (s : (ℕ → ℕ → Ball × ℚ) × List (ℕ × ℕ))
    (inv : ElimInv m n matP s) :
    ElimInv m n matP (l.foldl (mainStep prOps m matP) s) := by
  induction l generalizing s with
  | nil => exact inv
  | cons a t ih =>
    simp only [List.foldl_cons]
    exact ih (fun j hj => hl j (List.mem_cons_of_mem a hj)) _
      (mainStep_inv m n matP hmat s a (hl a (List.mem_cons_self a t)) inv)

theorem elimRun_inv (m n : ℕ) (matP : ℕ → ℕ → Ball × ℚ)
    (hmat : ∀ i, i < m → ∀ j, j < n → pmem (matP i j)) (p₀ : List (ℕ × ℕ))
    (hinit : ElimInv m n matP (replayPivots prOps m matP p₀, p₀)) :
    ElimInv m n matP (elimRun prOps m n matP p₀) := by
  unfold elimRun
  exact foldl_mainStep_inv m n matP hmat (List.range n)
    (fun j hj => List.mem_range.mp hj) _ hinit

/-- With no resumed pivots the replay phase is the identity. -/
theorem replayPivots_nil {α : Type} (O : BallOps α) (m : ℕ) (mat : ℕ → ℕ → α) :
    replayPivots O m mat [] = idMat O := rfl

/-- The initial state for a fresh run satisfies the invariant. -/
theorem init_inv_nil (m n : ℕ) (matP : ℕ → ℕ → Ball × ℚ) :
    ElimInv m n matP (replayPivots prOps m matP [], []) := by
  rw [replayPivots_nil]
  refine ⟨?_, ?_, ?_, ?_⟩
  · intro i _ k _
    show pmem (if i = k then prOps.one else prOps.zero)
    by_cases h : i = k
    · rw [if_pos h]; exact Ball.mem_one
    · rw [if_neg h]; exact Ball.mem_zero
  · exact ⟨rfl, fun jp h => absurd h (List.not_mem_nil jp), Nat.zero_le m,
      List.nodup_nil⟩
  · intro jp h
    exact absurd h (List.not_mem_nil jp)
  · have hid : finMat m (sndT (idMat prOps)) = 1 := by
      funext a b
      show sndT (idMat prOps) a.1 b.1 = (1 : Matrix (Fin m) (Fin m) ℚ) a b
      rw [Matrix.one_apply]
      show (if a.1 = b.1 then prOps.one else prOps.zero).2 = _
      by_cases h : a.1 = b.1
      · rw [if_pos h, if_pos (Fin.ext h)]; rfl
      · rw [if_neg h, if_neg (fun hh => h (congrArg Fin.val hh))]; rfl
    rw [hid, Matrix.det_one]
    norm_num

theorem mainStep_grows {α : Type} (O : BallOps α) (m : ℕ) (mat : ℕ → ℕ → α)
    (st : (ℕ → ℕ → α) × List (ℕ × ℕ)) (j : ℕ) :
    st.2 <+: (mainStep O m mat st j).2 := by
  unfold mainStep
  by_cases hl : (st.2.lookup j).isSome = true
  · rw [if_pos hl]
  · rw [if_neg hl]
    simp only []
    cases pickPivot O (colOf O m st.1 mat j)
        ((List.range' st.2.length (m - st.2.length)).filter
          fun l => O.isNonzero (colOf O m st.1 mat j l)) with
    | none => exact List.prefix_rfl
    | some i => exact ⟨[(j, st.2.length)], rfl⟩

theorem foldl_mainStep_grows {α : Type} (O : BallOps α) (m : ℕ)
    (mat : ℕ → ℕ → α) (l : List ℕ) (st : (ℕ → ℕ → α) × List (ℕ × ℕ)) :
    st.2 <+: (l.foldl (mainStep O m mat) st).2 := by
  induction l generalizing st with
  | nil => exact List.prefix_rfl
  | cons a t ih =>
    simp only [List.foldl_cons]
    exact List.IsPrefix.trans (mainStep_grows O m mat st a) (ih _)

theorem elimRun_grows {α : Type} (O : BallOps α) (m n : ℕ) (mat : ℕ → ℕ → α)
    (p₀ : List (ℕ × ℕ)) : p₀ <+: (elimRun O m n mat p₀).2 := by
  unfold elimRun
  exact foldl_mainStep_grows O m mat (List.range n) (replayPivots O m mat p₀, p₀)

theorem lookup_cons (j k v : ℕ) (t : List (ℕ × ℕ)) :
    List.lookup j ((k, v) :: t) = if j = k then some v else List.lookup j t := by
  by_cases h : j = k
  · subst h; simp [List.lookup]
  · simp [List.lookup, beq_eq_false_iff_ne.mpr h, h]

theorem lookup_eq_none_of_not_key (p : List (ℕ × ℕ)) (j : ℕ)
    (h : ∀ jp ∈ p, jp.1 ≠ j) : List.lookup j p = none := by
  have h2 : ¬ (p.lookup j).isSome = true := by
    rw [lookup_isSome_iff]
    rintro ⟨jp, hjp, hj⟩
    exact h jp hjp hj
  exact Option.not_isSome_iff_eq_none.mp h2

theorem lookup_mem (p : List (ℕ × ℕ)) (j pb : ℕ) (h : List.lookup j p = some pb) :
    (j, pb) ∈ p := by
  induction p with
  | nil => simp [List.lookup] at h
  | cons a t ih =>
    obtain ⟨k, v⟩ := a
    rw [lookup_cons] at h
    by_cases hjk : j = k
    · rw [if_pos hjk] at h
      rcases Option.some.injEq _ _ ▸ h with rfl
      subst hjk
      rw [Option.some.injEq] at h
      exact h ▸ List.mem_cons_self _ t
    · rw [if_neg hjk] at h
      exact List.mem_cons_of_mem _ (ih h)

theorem foldl_setEntry_apply {α : Type} (rs : List ℕ) (jcol : ℕ) (v : α)
    (R : ℕ → ℕ → α) (a b : ℕ) :
    (rs.foldl (fun R i => setEntry R i jcol v) R) a b
      = if b = jcol ∧ a ∈ rs then v else R a b := by
  induction rs generalizing R with
  | nil => simp
  | cons i' t ih =>
    simp only [List.foldl_cons]
    rw [ih]
    by_cases hb : b = jcol
    · by_cases hat : a ∈ t
      · rw [if_pos ⟨hb, hat⟩, if_pos ⟨hb, List.mem_cons_of_mem i' hat⟩]
      · rw [if_neg (fun h => hat h.2)]
        by_cases hai : a = i'
        · rw [if_pos ⟨hb, hai ▸ List.mem_cons_self i' t⟩]
          show (if a = i' ∧ b = jcol then v else R a b) = v
          rw [if_pos ⟨hai, hb⟩]
        · rw [if_neg (fun h => (List.mem_cons.mp h.2).elim hai hat)]
          show (if a = i' ∧ b = jcol then v else R a b) = R a b
          rw [if_neg (fun h => hai h.1)]
    · rw [if_neg (fun h => hb h.1), if_neg (fun h => hb h.1)]
      show (if a = i' ∧ b = jcol then v else R a b) = R a b
      rw [if_neg (fun h => hb h.2)]

theorem overwritePivots_apply {α : Type} (O : BallOps α) (m : ℕ)
    (p : List (ℕ × ℕ)) (R : ℕ → ℕ → α) (hnodup : (p.map Prod.fst).Nodup)
    (a b : ℕ) :
    overwritePivots O m p R a b
      = match p.lookup b with
        | some pb =>
            if a = pb then O.one
            else if pb + 1 ≤ a ∧ a < m then O.zero else R a b
        | none => R a b := by
  induction p generalizing R with
  | nil => rfl
  | cons jp t ih =>
    obtain ⟨j0, p0⟩ := jp
    have hj0 : j0 ∉ t.map Prod.fst := (List.nodup_cons.mp hnodup).1
    have hndt : (t.map Prod.fst).Nodup := (List.nodup_cons.mp hnodup).2
    show overwritePivots O m t
        ((List.range' (p0 + 1) (m - (p0 + 1))).foldl
          (fun R i => setEntry R i j0 O.zero) (setEntry R p0 j0 O.one)) a b = _
    rw [ih _ hndt]
    have hR1 : ∀ a' b', ((List.range' (p0 + 1) (m - (p0 + 1))).foldl
          (fun R i => setEntry R i j0 O.zero) (setEntry R p0 j0 O.one)) a' b'
        = if b' = j0 then
            (if a' = p0 then O.one
             else if p0 + 1 ≤ a' ∧ a' < m then O.zero else R a' b')
          else R a' b' := by
      intro a' b'
      rw [foldl_setEntry_apply]
      by_cases hb : b' = j0
      · by_cases hmem : a' ∈ List.range' (p0 + 1) (m - (p0 + 1))
        · have hrange := List.mem_range'_1.mp hmem
          have ha'm : a' < m := by omega
          have ha'p0 : a' ≠ p0 := by omega
          rw [if_pos ⟨hb, hmem⟩, if_pos hb, if_neg ha'p0,
            if_pos ⟨hrange.1, ha'm⟩]
        · rw [if_neg (fun h => hmem h.2), if_pos hb]
          by_cases hap : a' = p0
          · show (if a' = p0 ∧ b' = j0 then O.one else R a' b') = _
            rw [if_pos ⟨hap, hb⟩, if_pos hap]
          · show (if a' = p0 ∧ b' = j0 then O.one else R a' b') = _
            rw [if_neg (fun h => hap h.1), if_neg hap]
            have : ¬ (p0 + 1 ≤ a' ∧ a' < m) := by
              intro hcon
              apply hmem
              rw [List.mem_range'_1]
              omega
            rw [if_neg this]
      · rw [if_neg (fun h => hb h.1), if_neg hb]
        show (if a' = p0 ∧ b' = j0 then O.one else R a' b') = R a' b'
        rw [if_neg (fun h => hb h.2)]
    rw [lookup_cons]
    by_cases hbj : b = j0
    · rw [if_pos hbj]
      have hlook : t.lookup b = none := by
        apply lookup_eq_none_of_not_key
        intro jp hjp hkey
        apply hj0
        rw [hbj] at hkey
        exact hkey ▸ List.mem_map_of_mem Prod.fst hjp
      rw [hlook]
      show ((List.range' (p0 + 1) (m - (p0 + 1))).foldl
          (fun R i => setEntry R i j0 O.zero) (setEntry R p0 j0 O.one)) a b = _
      rw [hR1 a b, if_pos hbj]
    · rw [if_neg hbj]
      cases hlt : t.lookup b with
      | none =>
        show _ = R a b
        rw [hR1 a b, if_neg hbj]
      | some pb =>
        rw [hR1 a b, if_neg hbj]

theorem REFcore_pair_sound (m n : ℕ) (matP : ℕ → ℕ → Ball × ℚ)
    (hmat : ∀ i, i < m → ∀ j, j < n → pmem (matP i j)) (p₀ : List (ℕ × ℕ))
    (hinv : ElimInv m n matP (elimRun prOps m n matP p₀)) :
    matMem m n (mulQ m (sndT (elimRun prOps m n matP p₀).1) (sndT matP))
      (liftT (REFcore prOps m n matP p₀).1) := by
  intro a ham b hbn
  show Ball.mem _ ((overwritePivots prOps m (elimRun prOps m n matP p₀).2
      (matMulF prOps m (elimRun prOps m n matP p₀).1 matP)) a b).1
  rw [overwritePivots_apply prOps m _ _ hinv.hpiv.2.2.2 a b]
  have hdotmem : Ball.mem
      (mulQ m (sndT (elimRun prOps m n matP p₀).1) (sndT matP) a b)
      ((matMulF prOps m (elimRun prOps m n matP p₀).1 matP a b).1) := by
    have hpm := dot_pmem m ((elimRun prOps m n matP p₀).1 a) (fun k => matP k b)
      (fun k hk => hinv.hmem a ham k hk) (fun k hk => hmat k hk b hbn)
    have hsnd : (matMulF prOps m (elimRun prOps m n matP p₀).1 matP a b).2
        = mulQ m (sndT (elimRun prOps m n matP p₀).1) (sndT matP) a b := by
      show (prOps.dot m _ _).2 = _
      rw [dot_snd]
      rfl
    rw [← hsnd]
    exact hpm
  cases hlook : (elimRun prOps m n matP p₀).2.lookup b with
  | none => exact hdotmem
  | some pb =>
    have hmemp : (b, pb) ∈ (elimRun prOps m n matP p₀).2 := lookup_mem _ _ _ hlook
    have hpat := hinv.hpat (b, pb) hmemp
    show Ball.mem _
      ((if a = pb then prOps.one
        else if pb + 1 ≤ a ∧ a < m then prOps.zero
        else matMulF prOps m (elimRun prOps m n matP p₀).1 matP a b)).1
    by_cases hab : a = pb
    · rw [if_pos hab]
      show Ball.mem _ Ball.one
      subst hab
      rw [hpat.1]
      exact Ball.mem_one
    · rw [if_neg hab]
      by_cases hbel : pb + 1 ≤ a ∧ a < m
      · rw [if_pos hbel]
        show Ball.mem _ Ball.zero
        rw [hpat.2 a hbel.1 hbel.2]
        exact Ball.mem_zero
      · rw [if_neg hbel]
        exact hdotmem

/-- **C1.**  If `REF(mat, transformation=True)` returns `(R, T)` without
raising, then for every exact matrix `mat·` enclosed in `mat` there are an
exact `T·` enclosed in `T` and an exact `R·` enclosed in `R` with
`R· = T·  mat·`, and `T·` is invertible (nonzero determinant). -/
theorem REF_transformation_certifies (m n : ℕ) (mat : ℕ → ℕ → Ball)
    (mate : ℕ → ℕ → ℚ) (hmem : matMem m n mate mat) (R T : ℕ → ℕ → Ball)
    (hok : REF m n mat true false [] = Except.ok (R, some T, none)) :
    ∃ Te : ℕ → ℕ → ℚ, matMem m m Te T ∧ matMem m n (mulQ m Te mate) R
      ∧ (finMat m Te).det ≠ 0 := by
  have hpm : ∀ i, i < m → ∀ j, j < n →
      pmem ((fun i j => (mat i j, mate i j)) i j) :=
    fun i hi j hj => hmem i hi j hj
  have hinv := elimRun_inv m n (fun i j => (mat i j, mate i j)) hpm []
    (init_inv_nil m n (fun i j => (mat i j, mate i j)))
  have hfst : REFcore ballOps m n mat []
      = (liftT (REFcore prOps m n (fun i j => (mat i j, mate i j)) []).1,
         liftT (REFcore prOps m n (fun i j => (mat i j, mate i j)) []).2.1,
         (REFcore prOps m n (fun i j => (mat i j, mate i j)) []).2.2) :=
    REFcore_fst m n (fun i j => (mat i j, mate i j)) []
  unfold REF at hok
  by_cases hz : (detB m (REFcore ballOps m n mat []).2.1).containsZero = true
  · simp only [if_true, hz] at hok
    exact absurd hok (by simp)
  · simp only [if_true, hz, Bool.false_eq_true, if_false,
      Except.ok.injEq, Prod.mk.injEq, Option.some.injEq, and_true] at hok
    obtain ⟨hR, hT⟩ := hok
    refine ⟨sndT (elimRun prOps m n (fun i j => (mat i j, mate i j)) []).1,
      ?_, ?_, hinv.hdet⟩
    · intro i hi k hk
      rw [← hT, hfst]
      exact hinv.hmem i hi k hk
    · intro i hi j hj
      rw [← hR, hfst]
      exact REFcore_pair_sound m n (fun i j => (mat i j, mate i j)) hpm []
        hinv i hi j hj

unseal Rat.add Rat.mul Rat.sub Rat.inv in
/-- Witness for C1 at the exact `1×1` matrix `[[1]]`. -/
theorem REF_transformation_certifies_witness :
    ∃ Te : ℕ → ℕ → ℚ,
      matMem 1 1 Te (REFcore ballOps 1 1 (fun _ _ => Ball.one) []).2.1
      ∧ matMem 1 1 (mulQ 1 Te (fun _ _ => (1 : ℚ)))
          (REFcore ballOps 1 1 (fun _ _ => Ball.one) []).1
      ∧ (finMat 1 Te).det ≠ 0 :=
  REF_transformation_certifies 1 1 (fun _ _ => Ball.one) (fun _ _ => 1)
    (fun i _ j _ => Ball.mem_one) _ _ rfl

theorem foldr_add_shift (l : List ℚ) (x : ℚ) :
    l.foldr (· + ·) x = l.foldr (· + ·) 0 + x := by
  induction l with
  | nil => simp
  | cons a t ih => simp only [List.foldr_cons, ih]; ring

theorem dotQ_succ (m : ℕ) (u v : ℕ → ℚ) :
    dotQ (m + 1) u v = dotQ m u v + u m * v m := by
  unfold dotQ
  rw [List.range_succ, List.map_append, List.foldr_append]
  simp only [List.map_cons, List.map_nil, List.foldr_cons, List.foldr_nil]
  rw [foldr_add_shift]
  ring

theorem dotQ_eq_sum (m : ℕ) (u v : ℕ → ℚ) :
    dotQ m u v = ∑ k : Fin m, u k.1 * v k.1 := by
  induction m with
  | zero => simp [dotQ]
  | succ t ih =>
    rw [dotQ_succ, ih, Fin.sum_univ_castSucc]
    rfl

theorem finMatR_mulQ (m n : ℕ) (E F : ℕ → ℕ → ℚ) :
    finMatR m n (mulQ m E F) = finMat m E * finMatR m n F := by
  funext i j
  show mulQ m E F i.1 j.1 = _
  rw [Matrix.mul_apply]
  unfold mulQ
  rw [dotQ_eq_sum]
  rfl

/-- Selecting a square submatrix (given row and column index maps) never
increases the rank: it is a product with 0-1 selection matrices. -/
theorem rank_submatrix_select_le (m n r : ℕ) (A : Matrix (Fin m) (Fin n) ℚ)
    (fr : Fin r → Fin m) (fc : Fin r → Fin n) :
    (A.submatrix fr fc).rank ≤ A.rank := by
  have hfac : A.submatrix fr fc
      = (Matrix.of fun t (i : Fin m) => if i = fr t then (1 : ℚ) else 0)
        * (A * Matrix.of fun (b : Fin n) t => if b = fc t then (1 : ℚ) else 0) := by
    funext t t'
    rw [Matrix.mul_apply]
    have hcol : ∀ i : Fin m,
        (A * Matrix.of fun (b : Fin n) t => if b = fc t then (1 : ℚ) else 0) i t'
          = A i (fc t') := by
      intro i
      rw [Matrix.mul_apply]
      have : ∀ b : Fin n, A i b * (if b = fc t' then (1 : ℚ) else 0)
          = if b = fc t' then A i b else 0 := by
        intro b
        by_cases h : b = fc t'
        · rw [if_pos h, if_pos h, mul_one]
        · rw [if_neg h, if_neg h, mul_zero]
      simp only [Matrix.of_apply]
      rw [Finset.sum_congr rfl fun b _ => this b, Finset.sum_ite_eq' Finset.univ (fc t') (A i)]
      rw [if_pos (Finset.mem_univ _)]
    have hrow : ∀ i : Fin m,
        (Matrix.of fun t (i : Fin m) => if i = fr t then (1 : ℚ) else 0) t i
          * (A * Matrix.of fun (b : Fin n) t => if b = fc t then (1 : ℚ) else 0) i t'
        = if i = fr t then A i (fc t') else 0 := by
      intro i
      rw [hcol i]
      simp only [Matrix.of_apply]
      by_cases h : i = fr t
      · rw [if_pos h, if_pos h, one_mul]
      · rw [if_neg h, if_neg h, zero_mul]
    rw [Finset.sum_congr rfl fun i _ => hrow i,
      Finset.sum_ite_eq' Finset.univ (fr t) (fun i => A i (fc t')),
      if_pos (Finset.mem_univ _)]
    rfl
  rw [hfac]
  calc ((Matrix.of fun t (i : Fin m) => if i = fr t then (1 : ℚ) else 0)
        * (A * Matrix.of fun (b : Fin n) t => if b = fc t then (1 : ℚ) else 0)).rank
      ≤ (A * Matrix.of fun (b : Fin n) t => if b = fc t then (1 : ℚ) else 0).rank :=
        Matrix.rank_mul_le_right _ _
    _ ≤ A.rank := Matrix.rank_mul_le_left _ _

/-- **C3.**  The number of pivots returned by `REF(mat, pivots=True)` never
exceeds the rank of any exact matrix enclosed in `mat`. -/
theorem REF_pivot_count_le_rank (m n : ℕ) (mat : ℕ → ℕ → Ball)
    (mate : ℕ → ℕ → ℚ) (hmem : matMem m n mate mat) (R : ℕ → ℕ → Ball)
    (p : List (ℕ × ℕ)) (hok : REF m n mat false true [] = Except.ok (R, none, some p)) :
    p.length ≤ (finMatR m n mate).rank := by
  have hpm : ∀ i, i < m → ∀ j, j < n →
      pmem ((fun i j => (mat i j, mate i j)) i j) :=
    fun i hi j hj => hmem i hi j hj
  have hinv := elimRun_inv m n (fun i j => (mat i j, mate i j)) hpm []
    (init_inv_nil m n (fun i j => (mat i j, mate i j)))
  have hfst : REFcore ballOps m n mat []
      = (liftT (REFcore prOps m n (fun i j => (mat i j, mate i j)) []).1,
         liftT (REFcore prOps m n (fun i j => (mat i j, mate i j)) []).2.1,
         (REFcore prOps m n (fun i j => (mat i j, mate i j)) []).2.2) :=
    REFcore_fst m n (fun i j => (mat i j, mate i j)) []
  unfold REF at hok
  simp only [Bool.false_eq_true, if_false, if_true, Except.ok.injEq,
    Prod.mk.injEq, Option.some.injEq, true_and] at hok
  have hp : p = (REFcore prOps m n (fun i j => (mat i j, mate i j)) []).2.2 := by
    rw [← hok.2, hfst]
  have hp2 : p = (elimRun prOps m n (fun i j => (mat i j, mate i j)) []).2 := hp
  obtain ⟨hsnd, hkeys, hlenm, hnod⟩ := hinv.hpiv
  rw [← hp2] at hsnd hkeys hlenm hnod
  have hpatn := hinv.hpat
  have hpat : patternOk m
      (mulQ m (sndT (elimRun prOps m n (fun i j => (mat i j, mate i j)) []).1) mate) p := by
    rw [hp2]
    exact hpatn
  set E := sndT (elimRun prOps m n (fun i j => (mat i j, mate i j)) []).1 with hE
  -- value of the t-th pivot pair
  have hvals : ∀ (t : ℕ) (ht : t < p.length), (p.get ⟨t, ht⟩).2 = t := by
    intro t ht
    have hlm : t < (p.map Prod.snd).length := by simpa using ht
    have h1 : (p.map Prod.snd).get ⟨t, hlm⟩ = (p.get ⟨t, ht⟩).2 :=
      List.get_map Prod.snd
    have h2 : (p.map Prod.snd).get ⟨t, hlm⟩
        = (List.range p.length).get ⟨t, by simpa using ht⟩ := by
      apply List.get_of_eq hsnd
    rw [h2, List.get_range] at h1
    exact h1.symm
  have hkeybound : ∀ (t : ℕ) (ht : t < p.length), (p.get ⟨t, ht⟩).1 < n :=
    fun t ht => hkeys _ (List.get_mem p t ht)
  -- the r×r pivot submatrix of E·mat· is upper triangular with unit diagonal
  set A := finMatR m n (mulQ m E mate) with hA
  set fr : Fin p.length → Fin m :=
    fun t => ⟨t.1, lt_of_lt_of_le t.2 hlenm⟩ with hfr
  set fc : Fin p.length → Fin n :=
    fun t => ⟨(p.get ⟨t.1, t.2⟩).1, hkeybound t.1 t.2⟩ with hfc
  have hBlow : ∀ t' t : Fin p.length, t.1 < t'.1 →
      (A.submatrix fr fc) t' t = 0 := by
    intro t' t hlt
    show mulQ m E mate t'.1 (p.get ⟨t.1, t.2⟩).1 = 0
    have hmemp := List.get_mem p t.1 t.2
    have := (hpat _ hmemp).2 t'.1
    rw [hvals t.1 t.2] at this
    exact this hlt (lt_of_lt_of_le t'.2 hlenm)
  have hBdiag : ∀ t : Fin p.length, (A.submatrix fr fc) t t = 1 := by
    intro t
    show mulQ m E mate t.1 (p.get ⟨t.1, t.2⟩).1 = 1
    have hmemp := List.get_mem p t.1 t.2
    have := (hpat _ hmemp).1
    rwa [hvals t.1 t.2] at this
  have hdetB : (A.submatrix fr fc).det = 1 := by
    rw [Matrix.det_of_upperTriangular]
    · rw [Finset.prod_congr rfl fun t _ => hBdiag t]
      exact Finset.prod_const_one
    · intro i j hij
      exact hBlow i j hij
  have hrankB : (A.submatrix fr fc).rank = p.length := by
    rw [Matrix.rank_of_isUnit]
    · exact Fintype.card_fin _
    · rw [Matrix.isUnit_iff_isUnit_det, hdetB]
      exact isUnit_one
  have hstep1 : p.length ≤ A.rank := by
    rw [← hrankB]
    exact rank_submatrix_select_le m n p.length A fr fc
  have hstep2 : A.rank ≤ (finMatR m n mate).rank := by
    rw [hA, finMatR_mulQ]
    exact Matrix.rank_mul_le_right _ _
  exact le_trans hstep1 hstep2

unseal Rat.add Rat.mul Rat.sub Rat.inv in
/-- Witness for C3 at the exact `1×1` matrix `[[1]]`, of rank `1`. -/
theorem REF_pivot_count_le_rank_witness :
    (REFcore ballOps 1 1 (fun _ _ => Ball.one) []).2.2.length
      ≤ (finMatR 1 1 (fun _ _ => (1 : ℚ))).rank :=
  REF_pivot_count_le_rank 1 1 (fun _ _ => Ball.one) (fun _ _ => 1)
    (fun i _ j _ => Ball.mem_one) _ _ rfl

theorem Ball.zero_mul_exact (b : Ball) : Ball.zero.mul b = Ball.zero := by
  unfold Ball.zero Ball.mul
  simp

theorem Ball.one_mul_exact (b : Ball) : Ball.one.mul b = b := by
  unfold Ball.one Ball.mul
  simp

theorem Ball.add_zero_exact (b : Ball) : b.add Ball.zero = b := by
  unfold Ball.zero Ball.add
  simp

theorem Ball.zero_add_exact (b : Ball) : Ball.zero.add b = b := by
  unfold Ball.zero Ball.add
  simp

theorem Ball.sub_zero_exact (b : Ball) : b.sub Ball.zero = b := by
  unfold Ball.zero Ball.sub
  simp

theorem dot_notmem_zero (i : ℕ) (v : ℕ → Ball) (l : List ℕ) (hi : i ∉ l) :
    ((l.map fun k => ballOps.mul (idMat ballOps i k) (v k)).foldr
      ballOps.add ballOps.zero) = Ball.zero := by
  induction l with
  | nil => rfl
  | cons a t ih =>
    have hia : i ≠ a := fun h => hi (h ▸ List.mem_cons_self a t)
    have hit : i ∉ t := fun h => hi (List.mem_cons_of_mem a h)
    simp only [List.map_cons, List.foldr_cons, ih hit]
    show (ballOps.mul (idMat ballOps i a) (v a)).add Ball.zero = Ball.zero
    rw [Ball.add_zero_exact]
    show (if i = a then Ball.one else Ball.zero).mul (v a) = Ball.zero
    rw [if_neg hia, Ball.zero_mul_exact]

theorem dot_idRow (m i : ℕ) (v : ℕ → Ball) (him : i < m) :
    ballOps.dot m (idMat ballOps i) v = v i := by
  unfold BallOps.dot
  have haux : ∀ l : List ℕ, l.Nodup → i ∈ l →
      ((l.map fun k => ballOps.mul (idMat ballOps i k) (v k)).foldr
        ballOps.add ballOps.zero) = v i := by
    intro l hnd hmem
    induction l with
    | nil => exact absurd hmem (List.not_mem_nil i)
    | cons a t ih =>
      simp only [List.map_cons, List.foldr_cons]
      by_cases hia : i = a
      · subst hia
        have hit : i ∉ t := (List.nodup_cons.mp hnd).1
        rw [dot_notmem_zero i v t hit]
        show ((if i = i then Ball.one else Ball.zero).mul (v i)).add Ball.zero = v i
        rw [if_pos rfl, Ball.one_mul_exact, Ball.add_zero_exact]
      · have hit : i ∈ t := (List.mem_cons.mp hmem).resolve_left hia
        rw [ih (List.nodup_cons.mp hnd).2 hit]
        show ((if i = a then Ball.one else Ball.zero).mul (v a)).add (v i) = v i
        rw [if_neg hia, Ball.zero_mul_exact, Ball.zero_add_exact]
  exact haux (List.range m) (List.nodup_range m) (List.mem_range.mpr him)

theorem colOf_idMat (m : ℕ) (R : ℕ → ℕ → Ball) (j i : ℕ) (him : i < m) :
    colOf ballOps m (idMat ballOps) R j i = R i j := by
  unfold colOf
  exact dot_idRow m i (fun k => R k j) him

theorem replay_clean_id (m n : ℕ) (R : ℕ → ℕ → Ball) (p : List (ℕ × ℕ))
    (hpatb : ∀ jp ∈ p, R jp.2 jp.1 = Ball.one
      ∧ ∀ i, jp.2 < i → i < m → R i jp.1 = Ball.zero)
    (hsnd : p.map Prod.snd = List.range p.length) :
    replayPivots ballOps m R p = idMat ballOps := by
  unfold replayPivots
  have hvlt : ∀ jp ∈ p, jp.2 < p.length := by
    intro jp hjp
    have hmem : jp.2 ∈ p.map Prod.snd := List.mem_map_of_mem _ hjp
    rw [hsnd] at hmem
    exact List.mem_range.mp hmem
  have key : ∀ l : List (ℕ × ℕ), (∀ jp ∈ l, jp ∈ p) →
      l.foldl
        (fun T jp =>
          eliminateRows ballOps (List.range' p.length (m - p.length)) jp.2
            (colOf ballOps m T R jp.1) T)
        (idMat ballOps) = idMat ballOps := by
    intro l hl
    induction l with
    | nil => rfl
    | cons a t ih =>
      simp only [List.foldl_cons]
      have hap : a ∈ p := hl a (List.mem_cons_self a t)
      have hstep : eliminateRows ballOps (List.range' p.length (m - p.length)) a.2
          (colOf ballOps m (idMat ballOps) R a.1) (idMat ballOps) = idMat ballOps := by
        funext x
        rw [eliminateRows_apply ballOps _ a.2 _ _ (List.nodup_range' _ _) ?hpivnot x]
        case hpivnot =>
          intro hmem
          have := (List.mem_range'_1.mp hmem).1
          have := hvlt a hap
          omega
        by_cases hx : x ∈ List.range' p.length (m - p.length)
        · rw [if_pos hx]
          have hxr := List.mem_range'_1.mp hx
          have hxm : x < m := by omega
          have hcz : colOf ballOps m (idMat ballOps) R a.1 x = Ball.zero := by
            rw [colOf_idMat m R a.1 x hxm]
            exact (hpatb a hap).2 x (lt_of_lt_of_le (hvlt a hap) hxr.1) hxm
          funext k
          show (idMat ballOps x k).sub
            ((colOf ballOps m (idMat ballOps) R a.1 x).mul (idMat ballOps a.2 k))
            = idMat ballOps x k
          rw [hcz, Ball.zero_mul_exact]
          exact Ball.sub_zero_exact _
        · rw [if_neg hx]
      rw [hstep]
      exact ih fun jp hjp => hl jp (List.mem_cons_of_mem a hjp)
  exact key p fun jp hjp => hjp

theorem elimRun_clean_id (m n : ℕ) (R : ℕ → ℕ → Ball) (p : List (ℕ × ℕ))
    (hpatb : ∀ jp ∈ p, R jp.2 jp.1 = Ball.one
      ∧ ∀ i, jp.2 < i → i < m → R i jp.1 = Ball.zero)
    (hsnd : p.map Prod.snd = List.range p.length)
    (hkeysn : ∀ j, j < n → (p.lookup j).isSome = false →
      ∀ l, p.length ≤ l → l < m → (R l j).isNonzero = false) :
    elimRun ballOps m n R p = (idMat ballOps, p) := by
  unfold elimRun
  rw [replay_clean_id m n R p hpatb hsnd]
  have key : ∀ l : List ℕ, (∀ j ∈ l, j < n) →
      l.foldl (mainStep ballOps m R) (idMat ballOps, p) = (idMat ballOps, p) := by
    intro l hl
    induction l with
    | nil => rfl
    | cons a t ih =>
      simp only [List.foldl_cons]
      have han : a < n := hl a (List.mem_cons_self a t)
      have hstep : mainStep ballOps m R (idMat ballOps, p) a = (idMat ballOps, p) := by
        unfold mainStep
        by_cases hlp : (p.lookup a).isSome = true
        · rw [if_pos hlp]
        · rw [if_neg hlp]
          simp only []
          have hfil : ((List.range' p.length (m - p.length)).filter
              fun l => ballOps.isNonzero (colOf ballOps m (idMat ballOps) R a l)) = [] := by
            rw [List.filter_eq_nil]
            intro x hx
            have hxr := List.mem_range'_1.mp hx
            have hxm : x < m := by
              have hplm : p.length ≤ m ∨ m < p.length := le_or_lt _ _
              omega
            rw [colOf_idMat m R a x hxm]
            have hfalse : (p.lookup a).isSome = false := by
              cases h : (p.lookup a).isSome
              · rfl
              · exact absurd h hlp
            have hnz := hkeysn a han hfalse x hxr.1 hxm
            show ¬ (R x a).isNonzero = true
            rw [hnz]
            simp
          rw [hfil]
          rfl
      rw [hstep]
      exact ih fun j hj => hl j (List.mem_cons_of_mem a hj)
  exact key (List.range n) fun j hj => List.mem_range.mp hj

/-- **C5 (amended).**  If `(R, p)` has the exact pivot pattern produced by
`REF`'s overwrite step, and every entry of the rows of `R` beyond the first
`len(p)` rows is not certified nonzero (equivalently, those rows enclose the
zero row — the situation the docstring asserts always holds), then re-running
`REF(R, pivots=True, prec_pivots=p)` changes nothing: it returns the pivot
dictionary `p` itself and a matrix equal to `R` on every meaningful entry. -/
theorem REF_idempotent_on_enclosed_zero_rows (m n : ℕ) (R : ℕ → ℕ → Ball)
    (p : List (ℕ × ℕ))
    (hpatb : ∀ jp ∈ p, R jp.2 jp.1 = Ball.one
      ∧ ∀ i, jp.2 < i → i < m → R i jp.1 = Ball.zero)
    (hsnd : p.map Prod.snd = List.range p.length)
    (hnod : (p.map Prod.fst).Nodup)
    (hbeyond : ∀ i, p.length ≤ i → i < m → ∀ j, j < n → (R i j).isNonzero = false) :
    REF m n R false true p
      = Except.ok ((REFcore ballOps m n R p).1, none, some p)
    ∧ ∀ i, i < m → ∀ j, j < n → (REFcore ballOps m n R p).1 i j = R i j := by
  have helim : elimRun ballOps m n R p = (idMat ballOps, p) :=
    elimRun_clean_id m n R p hpatb hsnd
      (fun j hj _ l hl hlm => hbeyond l hl hlm j hj)
  have hp2 : (REFcore ballOps m n R p).2.2 = p := by
    show (elimRun ballOps m n R p).2 = p
    rw [helim]
  constructor
  · unfold REF
    simp only [Bool.false_eq_true, if_false, if_true]
    rw [hp2]
  · intro i hi j hj
    show overwritePivots ballOps m (elimRun ballOps m n R p).2
        (matMulF ballOps m (elimRun ballOps m n R p).1 R) i j = R i j
    rw [helim]
    have hmm : ∀ a b, a < m →
        matMulF ballOps m (idMat ballOps) R a b = R a b := by
      intro a b ham
      show ballOps.dot m (idMat ballOps a) (fun k => R k b) = R a b
      exact dot_idRow m a (fun k => R k b) ham
    rw [overwritePivots_apply ballOps m p _ hnod i j]
    cases hlook : p.lookup j with
    | none => exact hmm i j hi
    | some pb =>
      have hmemp : (j, pb) ∈ p := lookup_mem _ _ _ hlook
      show (if i = pb then ballOps.one
        else if pb + 1 ≤ i ∧ i < m then ballOps.zero
        else matMulF ballOps m (idMat ballOps) R i j) = R i j
      by_cases hip : i = pb
      · rw [if_pos hip, hip]
        exact ((hpatb (j, pb) hmemp).1).symm
      · rw [if_neg hip]
        by_cases hbel : pb + 1 ≤ i ∧ i < m
        · rw [if_pos hbel]
          exact ((hpatb (j, pb) hmemp).2 i hbel.1 hbel.2).symm
        · rw [if_neg hbel]
          exact hmm i j hi

/-- Witness for the amended C5 at `R = [[1]]`, `p = {0 : 0}`. -/
theorem REF_idempotent_on_enclosed_zero_rows_witness :
    (REF 1 1 (fun _ _ => Ball.one) false true [(0, 0)]
      = Except.ok ((REFcore ballOps 1 1 (fun _ _ => Ball.one) [(0, 0)]).1,
          none, some [(0, 0)])
    ∧ ∀ i, i < 1 → ∀ j, j < 1 →
        (REFcore ballOps 1 1 (fun _ _ => Ball.one) [(0, 0)]).1 i j = Ball.one) :=
  REF_idempotent_on_enclosed_zero_rows 1 1 (fun _ _ => Ball.one) [(0, 0)]
    (by
      intro jp hjp
      rcases List.mem_singleton.mp hjp with rfl
      exact ⟨rfl, fun i h1 h2 => absurd (lt_of_lt_of_le h1 (Nat.le_of_lt_succ h2)) (by omega)⟩)
    (by decide) (by decide)
    (by
      intro i h1 h2 j hj
      exact absurd h2 (Nat.not_lt.mpr h1))

/-!
## `orbit` (reduction.py lines 161-261)

`orbit` keeps its basis as a matrix `b` that is repeatedly stacked, reduced
by `REF` (resuming from the previously certified pivots) and trimmed to the
pivot rows; we represent `b` by its list of rows.  The `while` loop is a
well-founded recursion: the pivot dictionary only grows, and when it stops
growing the new-row range is empty and the loop exits. -/

/-- `matrix(vec)`: the `1×n` matrix with row `vec`. -/
def rowMat (vec : ℕ → Ball) : ℕ → ℕ → Ball :=
  fun i j => if i = 0 then vec j else Ball.zero

/-- `mat * vector(v)` for an `n×n` matrix. -/
def matVecB (n : ℕ) (M : ℕ → ℕ → Ball) (v : ℕ → Ball) : ℕ → Ball :=
  fun i => ballOps.dot n (M i) v

/-- A list of rows as a matrix (rows beyond the list are zero). -/
def listToFun (rows : List (ℕ → Ball)) : ℕ → ℕ → Ball :=
  fun i j => (rows.getD i fun _ => Ball.zero) j

/-- Scalar times matrix (entrywise, as Sage does). -/
def smulMat (s : Ball) (M : ℕ → ℕ → Ball) : ℕ → ℕ → Ball :=
  fun i j => s.mul (M i j)

/-- `sum(...)` of a list of matrices (ball addition is exact on the zero
start, so the fold models Python's `sum`). -/
def sumMats (l : List (ℕ → ℕ → Ball)) : ℕ → ℕ → Ball :=
  l.foldl (fun A B => fun i j => (A i j).add (B i j)) (fun _ _ => Ball.zero)

/-- The `while` loop of `orbit` (lines 243-258).  The loop variable `r` of
the source always equals `len(p)` at the head of the loop, so it is taken
from `p` here; `b` is `brows`, `T` is `Ts`.  The inner `REF(..)` call of
lines 250-252 is inlined: `REFcore` plus, when a transformation is
requested, the invertibility check of `REF` (lines 152-154). -/
def orbitLoop (n : ℕ) (Mats : List (ℕ → ℕ → Ball)) (transition : Bool)
    (brows : List (ℕ → Ball)) (Ts : List (ℕ → ℕ → Ball)) (p : List (ℕ × ℕ))
    (new : List ℕ) :
    Except PrecisionError (List (ℕ → Ball) × List (ℕ → ℕ → Ball)) :=
  if h : 0 < new.length ∧ p.length < n then
    let r := p.length
    let stacked := brows ++ (Mats.bind fun mat => new.map fun i =>
      matVecB n mat (brows.getD i fun _ => Ball.zero))
    let Ts₁ := if transition then
        Ts ++ (Mats.bind fun mat => new.map fun i =>
          matMulF ballOps n mat (Ts.getD i fun _ _ => Ball.zero))
      else Ts
    let res := REFcore ballOps stacked.length n (listToFun stacked) p
    if transition && (detB stacked.length res.2.1).containsZero then
      Except.error ⟨"Cannot compute an invertible matrix."⟩
    else
      let new' := List.range' r (res.2.2.length - r)
      let brows' := (List.range res.2.2.length).map fun i => fun j => res.1 i j
      let Ts₂ := if transition then
          Ts₁.take r ++ new'.map fun i =>
            sumMats ((List.range Ts₁.length).map fun j =>
              smulMat (res.2.1 i j) (Ts₁.getD j fun _ _ => Ball.zero))
        else Ts₁
      orbitLoop n Mats transition brows' Ts₂ res.2.2 new'
  else Except.ok (brows, Ts)
termination_by 2 * (n - p.length) + (if new = [] then 0 else 1)
decreasing_by
  have hpre : p <+: res.2.2 :=
    elimRun_grows ballOps stacked.length n (listToFun stacked) p
  have hlen : p.length ≤ res.2.2.length := hpre.length_le
  have hne : new ≠ [] := by
    intro hc
    rw [hc] at h
    exact absurd h.1 (by simp)
  have h2 := h.2
  rw [if_neg hne]
  show 2 * (n - res.2.2.length) + (if new' = [] then 0 else 1)
    < 2 * (n - p.length) + 1
  by_cases heq : res.2.2.length = p.length
  · have hnil : new' = [] := by
      show List.range' p.length (res.2.2.length - p.length) = []
      rw [heq, Nat.sub_self]
      rfl
    rw [if_pos hnil, heq]
    omega
  · have hgt : p.length < res.2.2.length := by
      omega
    by_cases hnil : new' = []
    · rw [if_pos hnil]
      omega
    · rw [if_neg hnil]
      omega

/-- `orbit(Mats, vec, transition=...)` (reduction.py lines 161-261): the
initial `REF(matrix(vec), transformation=True, pivots=True)` (line 235,
inlined as above), the zero-seed early return (lines 238-240) and the loop.
Both output lists are returned; when `transition` is false the second list
is empty, mirroring the single-value Python return. -/
def orbit (n : ℕ) (Mats : List (ℕ → ℕ → Ball)) (vec : ℕ → Ball)
    (transition : Bool) :
    Except PrecisionError (List (ℕ → Ball) × List (ℕ → ℕ → Ball)) :=
  let res := REFcore ballOps 1 n (rowMat vec) []
  if (detB 1 res.2.1).containsZero then
    Except.error ⟨"Cannot compute an invertible matrix."⟩
  else
    let Ts := if transition then [smulMat (res.2.1 0 0) (idMat ballOps)] else []
    if res.2.2.length = 0 then Except.ok ([], [])
    else
      orbitLoop n Mats transition [fun j => res.1 0 j] Ts res.2.2 (List.range' 0 1)

/-!
## Claim C7: when `orbit` returns an empty basis

The source comment at reduction.py line 238 reads "case where vec contains
the null vector": the degenerate branch fires exactly when no entry of the
seed is certified nonzero, i.e. when every entry merely *contains* zero —
a strictly weaker condition than the seed being *certified equal* to the
zero vector. -/

theorem Ball.containsZero_eq_not_isNonzero (a : Ball) :
    a.containsZero = !a.isNonzero := by
  unfold Ball.containsZero Ball.isNonzero
  by_cases h : |a.mid| ≤ a.rad
  · rw [decide_eq_true h, decide_eq_false (not_lt.mpr h)]
    rfl
  · rw [decide_eq_false h, decide_eq_true (not_le.mp h)]
    rfl

theorem Ball.isNonzero_zero : Ball.zero.isNonzero = false := by
  unfold Ball.isNonzero Ball.zero
  simp

theorem Ball.containsZero_one : Ball.one.containsZero = false := by
  unfold Ball.containsZero Ball.one
  norm_num

theorem pickPivot_foldl_isSome {α : Type} (O : BallOps α) (col : ℕ → α)
    (l : List ℕ) (x : ℕ) :
    (l.foldl
      (fun acc l =>
        match acc with
        | none => some l
        | some l₀ =>
          if O.belowAbs (col l₀) < O.belowAbs (col l) then some l else some l₀)
      (some x)).isSome = true := by
  induction l generalizing x with
  | nil => rfl
  | cons a t ih =>
    simp only [List.foldl_cons]
    show (t.foldl _
      (if O.belowAbs (col x) < O.belowAbs (col a) then some a else some x)).isSome = true
    by_cases h : O.belowAbs (col x) < O.belowAbs (col a)
    · rw [if_pos h]; exact ih a
    · rw [if_neg h]; exact ih x

theorem pickPivot_cons_isSome {α : Type} (O : BallOps α) (col : ℕ → α)
    (a : ℕ) (t : List ℕ) : (pickPivot O col (a :: t)).isSome = true := by
  unfold pickPivot
  simp only [List.foldl_cons]
  exact pickPivot_foldl_isSome O col t a

/-- If the candidate list is nonempty, the pivot search of `mainStep`
succeeds and appends one pivot. -/
theorem mainStep_snd_cons {α : Type} (O : BallOps α) (m : ℕ)
    (mat : ℕ → ℕ → α) (st : (ℕ → ℕ → α) × List (ℕ × ℕ)) (j : ℕ)
    (hlook : (st.2.lookup j).isSome = false)
    (hcand : ((List.range' st.2.length (m - st.2.length)).filter
        fun l => O.isNonzero (colOf O m st.1 mat j l)) ≠ []) :
    (mainStep O m mat st j).2 = st.2 ++ [(j, st.2.length)] := by
  unfold mainStep
  rw [if_neg (by rw [hlook]; simp)]
  simp only []
  obtain ⟨i, hi⟩ : ∃ i, pickPivot O (colOf O m st.1 mat j)
      ((List.range' st.2.length (m - st.2.length)).filter
        fun l => O.isNonzero (colOf O m st.1 mat j l)) = some i := by
    cases hc : ((List.range' st.2.length (m - st.2.length)).filter
        fun l => O.isNonzero (colOf O m st.1 mat j l)) with
    | nil => exact absurd hc hcand
    | cons a t =>
      apply Option.isSome_iff_exists.mp
      exact pickPivot_cons_isSome O (colOf O m st.1 mat j) a t
  rw [hi]

theorem mainStep_eq_of_len {α : Type} (O : BallOps α) (m : ℕ)
    (mat : ℕ → ℕ → α) (st : (ℕ → ℕ → α) × List (ℕ × ℕ)) (j : ℕ)
    (h : (mainStep O m mat st j).2.length = st.2.length) :
    mainStep O m mat st j = st := by
  by_cases hlook : (st.2.lookup j).isSome = true
  · unfold mainStep
    rw [if_pos hlook]
  · by_cases hcand : ((List.range' st.2.length (m - st.2.length)).filter
        fun l => O.isNonzero (colOf O m st.1 mat j l)) = []
    · unfold mainStep
      rw [if_neg hlook]
      simp only []
      rw [hcand]
      rfl
    · have hfalse : (st.2.lookup j).isSome = false := by
        cases hc : (st.2.lookup j).isSome
        · rfl
        · exact absurd hc hlook
      have := mainStep_snd_cons O m mat st j hfalse hcand
      rw [this] at h
      simp at h

theorem foldl_mainStep_stationary {α : Type} (O : BallOps α) (m : ℕ)
    (mat : ℕ → ℕ → α) (l : List ℕ) (st : (ℕ → ℕ → α) × List (ℕ × ℕ))
    (h : (l.foldl (mainStep O m mat) st).2.length = st.2.length) :
    ∀ j ∈ l, mainStep O m mat st j = st := by
  induction l with
  | nil =>
    intro j hj
    exact absurd hj (List.not_mem_nil j)
  | cons a t ih =>
    rw [List.foldl_cons] at h
    have h1 : st.2.length ≤ (mainStep O m mat st a).2.length :=
      (mainStep_grows O m mat st a).length_le
    have h2 : (mainStep O m mat st a).2.length
        ≤ (t.foldl (mainStep O m mat) (mainStep O m mat st a)).2.length :=
      (foldl_mainStep_grows O m mat t (mainStep O m mat st a)).length_le
    have hfix : mainStep O m mat st a = st :=
      mainStep_eq_of_len O m mat st a (by omega)
    intro j hj
    rcases List.mem_cons.mp hj with rfl | hjt
    · exact hfix
    · apply ih _ j hjt
      rw [hfix] at h
      exact h

/-- With no resumed pivots, `REF` finds no pivot at all iff no entry of the
matrix is certified nonzero. -/
theorem elimRun_nil_iff (m n : ℕ) (M : ℕ → ℕ → Ball) :
    (elimRun ballOps m n M []).2 = []
      ↔ ∀ j, j < n → ∀ i, i < m → (M i j).isNonzero = false := by
  constructor
  · intro h j hj i him
    have hrun : elimRun ballOps m n M []
        = (List.range n).foldl (mainStep ballOps m M) (idMat ballOps, []) := by
      unfold elimRun
      rw [replayPivots_nil]
    have hlen : ((List.range n).foldl (mainStep ballOps m M)
        (idMat ballOps, ([] : List (ℕ × ℕ)))).2.length
        = ([] : List (ℕ × ℕ)).length := by
      rw [← hrun, h]
    have hfix := foldl_mainStep_stationary ballOps m M (List.range n)
      (idMat ballOps, []) hlen j (List.mem_range.mpr hj)
    by_contra hnz
    have hnz' : (M i j).isNonzero = true := by
      cases hc : (M i j).isNonzero
      · exact absurd hc hnz
      · rfl
    have hcand : ((List.range' (0 : ℕ) (m - 0)).filter
        fun l => ballOps.isNonzero (colOf ballOps m (idMat ballOps) M j l)) ≠ [] := by
      intro hc
      have hmem : i ∈ (List.range' (0 : ℕ) (m - 0)).filter
          fun l => ballOps.isNonzero (colOf ballOps m (idMat ballOps) M j l) := by
        rw [List.mem_filter]
        constructor
        · rw [List.mem_range'_1]
          omega
        · rw [colOf_idMat m M j i him]
          exact hnz'
      rw [hc] at hmem
      exact absurd hmem (List.not_mem_nil i)
    have hsnd := mainStep_snd_cons ballOps m M (idMat ballOps, []) j rfl hcand
    rw [hfix] at hsnd
    simp at hsnd
  · intro hall
    have := elimRun_clean_id m n M []
      (fun jp hjp => absurd hjp (List.not_mem_nil jp)) rfl
      (fun j hj _ l hl hlm => hall j hj l hlm)
    rw [this]

theorem Ball.mul_one_exact (b : Ball) : b.mul Ball.one = b := by
  unfold Ball.one Ball.mul
  simp

theorem detB_one (A : ℕ → ℕ → Ball) : detB 1 A = A 0 0 := by
  show (Ball.mul (if 0 % 2 = 0 then Ball.one else ⟨-1, 0⟩)
      (Ball.mul (A 0 0) (detB 0 fun a b => A (if a < 0 then a else a + 1) (b + 1)))).add
      Ball.zero = A 0 0
  rw [if_pos rfl]
  show (Ball.one.mul ((A 0 0).mul Ball.one)).add Ball.zero = A 0 0
  rw [Ball.mul_one_exact, Ball.one_mul_exact, Ball.add_zero_exact]

/-- An `ok` result of the `orbit` loop is never the empty basis, provided
the loop starts (as it does in `orbit`) from a nonempty stack of rows and at
least one certified pivot. -/
theorem orbitLoop_ok_ne_nil (n : ℕ) (Mats : List (ℕ → ℕ → Ball)) (tr : Bool)
    (brows : List (ℕ → Ball)) (Ts : List (ℕ → ℕ → Ball)) (p : List (ℕ × ℕ))
    (new : List ℕ) :
    brows ≠ [] → p ≠ [] →
    ∀ l T', orbitLoop n Mats tr brows Ts p new = Except.ok (l, T') → l ≠ [] := by
  induction brows, Ts, p, new using orbitLoop.induct n Mats tr with
  | case1 brows Ts p new hguard stacked res hdet =>
    intro hb hp l T' hok
    rw [orbitLoop.eq_def, dif_pos hguard] at hok
    simp only [] at hok
    rw [if_pos hdet] at hok
    exact absurd hok (by simp)
  | case2 brows Ts p new hguard r stacked Ts₁ res hdet new' brows' Ts₂ ih =>
    intro hb hp l T' hok
    rw [orbitLoop.eq_def, dif_pos hguard] at hok
    simp only [] at hok
    rw [if_neg hdet] at hok
    have hpre : p <+: res.2.2 :=
      elimRun_grows ballOps stacked.length n (listToFun stacked) p
    have hplen : 0 < p.length := List.length_pos.mpr hp
    have hlen : 0 < res.2.2.length := lt_of_lt_of_le hplen hpre.length_le
    have hp' : res.2.2 ≠ [] := List.ne_nil_of_length_pos hlen
    have hb' : brows' ≠ [] := by
      have hval : brows' = (List.range res.2.2.length).map fun i j => res.1 i j := rfl
      rw [hval]
      intro hc
      rw [List.map_eq_nil_iff, List.range_eq_nil] at hc
      omega
    exact ih hb' hp' l T' hok
  | case3 brows Ts p new hguard =>
    intro hb hp l T' hok
    rw [orbitLoop.eq_def, dif_neg hguard] at hok
    rw [Except.ok.injEq, Prod.mk.injEq] at hok
    rw [← hok.1]
    exact hb

unseal Rat.add Rat.mul Rat.sub Rat.inv in
/-- **C7 (counterexample).**  `orbit` returns the empty basis on the seed
`[0 ± 1]`, which is *not* certified to be the zero vector (it encloses `1`):
the degenerate branch fires whenever no entry is certified nonzero, not only
when the seed is certified zero. -/
theorem orbit_empty_without_certified_zero_seed :
    orbit 1 [idMat ballOps] (fun _ => (⟨0, 1⟩ : Ball)) false = Except.ok ([], [])
    ∧ ¬ (∀ x : ℚ, Ball.mem x (⟨0, 1⟩ : Ball) → x = 0) :=
  ⟨rfl, fun h => one_ne_zero (h 1 (by decide))⟩

/-- **C7 (amended).**  A seed certified equal to the zero vector does make
`orbit` return the empty pair of lists, but the empty basis is returned
precisely when *every entry of the seed contains zero* (equivalently, no
entry is certified nonzero) — a strictly weaker condition than the certified
zero vector of the claim. -/
theorem orbit_empty_basis_iff (n : ℕ) (Mats : List (ℕ → ℕ → Ball))
    (vec : ℕ → Ball) (tr : Bool) :
    ((∀ j, j < n → vec j = Ball.zero) → orbit n Mats vec tr = Except.ok ([], []))
    ∧ ∀ l T', orbit n Mats vec tr = Except.ok (l, T') →
        (l = [] ↔ ∀ j, j < n → (vec j).containsZero = true) := by
  have hrow0 : ∀ j, rowMat vec 0 j = vec j := fun j => rfl
  have hclean : (∀ j, j < n → (vec j).isNonzero = false) →
      elimRun ballOps 1 n (rowMat vec) [] = (idMat ballOps, []) := by
    intro hnz
    apply elimRun_clean_id
    · intro jp hjp
      exact absurd hjp (List.not_mem_nil jp)
    · rfl
    · intro j hj _ l hl hlm
      have hl0 : l = 0 := by omega
      subst hl0
      rw [hrow0 j]
      exact hnz j hj
  have hok_of_clean : (∀ j, j < n → (vec j).isNonzero = false) →
      orbit n Mats vec tr = Except.ok ([], []) := by
    intro hnz
    have helim := hclean hnz
    have hres21 : (REFcore ballOps 1 n (rowMat vec) []).2.1 = idMat ballOps := by
      show (elimRun ballOps 1 n (rowMat vec) []).1 = _
      rw [helim]
    have hres22 : (REFcore ballOps 1 n (rowMat vec) []).2.2 = [] := by
      show (elimRun ballOps 1 n (rowMat vec) []).2 = _
      rw [helim]
    unfold orbit
    simp only []
    rw [hres21, hres22, detB_one]
    have hid00 : idMat ballOps 0 0 = Ball.one := rfl
    rw [hid00, Ball.containsZero_one]
    simp
  constructor
  · intro hz
    apply hok_of_clean
    intro j hj
    rw [hz j hj]
    exact Ball.isNonzero_zero
  · intro l T' hok
    by_cases hz : ∀ j, j < n → (vec j).containsZero = true
    · have hnz : ∀ j, j < n → (vec j).isNonzero = false := by
        intro j hj
        have h := hz j hj
        rw [Ball.containsZero_eq_not_isNonzero] at h
        cases hc : (vec j).isNonzero
        · rfl
        · rw [hc] at h
          simp at h
      rw [hok_of_clean hnz] at hok
      rw [Except.ok.injEq, Prod.mk.injEq] at hok
      rw [← hok.1]
      simp only [true_iff]
      exact hz
    · push_neg at hz
      obtain ⟨j0, hj0, hcz⟩ := hz
      have hnz0 : (vec j0).isNonzero = true := by
        rw [Ball.containsZero_eq_not_isNonzero] at hcz
        cases hc : (vec j0).isNonzero
        · rw [hc] at hcz
          simp at hcz
        · rfl
      have helimne : (elimRun ballOps 1 n (rowMat vec) []).2 ≠ [] := by
        intro hc
        have := (elimRun_nil_iff 1 n (rowMat vec)).mp hc j0 hj0 0 (by omega)
        rw [hrow0 j0, hnz0] at this
        simp at this
      have hlenne : (REFcore ballOps 1 n (rowMat vec) []).2.2.length ≠ 0 := by
        intro hc
        exact helimne (List.length_eq_zero.mp hc)
      unfold orbit at hok
      simp only [] at hok
      by_cases hdet : (detB 1 (REFcore ballOps 1 n (rowMat vec) []).2.1).containsZero = true
      · rw [if_pos hdet] at hok
        exact absurd hok (by simp)
      · rw [if_neg hdet, if_neg hlenne] at hok
        have hlne := orbitLoop_ok_ne_nil n Mats tr
          [fun j => (REFcore ballOps 1 n (rowMat vec) []).1 0 j]
          (if tr = true
            then [smulMat ((REFcore ballOps 1 n (rowMat vec) []).2.1 0 0) (idMat ballOps)]
            else [])
          ((REFcore ballOps 1 n (rowMat vec) []).2.2) (List.range' 0 1)
          (by simp) (fun hc => helimne hc) l T' hok
        constructor
        · intro hc
          exact absurd hc hlne
        · intro hc
          exact absurd (hc j0 hj0) hcz

/-- Witness for the amended C7 at the exact zero seed of size 1. -/
theorem orbit_empty_basis_iff_witness :
    orbit 1 [idMat ballOps] (fun _ => Ball.zero) false = Except.ok ([], [])
    ∧ (([] : List (ℕ → Ball)) = []
        ↔ ∀ j, j < 1 → (Ball.zero).containsZero = true) :=
  ⟨(orbit_empty_basis_iff 1 [idMat ballOps] (fun _ => Ball.zero) false).1
      (fun _ _ => rfl),
   (orbit_empty_basis_iff 1 [idMat ballOps] (fun _ => Ball.zero) false).2 [] []
      ((orbit_empty_basis_iff 1 [idMat ballOps] (fun _ => Ball.zero) false).1
        (fun _ _ => rfl))⟩

/-!
## Resuming from certified pivots: the replay phase establishes the invariant

`REF` may be resumed with `prec_pivots` from an earlier run (this is how
`orbit` and `generated_algebra` call it).  The replay loop (reduction.py
lines 128-131) eliminates the pivot columns from the rows beyond the
resumed pivots only; provided the enclosed exact matrix carries the exact
echelon pattern on its first `len(p)` rows (which `REF`'s overwrite step
guarantees for its own outputs), the state after replay satisfies the
elimination invariant. -/

theorem eliminateRows_not_mem {α : Type} (O : BallOps α) (idxs : List ℕ)
    (piv : ℕ) (col : ℕ → α) (T : ℕ → ℕ → α) (a : ℕ) (ha : a ∉ idxs) :
    eliminateRows O idxs piv col T a = T a := by
  induction idxs generalizing T with
  | nil => rfl
  | cons b bs ih =>
    have hab : a ≠ b := fun h => ha (h ▸ List.mem_cons_self b bs)
    have habs : a ∉ bs := fun h => ha (List.mem_cons_of_mem b h)
    show eliminateRows O bs piv col
        (Function.update T b fun k => O.sub (T b k) (O.mul (col b) (T piv k))) a = _
    rw [ih _ habs, Function.update_noteq hab]

theorem sndT_idRow (a : ℕ) :
    sndT (idMat prOps) a = fun k => if a = k then (1 : ℚ) else 0 := by
  funext k
  show (if a = k then prOps.one else prOps.zero).2 = _
  by_cases h : a = k
  · rw [if_pos h, if_pos h]; rfl
  · rw [if_neg h, if_neg h]; rfl

theorem dotQ_delta (m a : ℕ) (ham : a < m) (v : ℕ → ℚ) :
    dotQ m (fun k => if a = k then (1 : ℚ) else 0) v = v a := by
  rw [dotQ_eq_sum]
  have hsummand : ∀ k : Fin m,
      (if a = k.1 then (1 : ℚ) else 0) * v k.1
        = if k = (⟨a, ham⟩ : Fin m) then v a else 0 := by
    intro k
    by_cases h : a = k.1
    · rw [if_pos h, one_mul, if_pos (Fin.ext h.symm), h]
    · rw [if_neg h, zero_mul, if_neg (fun hh => h (congrArg Fin.val hh).symm)]
  rw [Finset.sum_congr rfl fun k _ => hsummand k,
    Finset.sum_ite_eq' Finset.univ (⟨a, ham⟩ : Fin m) (fun _ => v a),
    if_pos (Finset.mem_univ _)]

theorem finMat_sndT_idMat (m : ℕ) : finMat m (sndT (idMat prOps)) = 1 := by
  funext a b
  show sndT (idMat prOps) a.1 b.1 = (1 : Matrix (Fin m) (Fin m) ℚ) a b
  rw [Matrix.one_apply, sndT_idRow]
  show (if a.1 = b.1 then (1 : ℚ) else 0) = _
  by_cases h : a.1 = b.1
  · rw [if_pos h, if_pos (Fin.ext h)]
  · rw [if_neg h, if_neg (fun hh => h (congrArg Fin.val hh))]

theorem pivotsOk_snd_get {m n : ℕ} {p : List (ℕ × ℕ)} (h : pivotsOk m n p) :
    ∀ (t : ℕ) (ht : t < p.length), (p.get ⟨t, ht⟩).2 = t := by
  intro t ht
  have hlm : t < (p.map Prod.snd).length := by simpa using ht
  have h1 : (p.map Prod.snd).get ⟨t, hlm⟩ = (p.get ⟨t, ht⟩).2 :=
    List.get_map Prod.snd
  have h2 : (p.map Prod.snd).get ⟨t, hlm⟩
      = (List.range p.length).get ⟨t, by simpa using ht⟩ := by
    apply List.get_of_eq h.1
  rw [h2, List.get_range] at h1
  exact h1.symm

theorem pivotsOk_mem_eq_of_snd {m n : ℕ} {p : List (ℕ × ℕ)} (h : pivotsOk m n p)
    {jp jp' : ℕ × ℕ} (hjp : jp ∈ p) (hjp' : jp' ∈ p) (heq : jp.2 = jp'.2) :
    jp = jp' := by
  obtain ⟨⟨t, ht⟩, rfl⟩ := List.mem_iff_get.mp hjp
  obtain ⟨⟨t', ht'⟩, rfl⟩ := List.mem_iff_get.mp hjp'
  have h1 := pivotsOk_snd_get h t ht
  have h2 := pivotsOk_snd_get h t' ht'
  have : t = t' := by rw [← h1, ← h2]; exact heq
  subst this
  rfl

/-- The running invariant of the replay phase: the rows before `len(p₀)` are
untouched identity rows, the later rows stay coherent, the pivot columns of
the first `k` resumed pivots have been eliminated from the later rows, and
the exact transformation stays invertible. -/
def ReplayInv (m : ℕ) (matP : ℕ → ℕ → Ball × ℚ) (p₀ : List (ℕ × ℕ)) (k : ℕ)
    (T : ℕ → ℕ → Ball × ℚ) : Prop :=
  (∀ a, a < p₀.length → T a = idMat prOps a)
  ∧ (∀ a, p₀.length ≤ a → a < m → ∀ c, c < m → pmem (T a c))
  ∧ (∀ jp ∈ p₀, jp.2 < k → ∀ a, p₀.length ≤ a → a < m →
      mulQ m (sndT T) (sndT matP) a jp.1 = 0)
  ∧ (finMat m (sndT T)).det ≠ 0

theorem get_append_cons {α : Type} (done : List α) (a : α) (rest : List α)
    (h : done.length < (done ++ a :: rest).length) :
    (done ++ a :: rest).get ⟨done.length, h⟩ = a := by
  induction done with
  | nil => rfl
  | cons b bs ih => exact ih (by simp)

theorem replay_aux (m n : ℕ) (matP : ℕ → ℕ → Ball × ℚ)
    (hmat : ∀ i, i < m → ∀ j, j < n → pmem (matP i j))
    (p₀ : List (ℕ × ℕ)) (hpiv : pivotsOk m n p₀)
    (hpatB : ∀ jp ∈ p₀, sndT matP jp.2 jp.1 = 1
      ∧ ∀ i, jp.2 < i → i < p₀.length → sndT matP i jp.1 = 0) :
    ∀ (todo done : List (ℕ × ℕ)), p₀ = done ++ todo →
    ∀ T, ReplayInv m matP p₀ done.length T →
    ReplayInv m matP p₀ p₀.length
      (todo.foldl
        (fun T jp =>
          eliminateRows prOps (List.range' p₀.length (m - p₀.length)) jp.2
            (colOf prOps m T matP jp.1) T) T) := by
  have hrm : p₀.length ≤ m := hpiv.2.2.1
  have hidxs_iff : ∀ x, x ∈ List.range' p₀.length (m - p₀.length)
      ↔ p₀.length ≤ x ∧ x < m := by
    intro x
    rw [List.mem_range'_1]
    omega
  have hidxs_nd : (List.range' p₀.length (m - p₀.length)).Nodup :=
    List.nodup_range' _ _
  intro todo
  induction todo with
  | nil =>
    intro done hsplit T hinv
    have hdone : done = p₀ := by rw [hsplit, List.append_nil]
    rw [List.foldl_nil]
    rw [hdone] at hinv
    exact hinv
  | cons jp todo' ih =>
    intro done hsplit T hinv
    set r := p₀.length with hr
    set k := done.length with hk
    have hk_lt : k < p₀.length := by
      rw [hsplit, List.length_append, List.length_cons]
      omega
    have hjpmem : jp ∈ p₀ := by
      rw [hsplit]
      exact List.mem_append_right done (List.mem_cons_self jp todo')
    have hgetk : p₀.get ⟨k, hk_lt⟩ = jp := by
      have h2 := List.get_of_eq hsplit (⟨k, hk_lt⟩ : Fin p₀.length)
      rw [h2]
      exact get_append_cons done jp todo' _
    have hjp2 : jp.2 = k := by
      rw [← hgetk]
      exact pivotsOk_snd_get hpiv k hk_lt
    have hjp2r : jp.2 < p₀.length := by rw [hjp2]; exact hk_lt
    have hjp2m : jp.2 < m := lt_of_lt_of_le hjp2r hrm
    have hjp1n : jp.1 < n := hpiv.2.1 jp hjpmem
    have hjpnotidxs : jp.2 ∉ List.range' p₀.length (m - p₀.length) := by
      intro hc
      have := (hidxs_iff jp.2).mp hc
      omega
    obtain ⟨hlow, hhigh, hzero, hdet⟩ := hinv
    -- all rows of T are coherent
    have hall : ∀ x, x < m → ∀ c, c < m → pmem (T x c) := by
      intro x hx c hc
      by_cases hxr : x < p₀.length
      · rw [hlow x hxr]
        show pmem (if x = c then prOps.one else prOps.zero)
        by_cases hxc : x = c
        · rw [if_pos hxc]; exact Ball.mem_one
        · rw [if_neg hxc]; exact Ball.mem_zero
      · exact hhigh x (by omega) hx c hc
    set col := colOf prOps m T matP jp.1 with hcol
    have hcolmem : ∀ a, a < m → pmem (col a) := by
      intro a ham
      exact dot_pmem m (T a) (fun c => matP c jp.1)
        (fun c hc => hall a ham c hc) (fun c hc => hmat c hc jp.1 hjp1n)
    have hcolsnd : ∀ a, (col a).2 = mulQ m (sndT T) (sndT matP) a jp.1 :=
      fun a => colOf_snd m T matP jp.1 a
    set T' := eliminateRows prOps (List.range' p₀.length (m - p₀.length)) jp.2 col T
      with hT'
    have happ := eliminateRows_apply prOps _ jp.2 col T hidxs_nd hjpnotidxs
    -- exact rows of T'
    have hE' : ∀ a, sndT T' a
        = if a ∈ List.range' p₀.length (m - p₀.length)
          then (fun c => sndT T a c - (col a).2 * sndT T jp.2 c)
          else sndT T a := by
      intro a
      by_cases ha : a ∈ List.range' p₀.length (m - p₀.length)
      · rw [if_pos ha]
        funext c
        show (T' a c).2 = _
        rw [hT', happ a, if_pos ha]
        rfl
      · rw [if_neg ha]
        funext c
        show (T' a c).2 = _
        rw [hT', happ a, if_neg ha]
        rfl
    -- the pivot row is an identity row
    have hrowpiv : sndT T jp.2 = fun c => if jp.2 = c then (1 : ℚ) else 0 := by
      funext c
      show (T jp.2 c).2 = _
      rw [hlow jp.2 hjp2r]
      have := congrFun (sndT_idRow jp.2) c
      exact this
    have hprodpiv : ∀ j', mulQ m (sndT T) (sndT matP) jp.2 j'
        = sndT matP jp.2 j' := by
      intro j'
      unfold mulQ
      rw [hrowpiv]
      exact dotQ_delta m jp.2 hjp2m _
    -- products of the eliminated rows
    have hprodelim : ∀ a, a ∈ List.range' p₀.length (m - p₀.length) → ∀ j',
        mulQ m (sndT T') (sndT matP) a j'
          = mulQ m (sndT T) (sndT matP) a j'
            - (col a).2 * sndT matP jp.2 j' := by
      intro a ha j'
      have h1 : mulQ m (sndT T') (sndT matP) a j'
          = dotQ m (fun c => sndT T a c - (col a).2 * sndT T jp.2 c)
              (fun c => sndT matP c j') := by
        unfold mulQ
        rw [hE' a, if_pos ha]
      rw [h1, dotQ_sub_smul]
      have h2 : dotQ m (sndT T jp.2) (fun c => sndT matP c j')
          = sndT matP jp.2 j' := by
        rw [hrowpiv]
        exact dotQ_delta m jp.2 hjp2m _
      rw [h2]
      rfl
    have hprodsame : ∀ a, a ∉ List.range' p₀.length (m - p₀.length) → ∀ j',
        mulQ m (sndT T') (sndT matP) a j' = mulQ m (sndT T) (sndT matP) a j' := by
      intro a ha j'
      unfold mulQ
      rw [hE' a, if_neg ha]
    -- new invariant
    have hinv' : ReplayInv m matP p₀ (k + 1) T' := by
      refine ⟨?_, ?_, ?_, ?_⟩
      · intro a ha
        rw [hT', eliminateRows_not_mem prOps _ jp.2 col T a
          (fun hc => by have := (hidxs_iff a).mp hc; omega)]
        exact hlow a ha
      · intro a har ham c hc
        have ha : a ∈ List.range' p₀.length (m - p₀.length) :=
          (hidxs_iff a).mpr ⟨har, ham⟩
        show pmem (T' a c)
        rw [hT', happ a, if_pos ha]
        show pmem (prOps.sub (T a c) (prOps.mul (col a) (T jp.2 c)))
        show Ball.mem (prOps.sub (T a c) (prOps.mul (col a) (T jp.2 c))).2
          (prOps.sub (T a c) (prOps.mul (col a) (T jp.2 c))).1
        rw [prOps_sub_snd, prOps_sub_fst, prOps_mul_snd, prOps_mul_fst]
        exact Ball.mem_sub (hall a ham c hc)
          (Ball.mem_mul (hcolmem a ham) (hall jp.2 hjp2m c hc))
      · intro jp' hjp' hjp'k a har ham
        have ha : a ∈ List.range' p₀.length (m - p₀.length) :=
          (hidxs_iff a).mpr ⟨har, ham⟩
        rw [hprodelim a ha jp'.1]
        by_cases hlt : jp'.2 < k
        · rw [hzero jp' hjp' hlt a har ham]
          have hB0 : sndT matP jp.2 jp'.1 = 0 := by
            apply (hpatB jp' hjp').2 jp.2
            · rw [hjp2]; exact hlt
            · exact hjp2r
          rw [hB0]
          ring
        · have hjp'2 : jp'.2 = k := by omega
          have hjpeq : jp' = jp :=
            pivotsOk_mem_eq_of_snd hpiv hjp' hjpmem (by rw [hjp'2, hjp2])
          subst hjpeq
          rw [(hpatB jp' hjp').1, hcolsnd a]
          ring
      · have hfin : finMat m (sndT T')
            = Matrix.of fun a c : Fin m =>
                if a.1 ∈ List.range' p₀.length (m - p₀.length)
                then finMat m (sndT T) a c
                  - (col a.1).2 * finMat m (sndT T) ⟨jp.2, hjp2m⟩ c
                else finMat m (sndT T) a c := by
          funext a c
          show sndT T' a.1 c.1 = _
          rw [hE' a.1]
          by_cases ha : a.1 ∈ List.range' p₀.length (m - p₀.length)
          · rw [if_pos ha]
            simp only [Matrix.of_apply, if_pos ha]
            rfl
          · rw [if_neg ha]
            simp only [Matrix.of_apply, if_neg ha]
            rfl
        rw [hfin]
        exact det_ne_zero_elim m (finMat m (sndT T)) jp.2 hjp2m _
          (fun a => (col a).2) hidxs_nd hjpnotidxs
          (fun a ha => ((hidxs_iff a).mp ha).2) hdet
    have hsplit' : p₀ = (done ++ [jp]) ++ todo' := by
      rw [hsplit, List.append_assoc]
      rfl
    have hlen' : (done ++ [jp]).length = k + 1 := by
      rw [List.length_append, List.length_cons]
      rfl
    rw [List.foldl_cons]
    have := ih (done ++ [jp]) hsplit' T' (by rw [hlen']; exact hinv')
    exact this

theorem init_inv_replay (m n : ℕ) (matP : ℕ → ℕ → Ball × ℚ)
    (hmat : ∀ i, i < m → ∀ j, j < n → pmem (matP i j))
    (p₀ : List (ℕ × ℕ)) (hpiv : pivotsOk m n p₀)
    (hpatB : ∀ jp ∈ p₀, sndT matP jp.2 jp.1 = 1
      ∧ ∀ i, jp.2 < i → i < p₀.length → sndT matP i jp.1 = 0) :
    ElimInv m n matP (replayPivots prOps m matP p₀, p₀) := by
  have hbase : ReplayInv m matP p₀ 0 (idMat prOps) := by
    refine ⟨fun a _ => rfl, ?_, ?_, ?_⟩
    · intro a _ _ c _
      show pmem (if a = c then prOps.one else prOps.zero)
      by_cases h : a = c
      · rw [if_pos h]; exact Ball.mem_one
      · rw [if_neg h]; exact Ball.mem_zero
    · intro jp _ h
      omega
    · rw [finMat_sndT_idMat, Matrix.det_one]
      norm_num
  have hfin := replay_aux m n matP hmat p₀ hpiv hpatB p₀ [] rfl (idMat prOps) hbase
  have hrp : replayPivots prOps m matP p₀
      = p₀.foldl
        (fun T jp =>
          eliminateRows prOps (List.range' p₀.length (m - p₀.length)) jp.2
            (colOf prOps m T matP jp.1) T) (idMat prOps) := rfl
  obtain ⟨hlow, hhigh, hzero, hdet⟩ := hfin
  rw [← hrp] at hlow hhigh hzero hdet
  refine ⟨?_, hpiv, ?_, hdet⟩
  · intro i him c hcm
    show pmem (replayPivots prOps m matP p₀ i c)
    by_cases hir : i < p₀.length
    · rw [hlow i hir]
      show pmem (if i = c then prOps.one else prOps.zero)
      by_cases h : i = c
      · rw [if_pos h]; exact Ball.mem_one
      · rw [if_neg h]; exact Ball.mem_zero
    · exact hhigh i (by omega) him c hcm
  · show patternOk m (mulQ m (sndT (replayPivots prOps m matP p₀)) (sndT matP)) p₀
    intro jp hjp
    have hjp2r : jp.2 < p₀.length := pivotsOk_val_lt hpiv jp hjp
    have hjp2m : jp.2 < m := lt_of_lt_of_le hjp2r hpiv.2.2.1
    have hrowid : ∀ a, a < p₀.length →
        ∀ j', mulQ m (sndT (replayPivots prOps m matP p₀)) (sndT matP) a j'
          = sndT matP a j' := by
      intro a ha j'
      unfold mulQ
      have hid : sndT (replayPivots prOps m matP p₀) a
          = fun k => if a = k then (1 : ℚ) else 0 := by
        funext c
        show ((replayPivots prOps m matP p₀) a c).2 = _
        rw [hlow a ha]
        exact congrFun (sndT_idRow a) c
      rw [hid]
      exact dotQ_delta m a (lt_of_lt_of_le ha hpiv.2.2.1) _
    constructor
    · rw [hrowid jp.2 hjp2r jp.1]
      exact (hpatB jp hjp).1
    · intro i hi him
      by_cases hir : i < p₀.length
      · rw [hrowid i hir jp.1]
        exact (hpatB jp hjp).2 i hi hir
      · exact hzero jp hjp hjp2r i (by omega) him

/-- `mainStep` never modifies the rows above the current pivot count. -/
theorem mainStep_low_rows {α : Type} (O : BallOps α) (m : ℕ)
    (mat : ℕ → ℕ → α) (st : (ℕ → ℕ → α) × List (ℕ × ℕ)) (j : ℕ) (a : ℕ)
    (ha : a < st.2.length) : (mainStep O m mat st j).1 a = st.1 a := by
  unfold mainStep
  by_cases hl : (st.2.lookup j).isSome = true
  · rw [if_pos hl]
  · rw [if_neg hl]
    simp only []
    cases hp : pickPivot O (colOf O m st.1 mat j)
        ((List.range' st.2.length (m - st.2.length)).filter
          fun l => O.isNonzero (colOf O m st.1 mat j l)) with
    | none => rfl
    | some i =>
      simp only []
      have hfil := List.mem_filter.mp (pickPivot_some_mem _ _ _ _ hp)
      have hir := List.mem_range'_1.mp hfil.1
      have hai : a ≠ i := by omega
      have har : a ≠ st.2.length := by omega
      have hnotrs : a ∉ List.range' (st.2.length + 1) (m - (st.2.length + 1)) := by
        intro hc
        have := (List.mem_range'_1.mp hc).1
        omega
      rw [eliminateRows_not_mem _ _ _ _ _ _ hnotrs,
        Function.update_noteq har, swapFun_other _ _ _ _ hai har]

theorem foldl_mainStep_low_rows {α : Type} (O : BallOps α) (m : ℕ)
    (mat : ℕ → ℕ → α) (l : List ℕ) (st : (ℕ → ℕ → α) × List (ℕ × ℕ)) (a : ℕ)
    (ha : a < st.2.length) :
    (l.foldl (mainStep O m mat) st).1 a = st.1 a := by
  induction l generalizing st with
  | nil => rfl
  | cons b t ih =>
    rw [List.foldl_cons]
    have hgr : st.2.length ≤ (mainStep O m mat st b).2.length :=
      (mainStep_grows O m mat st b).length_le
    rw [ih _ (by omega)]
    exact mainStep_low_rows O m mat st b a ha

/-- The elimination phase never modifies the rows above the resumed pivot
count: they come out exactly as the replay left them. -/
theorem elimRun_low_rows {α : Type} (O : BallOps α) (m n : ℕ)
    (mat : ℕ → ℕ → α) (p₀ : List (ℕ × ℕ)) (a : ℕ) (ha : a < p₀.length) :
    (elimRun O m n mat p₀).1 a = replayPivots O m mat p₀ a := by
  unfold elimRun
  exact foldl_mainStep_low_rows O m mat (List.range n)
    (replayPivots O m mat p₀, p₀) a ha

/-!
## `orbit` with `transition=True` (claim C6): exact shadows of the loop data

The loop of `orbit` combines rows and transition matrices with `mat*vec`,
`mat*T`, scalar multiples and sums; these are their exact (`ℚ`) shadows,
together with the entrywise-enclosure relations carried through the loop. -/

/-- Exact matrix–vector product. -/
def matVecQ (n : ℕ) (M : ℕ → ℕ → ℚ) (v : ℕ → ℚ) : ℕ → ℚ :=
  fun i => dotQ n (M i) v

/-- Exact scalar–matrix product. -/
def smulQ (c : ℚ) (M : ℕ → ℕ → ℚ) : ℕ → ℕ → ℚ :=
  fun i j => c * M i j

/-- Exact sum of a list of matrices. -/
def sumMatsQ (l : List (ℕ → ℕ → ℚ)) : ℕ → ℕ → ℚ :=
  l.foldl (fun A B => fun i j => A i j + B i j) (fun _ _ => 0)

/-- The exact identity matrix. -/
def idQ : ℕ → ℕ → ℚ := fun i j => if i = j then 1 else 0

/-- `matrix(vec)` on the exact side. -/
def rowMatQ (vece : ℕ → ℚ) : ℕ → ℕ → ℚ :=
  fun i j => if i = 0 then vece j else 0

/-- Entrywise enclosure of a list of exact rows in a list of ball rows. -/
def RowsEncl (n : ℕ) (bl : List (ℕ → Ball)) (el : List (ℕ → ℚ)) : Prop :=
  el.length = bl.length
  ∧ ∀ i, i < bl.length → ∀ j, j < n →
      Ball.mem ((el.getD i fun _ => 0) j) ((bl.getD i fun _ => Ball.zero) j)

/-- Entrywise enclosure of a list of exact matrices in a list of ball
matrices. -/
def MatsEncl (n : ℕ) (bl : List (ℕ → ℕ → Ball)) (el : List (ℕ → ℕ → ℚ)) : Prop :=
  el.length = bl.length
  ∧ ∀ i, i < bl.length → ∀ a, a < n → ∀ b, b < n →
      Ball.mem ((el.getD i fun _ _ => 0) a b) ((bl.getD i fun _ _ => Ball.zero) a b)

theorem RowsEncl_nil (n : ℕ) : RowsEncl n [] [] :=
  ⟨rfl, fun i hi => absurd hi (by simp)⟩

theorem RowsEncl_cons (n : ℕ) (x : ℕ → Ball) (xe : ℕ → ℚ) (bl : List (ℕ → Ball))
    (el : List (ℕ → ℚ)) (hx : ∀ j, j < n → Ball.mem (xe j) (x j))
    (h : RowsEncl n bl el) : RowsEncl n (x :: bl) (xe :: el) := by
  refine ⟨by simp [h.1], ?_⟩
  intro i hi j hj
  cases i with
  | zero => exact hx j hj
  | succ t =>
    show Ball.mem ((el.getD t fun _ => 0) j) ((bl.getD t fun _ => Ball.zero) j)
    exact h.2 t (by simpa using hi) j hj

theorem RowsEncl_append (n : ℕ) (l1 l2 : List (ℕ → Ball)) (e1 e2 : List (ℕ → ℚ))
    (h1 : RowsEncl n l1 e1) (h2 : RowsEncl n l2 e2) :
    RowsEncl n (l1 ++ l2) (e1 ++ e2) := by
  induction l1 generalizing e1 with
  | nil =>
    have he : e1 = [] := List.length_eq_zero.mp (by rw [h1.1]; rfl)
    subst he
    exact h2
  | cons x t ih =>
    cases e1 with
    | nil => exact absurd h1.1 (by simp)
    | cons xe te =>
      have hx : ∀ j, j < n → Ball.mem (xe j) (x j) := fun j hj => h1.2 0 (by simp) j hj
      have ht : RowsEncl n t te := by
        refine ⟨by have := h1.1; simpa using this, ?_⟩
        intro i hi j hj
        exact h1.2 (i + 1) (by simpa using hi) j hj
      exact RowsEncl_cons n x xe _ _ hx (ih te ht)

theorem RowsEncl_map (n : ℕ) (idx : List ℕ) (f : ℕ → ℕ → Ball) (fe : ℕ → ℕ → ℚ)
    (h : ∀ t ∈ idx, ∀ j, j < n → Ball.mem (fe t j) (f t j)) :
    RowsEncl n (idx.map f) (idx.map fe) := by
  induction idx with
  | nil => exact RowsEncl_nil n
  | cons a t ih =>
    simp only [List.map_cons]
    exact RowsEncl_cons n (f a) (fe a) _ _
      (fun j hj => h a (List.mem_cons_self a t) j hj)
      (ih fun t' ht' j hj => h t' (List.mem_cons_of_mem a ht') j hj)

theorem MatsEncl_nil (n : ℕ) : MatsEncl n [] [] :=
  ⟨rfl, fun i hi => absurd hi (by simp)⟩

theorem MatsEncl_cons (n : ℕ) (x : ℕ → ℕ → Ball) (xe : ℕ → ℕ → ℚ)
    (bl : List (ℕ → ℕ → Ball)) (el : List (ℕ → ℕ → ℚ))
    (hx : ∀ a, a < n → ∀ b, b < n → Ball.mem (xe a b) (x a b))
    (h : MatsEncl n bl el) : MatsEncl n (x :: bl) (xe :: el) := by
  refine ⟨by simp [h.1], ?_⟩
  intro i hi a ha b hb
  cases i with
  | zero => exact hx a ha b hb
  | succ t =>
    show Ball.mem ((el.getD t fun _ _ => 0) a b) ((bl.getD t fun _ _ => Ball.zero) a b)
    exact h.2 t (by simpa using hi) a ha b hb

theorem MatsEncl_append (n : ℕ) (l1 l2 : List (ℕ → ℕ → Ball))
    (e1 e2 : List (ℕ → ℕ → ℚ)) (h1 : MatsEncl n l1 e1) (h2 : MatsEncl n l2 e2) :
    MatsEncl n (l1 ++ l2) (e1 ++ e2) := by
  induction l1 generalizing e1 with
  | nil =>
    have he : e1 = [] := List.length_eq_zero.mp (by rw [h1.1]; rfl)
    subst he
    exact h2
  | cons x t ih =>
    cases e1 with
    | nil => exact absurd h1.1 (by simp)
    | cons xe te =>
      have hx : ∀ a, a < n → ∀ b, b < n → Ball.mem (xe a b) (x a b) :=
        fun a ha b hb => h1.2 0 (by simp) a ha b hb
      have ht : MatsEncl n t te := by
        refine ⟨by have := h1.1; simpa using this, ?_⟩
        intro i hi a ha b hb
        exact h1.2 (i + 1) (by simpa using hi) a ha b hb
      exact MatsEncl_cons n x xe _ _ hx (ih te ht)

theorem MatsEncl_map (n : ℕ) (idx : List ℕ) (f : ℕ → ℕ → ℕ → Ball)
    (fe : ℕ → ℕ → ℕ → ℚ)
    (h : ∀ t ∈ idx, ∀ a, a < n → ∀ b, b < n → Ball.mem (fe t a b) (f t a b)) :
    MatsEncl n (idx.map f) (idx.map fe) := by
  induction idx with
  | nil => exact MatsEncl_nil n
  | cons a t ih =>
    simp only [List.map_cons]
    exact MatsEncl_cons n (f a) (fe a) _ _
      (fun x hx y hy => h a (List.mem_cons_self a t) x hx y hy)
      (ih fun t' ht' x hx y hy => h t' (List.mem_cons_of_mem a ht') x hx y hy)

theorem getD_append_left {α : Type} (l1 l2 : List α) (i : ℕ) (d : α)
    (h : i < l1.length) : (l1 ++ l2).getD i d = l1.getD i d := by
  induction l1 generalizing i with
  | nil => exact absurd h (by simp)
  | cons a t ih =>
    cases i with
    | zero => rfl
    | succ t' =>
      show (t ++ l2).getD t' d = t.getD t' d
      exact ih t' (by simpa using h)

theorem getD_map_range {α : Type} (L i : ℕ) (f : ℕ → α) (d : α) (h : i < L) :
    ((List.range L).map f).getD i d = f i := by
  have h1 : i < ((List.range L).map f).length := by simpa using h
  rw [List.getD_eq_getElem _ _ h1]
  rw [List.getElem_map]
  congr 1
  exact List.getElem_range _ _

theorem getD_take_left {α : Type} (l : List α) (r i : ℕ) (d : α) (h : i < r) :
    (l.take r).getD i d = if i < l.length then l.getD i d else d := by
  by_cases hi : i < l.length
  · rw [if_pos hi]
    have h1 : i < (l.take r).length := by
      rw [List.length_take]
      omega
    rw [List.getD_eq_getElem _ _ h1, List.getElem_take,
      List.getD_eq_getElem _ _ hi]
  · rw [if_neg hi]
    apply List.getD_eq_default
    rw [List.length_take]
    omega

/-- Ball-level dot products enclose exact dot products. -/
theorem dot_mem (m : ℕ) (u : ℕ → Ball) (ue : ℕ → ℚ) (v : ℕ → Ball) (ve : ℕ → ℚ)
    (hu : ∀ k, k < m → Ball.mem (ue k) (u k))
    (hv : ∀ k, k < m → Ball.mem (ve k) (v k)) :
    Ball.mem (dotQ m ue ve) (ballOps.dot m u v) := by
  unfold BallOps.dot dotQ
  have haux : ∀ l : List ℕ, (∀ k ∈ l, k < m) →
      Ball.mem ((l.map fun k => ue k * ve k).foldr (· + ·) 0)
        ((l.map fun k => ballOps.mul (u k) (v k)).foldr ballOps.add ballOps.zero) := by
    intro l hl
    induction l with
    | nil => exact Ball.mem_zero
    | cons a t ih =>
      simp only [List.map_cons, List.foldr_cons]
      exact Ball.mem_add
        (Ball.mem_mul (hu a (hl a (List.mem_cons_self a t)))
          (hv a (hl a (List.mem_cons_self a t))))
        (ih fun k hk => hl k (List.mem_cons_of_mem a hk))
  exact haux (List.range m) fun k hk => List.mem_range.mp hk

theorem matVecB_encl (n : ℕ) (mat : ℕ → ℕ → Ball) (mate : ℕ → ℕ → ℚ)
    (u : ℕ → Ball) (ue : ℕ → ℚ)
    (hm : ∀ a, a < n → ∀ b, b < n → Ball.mem (mate a b) (mat a b))
    (hu : ∀ j, j < n → Ball.mem (ue j) (u j)) :
    ∀ j, j < n → Ball.mem (matVecQ n mate ue j) (matVecB n mat u j) := by
  intro j hj
  exact dot_mem n (mat j) (mate j) u ue (fun k hk => hm j hj k hk) hu

theorem matMulF_encl (n : ℕ) (mat : ℕ → ℕ → Ball) (mate : ℕ → ℕ → ℚ)
    (T : ℕ → ℕ → Ball) (Te : ℕ → ℕ → ℚ)
    (hm : ∀ a, a < n → ∀ b, b < n → Ball.mem (mate a b) (mat a b))
    (hT : ∀ a, a < n → ∀ b, b < n → Ball.mem (Te a b) (T a b)) :
    ∀ a, a < n → ∀ b, b < n →
      Ball.mem (mulQ n mate Te a b) (matMulF ballOps n mat T a b) := by
  intro a ha b hb
  exact dot_mem n (mat a) (mate a) (fun k => T k b) (fun k => Te k b)
    (fun k hk => hm a ha k hk) (fun k hk => hT k hk b hb)

theorem smulMat_encl (n : ℕ) (c : Ball) (ce : ℚ) (M : ℕ → ℕ → Ball)
    (Me : ℕ → ℕ → ℚ) (hc : Ball.mem ce c)
    (hM : ∀ a, a < n → ∀ b, b < n → Ball.mem (Me a b) (M a b)) :
    ∀ a, a < n → ∀ b, b < n → Ball.mem (smulQ ce Me a b) (smulMat c M a b) :=
  fun a ha b hb => Ball.mem_mul hc (hM a ha b hb)

theorem sumMats_encl (n : ℕ) (l : List (ℕ → ℕ → Ball)) (le : List (ℕ → ℕ → ℚ))
    (h : MatsEncl n l le) :
    ∀ a, a < n → ∀ b, b < n → Ball.mem (sumMatsQ le a b) (sumMats l a b) := by
  unfold sumMats sumMatsQ
  have haux : ∀ (l : List (ℕ → ℕ → Ball)) (le : List (ℕ → ℕ → ℚ)),
      MatsEncl n l le →
      ∀ (A : ℕ → ℕ → Ball) (Ae : ℕ → ℕ → ℚ),
      (∀ a, a < n → ∀ b, b < n → Ball.mem (Ae a b) (A a b)) →
      ∀ a, a < n → ∀ b, b < n →
        Ball.mem ((le.foldl (fun A B => fun i j => A i j + B i j) Ae) a b)
          ((l.foldl (fun A B => fun i j => (A i j).add (B i j)) A) a b) := by
    intro l
    induction l with
    | nil =>
      intro le hle A Ae hA a ha b hb
      have he : le = [] := List.length_eq_zero.mp (by rw [hle.1]; rfl)
      subst he
      exact hA a ha b hb
    | cons x t ih =>
      intro le hle A Ae hA a ha b hb
      cases le with
      | nil => exact absurd hle.1 (by simp)
      | cons xe te =>
        have hx : ∀ a, a < n → ∀ b, b < n → Ball.mem (xe a b) (x a b) :=
          fun a ha b hb => hle.2 0 (by simp) a ha b hb
        have ht : MatsEncl n t te := by
          refine ⟨by have := hle.1; simpa using this, ?_⟩
          intro i hi a' ha' b' hb'
          exact hle.2 (i + 1) (by simpa using hi) a' ha' b' hb'
        simp only [List.foldl_cons]
        exact ih te ht _ _
          (fun a' ha' b' hb' => Ball.mem_add (hA a' ha' b' hb') (hx a' ha' b' hb'))
          a ha b hb
  exact haux l le h _ _
    (fun a ha b hb => Ball.mem_zero) 

theorem bind_rows_encl (n : ℕ) (Mats : List (ℕ → ℕ → Ball))
    (Matse : List (ℕ → ℕ → ℚ)) (F : (ℕ → ℕ → Ball) → List (ℕ → Ball))
    (Fe : (ℕ → ℕ → ℚ) → List (ℕ → ℚ)) (hlen : Matse.length = Mats.length)
    (h : ∀ t, t < Mats.length →
      RowsEncl n (F (Mats.getD t fun _ _ => Ball.zero))
        (Fe (Matse.getD t fun _ _ => 0))) :
    RowsEncl n (Mats.bind F) (Matse.bind Fe) := by
  induction Mats generalizing Matse with
  | nil =>
    have he : Matse = [] := List.length_eq_zero.mp (by rw [hlen]; rfl)
    subst he
    exact RowsEncl_nil n
  | cons x t ih =>
    cases Matse with
    | nil => exact absurd hlen (by simp)
    | cons xe te =>
      show RowsEncl n (F x ++ t.bind F) (Fe xe ++ te.bind Fe)
      apply RowsEncl_append
      · exact h 0 (by simp)
      · exact ih te (by simpa using hlen)
          (fun t' ht' => h (t' + 1) (by simpa using ht'))

theorem bind_mats_encl (n : ℕ) (Mats : List (ℕ → ℕ → Ball))
    (Matse : List (ℕ → ℕ → ℚ)) (F : (ℕ → ℕ → Ball) → List (ℕ → ℕ → Ball))
    (Fe : (ℕ → ℕ → ℚ) → List (ℕ → ℕ → ℚ)) (hlen : Matse.length = Mats.length)
    (h : ∀ t, t < Mats.length →
      MatsEncl n (F (Mats.getD t fun _ _ => Ball.zero))
        (Fe (Matse.getD t fun _ _ => 0))) :
    MatsEncl n (Mats.bind F) (Matse.bind Fe) := by
  induction Mats generalizing Matse with
  | nil =>
    have he : Matse = [] := List.length_eq_zero.mp (by rw [hlen]; rfl)
    subst he
    exact MatsEncl_nil n
  | cons x t ih =>
    cases Matse with
    | nil => exact absurd hlen (by simp)
    | cons xe te =>
      show MatsEncl n (F x ++ t.bind F) (Fe xe ++ te.bind Fe)
      apply MatsEncl_append
      · exact h 0 (by simp)
      · exact ih te (by simpa using hlen)
          (fun t' ht' => h (t' + 1) (by simpa using ht'))

theorem length_bind_map {α β γ : Type} (l : List α) (idx : List β)
    (f : α → β → γ) :
    (l.bind fun x => idx.map (f x)).length = l.length * idx.length := by
  induction l with
  | nil => simp
  | cons a t ih =>
    show ((idx.map (f a)) ++ t.bind fun x => idx.map (f x)).length = _
    rw [List.length_append, List.length_map, ih, List.length_cons]
    ring

theorem dotQ_add_left (m : ℕ) (u w v : ℕ → ℚ) :
    dotQ m (fun k => u k + w k) v = dotQ m u v + dotQ m w v := by
  unfold dotQ
  induction (List.range m) with
  | nil => simp
  | cons a t ih =>
    simp only [List.map_cons, List.foldr_cons, ih]
    ring

theorem dotQ_zero_left (m : ℕ) (v : ℕ → ℚ) : dotQ m (fun _ => 0) v = 0 := by
  unfold dotQ
  induction (List.range m) with
  | nil => rfl
  | cons a t ih =>
    simp only [List.map_cons, List.foldr_cons, ih]
    ring

theorem dotQ_smul_left (m : ℕ) (c : ℚ) (u v : ℕ → ℚ) :
    dotQ m (fun k => c * u k) v = c * dotQ m u v := by
  unfold dotQ
  induction (List.range m) with
  | nil => simp
  | cons a t ih =>
    simp only [List.map_cons, List.foldr_cons, ih]
    ring

theorem sumMatsQ_row (l : List (ℕ → ℕ → ℚ)) (a : ℕ) :
    ∀ (Ae : ℕ → ℕ → ℚ),
      (l.foldl (fun A B => fun i j => A i j + B i j) Ae) a
        = fun b => Ae a b + (l.map fun M => M a b).foldr (· + ·) 0 := by
  induction l with
  | nil =>
    intro Ae
    funext b
    simp
  | cons x t ih =>
    intro Ae
    funext b
    simp only [List.foldl_cons, List.map_cons, List.foldr_cons]
    rw [ih]
    ring

theorem dotQ_sumMatsQ (n : ℕ) (l : List (ℕ → ℕ → ℚ)) (a : ℕ) (v : ℕ → ℚ) :
    dotQ n (sumMatsQ l a) v = (l.map fun M => dotQ n (M a) v).foldr (· + ·) 0 := by
  unfold sumMatsQ
  rw [sumMatsQ_row l a]
  induction l with
  | nil =>
    simp only [List.map_nil, List.foldr_nil]
    have : (fun b => (0 : ℚ) + 0) = fun _ : ℕ => (0 : ℚ) := by funext b; ring
    rw [this]
    exact dotQ_zero_left n v
  | cons x t ih =>
    simp only [List.map_cons, List.foldr_cons]
    have hsplit : (fun b => (0 : ℚ) + (x a b + (t.map fun M => M a b).foldr (· + ·) 0))
        = fun b => x a b + ((0 : ℚ) + (t.map fun M => M a b).foldr (· + ·) 0) := by
      funext b
      ring
    rw [hsplit, dotQ_add_left, ih]

theorem finMat_mulQ (n : ℕ) (A B : ℕ → ℕ → ℚ) :
    finMat n (mulQ n A B) = finMat n A * finMat n B :=
  finMatR_mulQ n n A B

theorem finMat_smulQ (n : ℕ) (c : ℚ) (M : ℕ → ℕ → ℚ) :
    finMat n (smulQ c M) = c • finMat n M := rfl

theorem finMat_idQ (n : ℕ) : finMat n idQ = 1 := by
  funext a b
  show (if a.1 = b.1 then (1 : ℚ) else 0) = (1 : Matrix (Fin n) (Fin n) ℚ) a b
  rw [Matrix.one_apply]
  by_cases h : a.1 = b.1
  · rw [if_pos h, if_pos (Fin.ext h)]
  · rw [if_neg h, if_neg (fun hh => h (congrArg Fin.val hh))]

theorem finMat_sumMatsQ_mem (n : ℕ) (A : Subalgebra ℚ (Matrix (Fin n) (Fin n) ℚ))
    (l : List (ℕ → ℕ → ℚ)) (h : ∀ M ∈ l, finMat n M ∈ A) :
    finMat n (sumMatsQ l) ∈ A := by
  unfold sumMatsQ
  have haux : ∀ (l : List (ℕ → ℕ → ℚ)) (Ae : ℕ → ℕ → ℚ),
      (∀ M ∈ l, finMat n M ∈ A) → finMat n Ae ∈ A →
      finMat n (l.foldl (fun A B => fun i j => A i j + B i j) Ae) ∈ A := by
    intro l
    induction l with
    | nil => intro Ae _ hA; exact hA
    | cons x t ih =>
      intro Ae hl hA
      simp only [List.foldl_cons]
      apply ih
      · intro M hM
        exact hl M (List.mem_cons_of_mem x hM)
      · have hx : finMat n x ∈ A := hl x (List.mem_cons_self x t)
        have heq : finMat n (fun i j => Ae i j + x i j) = finMat n Ae + finMat n x := by
          funext a b
          rfl
        rw [heq]
        exact add_mem hA hx
  apply haux l _ h
  have hz : finMat n (fun _ _ => (0 : ℚ)) = 0 := by
    funext a b
    rfl
  rw [hz]
  exact zero_mem _

/-- Matrix–vector associativity on the exact side: `(M*T)·v = M·(T·v)`. -/
theorem dotQ_mulQ_assoc (n : ℕ) (M T : ℕ → ℕ → ℚ) (v : ℕ → ℚ) (i : ℕ) :
    dotQ n (mulQ n M T i) v = dotQ n (M i) (fun k => dotQ n (T k) v) := by
  rw [dotQ_eq_sum]
  have h1 : ∀ j : Fin n, mulQ n M T i j.1 * v j.1
      = ∑ k : Fin n, M i k.1 * T k.1 j.1 * v j.1 := by
    intro j
    show dotQ n (M i) (fun k => T k j.1) * v j.1 = _
    rw [dotQ_eq_sum, Finset.sum_mul]
  rw [Finset.sum_congr rfl fun j _ => h1 j, Finset.sum_comm]
  rw [dotQ_eq_sum]
  apply Finset.sum_congr rfl
  intro k _
  show ∑ j : Fin n, M i k.1 * T k.1 j.1 * v j.1 = M i k.1 * dotQ n (T k.1) v
  rw [dotQ_eq_sum, Finset.mul_sum]
  apply Finset.sum_congr rfl
  intro j _
  ring

theorem getD_append_right {α : Type} (l1 l2 : List α) (i : ℕ) (d : α)
    (h : l1.length ≤ i) : (l1 ++ l2).getD i d = l2.getD (i - l1.length) d := by
  induction l1 generalizing i with
  | nil => simp
  | cons a t ih =>
    cases i with
    | zero => exact absurd h (by simp)
    | succ i' =>
      show (t ++ l2).getD i' d = _
      rw [ih i' (by simpa using h)]
      congr 1
      simp only [List.length_cons]
      omega

theorem getD_map_range' {α : Type} (s L t : ℕ) (g : ℕ → α) (d : α) (h : t < L) :
    ((List.range' s L).map g).getD t d = g (s + t) := by
  have h1 : t < ((List.range' s L).map g).length := by simpa using h
  rw [List.getD_eq_getElem _ _ h1, List.getElem_map]
  congr 1
  rw [List.getElem_range']
  ring

theorem replayPivots_low_rows {α : Type} (O : BallOps α) (m : ℕ)
    (mat : ℕ → ℕ → α) (p₀ : List (ℕ × ℕ)) (a : ℕ) (ha : a < p₀.length) :
    replayPivots O m mat p₀ a = idMat O a := by
  unfold replayPivots
  have hnotin : a ∉ List.range' p₀.length (m - p₀.length) := by
    intro hc
    have := (List.mem_range'_1.mp hc).1
    omega
  have haux : ∀ (l : List (ℕ × ℕ)) (T : ℕ → ℕ → α), T a = idMat O a →
      (l.foldl
        (fun T jp =>
          eliminateRows O (List.range' p₀.length (m - p₀.length)) jp.2
            (colOf O m T mat jp.1) T) T) a = idMat O a := by
    intro l
    induction l with
    | nil => intro T hT; exact hT
    | cons jp t ih =>
      intro T hT
      rw [List.foldl_cons]
      apply ih
      rw [eliminateRows_not_mem O _ _ _ _ _ hnotin]
      exact hT
  exact haux p₀ (idMat O) rfl

theorem dotQ_congr_right (m : ℕ) (u v v' : ℕ → ℚ) (h : ∀ k, k < m → v k = v' k) :
    dotQ m u v = dotQ m u v' := by
  unfold dotQ
  congr 1
  apply List.map_congr_left
  intro k hk
  rw [h k (List.mem_range.mp hk)]

/-- Pointwise access into two structurally parallel `bind`-of-`map` lists. -/
theorem parallel_bind_map_getD {α α' β γ γ' : Type} (P : γ → γ' → Prop)
    (l : List α) (le : List α') (idx : List β) (f : α → β → γ) (fe : α' → β → γ')
    (d₀ : α) (d₀' : α') (dg : γ) (dg' : γ') (hlen : le.length = l.length)
    (h : ∀ t, t < l.length → ∀ b ∈ idx, P (f (l.getD t d₀) b) (fe (le.getD t d₀') b)) :
    ∀ i, i < (l.bind fun x => idx.map (f x)).length →
      P ((l.bind fun x => idx.map (f x)).getD i dg)
        ((le.bind fun x => idx.map (fe x)).getD i dg') := by
  induction l generalizing le with
  | nil =>
    intro i hi
    exact absurd hi (by simp)
  | cons a t ih =>
    cases le with
    | nil => exact absurd hlen (by simp)
    | cons ae te =>
      intro i hi
      have hconsl : ((a :: t).bind fun x => idx.map (f x))
          = idx.map (f a) ++ (t.bind fun x => idx.map (f x)) := List.cons_bind _ _ _
      have hconsr : ((ae :: te).bind fun x => idx.map (fe x))
          = idx.map (fe ae) ++ (te.bind fun x => idx.map (fe x)) := List.cons_bind _ _ _
      rw [hconsl, hconsr]
      by_cases hidx : i < idx.length
      · rw [getD_append_left _ _ _ _ (by simpa using hidx),
          getD_append_left _ _ _ _ (by simpa using hidx)]
        have h1 : (idx.map (f a)).getD i dg = f a (idx.get ⟨i, hidx⟩) := by
          rw [List.getD_eq_getElem _ _ (by simpa using hidx), List.getElem_map]
          rfl
        have h2 : (idx.map (fe ae)).getD i dg' = fe ae (idx.get ⟨i, hidx⟩) := by
          rw [List.getD_eq_getElem _ _ (by simpa using hidx), List.getElem_map]
          rfl
        rw [h1, h2]
        exact h 0 (by simp) _ (List.get_mem idx i hidx)
      · push_neg at hidx
        rw [getD_append_right _ _ _ _ (by simpa using hidx),
          getD_append_right _ _ _ _ (by simpa using hidx)]
        simp only [List.length_map]
        have hbound : i - idx.length < (t.bind fun x => idx.map (f x)).length := by
          rw [hconsl] at hi
          rw [List.length_append, List.length_map] at hi
          omega
        exact ih te (by simpa using hlen)
          (fun t' ht' b hb => h (t' + 1) (by simpa using ht') b hb)
          (i - idx.length) hbound

/-- The generators available to the transition operators: one exact matrix
per member of the exact selection of the family. -/
def adjGens (n : ℕ) (Matse : List (ℕ → ℕ → ℚ)) : Set (Matrix (Fin n) (Fin n) ℚ) :=
  {A | ∃ Me ∈ Matse, finMat n Me = A}

/-- The certificate carried through the `orbit` loop: exact shadows of the
basis rows and the transition matrices, entrywise enclosed, with each exact
row obtained by applying its exact transition matrix to the exact seed, and
each exact transition matrix lying in the algebra generated by the exact
selection of the family. -/
structure OrbitCert (n : ℕ) (Matse : List (ℕ → ℕ → ℚ)) (vece : ℕ → ℚ)
    (brows : List (ℕ → Ball)) (Ts : List (ℕ → ℕ → Ball))
    (be : List (ℕ → ℚ)) (Tse : List (ℕ → ℕ → ℚ)) : Prop where
  hrows : RowsEncl n brows be
  hTs : MatsEncl n Ts Tse
  hTb : Ts.length = brows.length
  hrel : ∀ i, i < brows.length → ∀ j, j < n →
    (be.getD i fun _ => 0) j = dotQ n ((Tse.getD i fun _ _ => 0) j) vece
  hadj : ∀ i, i < Ts.length →
    finMat n (Tse.getD i fun _ _ => 0) ∈ Algebra.adjoin ℚ (adjGens n Matse)

/-- The pivot-side facts carried through the `orbit` loop: the structural
shape of the pivot dictionary and the exact echelon pattern of the current
exact basis rows (needed to resume `REF` from `prec_pivots = p`). -/
structure OrbitPiv (n : ℕ) (be : List (ℕ → ℚ)) (p : List (ℕ × ℕ)) : Prop where
  hsnd : p.map Prod.snd = List.range p.length
  hkeys : ∀ jp ∈ p, jp.1 < n
  hnod : (p.map Prod.fst).Nodup
  hlen : p.length = be.length
  hpat : ∀ jp ∈ p, (be.getD jp.2 fun _ => 0) jp.1 = 1
    ∧ ∀ i, jp.2 < i → i < p.length → (be.getD i fun _ => 0) jp.1 = 0

/-- `ℕ`-indexed matrix of a list of exact rows (rows beyond the list are
zero), the exact shadow of `listToFun`. -/
def listToFunQ (rows : List (ℕ → ℚ)) : ℕ → ℕ → ℚ :=
  fun i j => (rows.getD i fun _ => 0) j

/-- Every `ok` result of the `orbit` loop carries exact shadows: the loop
preserves the certificate. -/
theorem orbitLoop_certifies (n : ℕ) (Mats : List (ℕ → ℕ → Ball))
    (Matse : List (ℕ → ℕ → ℚ)) (vece : ℕ → ℚ) (hME : MatsEncl n Mats Matse)
    (brows : List (ℕ → Ball)) (Ts : List (ℕ → ℕ → Ball)) (p : List (ℕ × ℕ))
    (new : List ℕ) :
    (∀ i ∈ new, i < brows.length) →
    (∃ be Tse, OrbitCert n Matse vece brows Ts be Tse ∧ OrbitPiv n be p) →
    ∀ l T', orbitLoop n Mats true brows Ts p new = Except.ok (l, T') →
    ∃ le Tse', OrbitCert n Matse vece l T' le Tse' := by
  induction brows, Ts, p, new using orbitLoop.induct n Mats true with
  | case1 brows Ts p new hguard stacked res hdet =>
    intro hnew hcert l T' hok
    rw [orbitLoop.eq_def, dif_pos hguard] at hok
    simp only [] at hok
    rw [if_pos hdet] at hok
    exact absurd hok (by simp)
  | case2 brows Ts p new hguard r stacked Ts₁ res hdet new' brows' Ts₂ ih =>
    intro hnew hcert l T' hok
    rw [orbitLoop.eq_def, dif_pos hguard] at hok
    simp only [] at hok
    rw [if_neg hdet] at hok
    obtain ⟨be, Tse, cert, piv⟩ := hcert
    -- abbreviations for the let-bound values
    have hrval : r = p.length := rfl
    have hstackedval : stacked = brows ++ Mats.bind
        (fun mat => new.map fun i => matVecB n mat (brows.getD i fun _ => Ball.zero)) := rfl
    have hTs₁val : Ts₁ = Ts ++ Mats.bind
        (fun mat => new.map fun i => matMulF ballOps n mat (Ts.getD i fun _ _ => Ball.zero)) := rfl
    have hresval : res = REFcore ballOps stacked.length n (listToFun stacked) p := rfl
    have hnew'val : new' = List.range' r (res.2.2.length - r) := rfl
    have hbrows'val : brows' = (List.range res.2.2.length).map (fun i j => res.1 i j) := rfl
    have hTs₂val : Ts₂ = Ts₁.take r ++ new'.map (fun i => sumMats
        ((List.range Ts₁.length).map fun j =>
          smulMat (res.2.1 i j) (Ts₁.getD j fun _ _ => Ball.zero))) := rfl
    set M := stacked.length with hM
    set bindBe := Matse.bind
      (fun mate => new.map fun i => matVecQ n mate (be.getD i fun _ => 0)) with hbindBe
    set stackedE := be ++ bindBe with hstackedE
    set TbindBe := Matse.bind
      (fun mate => new.map fun i => mulQ n mate (Tse.getD i fun _ _ => 0)) with hTbindBe
    set Tse₁ := Tse ++ TbindBe with hTse₁def
    set stackedP := (fun i j => (listToFun stacked i j, listToFunQ stackedE i j) :
      ℕ → ℕ → Ball × ℚ) with hstackedP
    have hbe_len : be.length = brows.length := cert.hrows.1
    have hTse_len : Tse.length = Ts.length := cert.hTs.1
    have hTb : Ts.length = brows.length := cert.hTb
    have hplen : p.length = brows.length := by rw [piv.hlen, hbe_len]
    have hrT : r = Ts.length := by rw [hrval, hplen, hTb]
    -- stacked enclosures
    have F1 : RowsEncl n stacked stackedE := by
      rw [hstackedval, hstackedE, hbindBe]
      apply RowsEncl_append n _ _ _ _ cert.hrows
      apply bind_rows_encl n Mats Matse _ _ hME.1
      intro t ht
      apply RowsEncl_map
      intro i hi j hj
      apply matVecB_encl n _ _ _ _ (fun a ha b hb => hME.2 t ht a ha b hb)
      · intro j' hj'
        exact cert.hrows.2 i (hnew i hi) j' hj'
      · exact hj
    have F2 : MatsEncl n Ts₁ Tse₁ := by
      rw [hTs₁val, hTse₁def, hTbindBe]
      apply MatsEncl_append n _ _ _ _ cert.hTs
      apply bind_mats_encl n Mats Matse _ _ hME.1
      intro t ht
      apply MatsEncl_map
      intro i hi a ha b hb
      apply matMulF_encl n _ _ _ _ (fun x hx y hy => hME.2 t ht x hx y hy)
      · intro x hx y hy
        exact cert.hTs.2 i (by rw [hTb]; exact hnew i hi) x hx y hy
      · exact ha
      · exact hb
    have hSElen : stackedE.length = M := F1.1
    have hT1len : Ts₁.length = M := by
      rw [hTs₁val, hM, hstackedval, List.length_append, List.length_append,
        length_bind_map, length_bind_map, hTb]
    have hTse1len : Tse₁.length = M := by rw [F2.1]; exact hT1len
    have hbrowsM : brows.length ≤ M := by
      rw [hM, hstackedval, List.length_append]
      omega
    have hmatP : ∀ i, i < M → ∀ j, j < n → pmem (stackedP i j) := by
      intro i hi j hj
      exact F1.2 i hi j hj
    -- relation and algebra membership of the stacked exact data
    have F5 : ∀ k, k < M → ∀ j, j < n →
        (stackedE.getD k fun _ => 0) j
          = dotQ n ((Tse₁.getD k fun _ _ => 0) j) vece := by
      intro k hk j hj
      by_cases hkb : k < brows.length
      · rw [hstackedE, getD_append_left _ _ _ _ (by rw [hbe_len]; exact hkb),
          hTse₁def, getD_append_left _ _ _ _ (by rw [hTse_len, hTb]; exact hkb)]
        exact cert.hrel k hkb j hj
      · push_neg at hkb
        rw [hstackedE, getD_append_right _ _ _ _ (by rw [hbe_len]; exact hkb),
          hTse₁def, getD_append_right _ _ _ _ (by rw [hTse_len, hTb]; exact hkb)]
        rw [hbe_len, hTse_len, hTb]
        have hkbound : k - brows.length
            < (Matse.bind fun mate =>
                new.map fun i => matVecQ n mate (be.getD i fun _ => 0)).length := by
          rw [length_bind_map, hME.1]
          rw [hM, hstackedval, List.length_append, length_bind_map] at hk
          omega
        have := parallel_bind_map_getD
          (fun (u : ℕ → ℚ) (Tm : ℕ → ℕ → ℚ) => ∀ j', j' < n → u j' = dotQ n (Tm j') vece)
          Matse Matse new
          (fun mate i => matVecQ n mate (be.getD i fun _ => 0))
          (fun mate i => mulQ n mate (Tse.getD i fun _ _ => 0))
          (fun _ _ => 0) (fun _ _ => 0) (fun _ => 0) (fun _ _ => 0) rfl
          ?_ (k - brows.length) hkbound
        · exact this j hj
        · intro t ht i hi j' hj'
          show matVecQ n (Matse.getD t fun _ _ => 0) (be.getD i fun _ => 0) j' = _
          unfold matVecQ
          rw [dotQ_mulQ_assoc]
          apply dotQ_congr_right
          intro c hc
          exact cert.hrel i (hnew i hi) c hc
    have F6 : ∀ k, k < M →
        finMat n (Tse₁.getD k fun _ _ => 0) ∈ Algebra.adjoin ℚ (adjGens n Matse) := by
      intro k hk
      by_cases hkT : k < Ts.length
      · rw [hTse₁def, getD_append_left _ _ _ _ (by rw [hTse_len]; exact hkT)]
        exact cert.hadj k hkT
      · push_neg at hkT
        rw [hTse₁def, getD_append_right _ _ _ _ (by rw [hTse_len]; exact hkT)]
        rw [hTse_len]
        have hkbound : k - Ts.length
            < (Matse.bind fun mate =>
                new.map fun i => mulQ n mate (Tse.getD i fun _ _ => 0)).length := by
          rw [length_bind_map, hME.1]
          rw [hM, hstackedval, List.length_append, length_bind_map, ← hTb] at hk
          omega
        have := parallel_bind_map_getD
          (fun (_ : ℕ → ℕ → ℚ) (Tm : ℕ → ℕ → ℚ) =>
            finMat n Tm ∈ Algebra.adjoin ℚ (adjGens n Matse))
          Matse Matse new
          (fun mate i => mulQ n mate (Tse.getD i fun _ _ => 0))
          (fun mate i => mulQ n mate (Tse.getD i fun _ _ => 0))
          (fun _ _ => 0) (fun _ _ => 0) (fun _ _ => 0) (fun _ _ => 0) rfl
          ?_ (k - Ts.length) hkbound
        · exact this
        · intro t ht i hi
          rw [finMat_mulQ]
          apply mul_mem
          · apply Algebra.subset_adjoin
            refine ⟨Matse.getD t fun _ _ => 0, ?_, rfl⟩
            rw [List.getD_eq_getElem _ _ ht]
            exact List.getElem_mem _
          · exact cert.hadj i (by rw [hTb]; exact hnew i hi)
    -- the paired elimination
    have F7 : pivotsOk M n p :=
      ⟨piv.hsnd, piv.hkeys, by rw [hplen]; exact hbrowsM, piv.hnod⟩
    have F8 : ∀ jp ∈ p, sndT stackedP jp.2 jp.1 = 1
        ∧ ∀ i, jp.2 < i → i < p.length → sndT stackedP i jp.1 = 0 := by
      intro jp hjp
      have hjp2 : jp.2 < p.length := pivotsOk_val_lt F7 jp hjp
      constructor
      · show (stackedE.getD jp.2 fun _ => 0) jp.1 = 1
        rw [hstackedE, getD_append_left _ _ _ _ (by rw [hbe_len, ← hplen]; exact hjp2)]
        exact (piv.hpat jp hjp).1
      · intro i hi hip
        show (stackedE.getD i fun _ => 0) jp.1 = 0
        rw [hstackedE, getD_append_left _ _ _ _ (by rw [hbe_len, ← hplen]; exact hip)]
        exact (piv.hpat jp hjp).2 i hi hip
    have hreplay := init_inv_replay M n stackedP hmatP p F7 F8
    have hinv := elimRun_inv M n stackedP hmatP p hreplay
    have hres2 : res = (liftT (REFcore prOps M n stackedP p).1,
        liftT (REFcore prOps M n stackedP p).2.1,
        (REFcore prOps M n stackedP p).2.2) := by
      have h0 : res = REFcore ballOps M n (liftT stackedP) p := rfl
      rw [h0]
      exact REFcore_fst M n stackedP p
    set E := sndT (elimRun prOps M n stackedP p).1 with hEdef
    have hprodmem : matMem M n (mulQ M E (sndT stackedP))
        (liftT (REFcore prOps M n stackedP p).1) :=
      REFcore_pair_sound M n stackedP hmatP p hinv
    have hp22 : res.2.2 = (elimRun prOps M n stackedP p).2 := by
      rw [hres2]
      rfl
    set len' := res.2.2.length with hlenPdef
    have hpivEl : pivotsOk M n res.2.2 := by rw [hp22]; exact hinv.hpiv
    have hlen'M : len' ≤ M := by
      rw [hlenPdef, hp22]
      exact hinv.hpiv.2.2.1
    have hpre : p <+: res.2.2 := by
      rw [hp22]
      exact elimRun_grows prOps M n stackedP p
    have hrle : r ≤ len' := by
      rw [hrval, hlenPdef]
      exact hpre.length_le
    have htake : Ts₁.take r = Ts := by
      rw [hTs₁val, hrT, List.take_left]
    have hnew'mem : ∀ i ∈ new', r ≤ i ∧ i < len' := by
      intro i hi
      rw [hnew'val] at hi
      have := List.mem_range'_1.mp hi
      omega
    -- the pattern of the new exact product
    have hprodsnd : ∀ i j, mulQ M E (sndT stackedP) i j
        = mulQ M E (listToFunQ stackedE) i j := fun i j => rfl
    -- new exact certificate data
    set be' := (List.range len').map
      (fun i => fun j => mulQ M E (listToFunQ stackedE) i j) with hbePdef
    set Tse₂ := Tse ++ new'.map (fun i => sumMatsQ
      ((List.range M).map fun j =>
        smulQ (E i j) (Tse₁.getD j fun _ _ => 0))) with hTse₂def
    have hbe'len : be'.length = len' := by
      rw [hbePdef, List.length_map, List.length_range]
    have hbrows'len : brows'.length = len' := by
      rw [hbrows'val, List.length_map, List.length_range]
    have hnew'len : new'.length = len' - r := by
      rw [hnew'val, List.length_range']
    -- row identity for the kept rows
    have hlowrow : ∀ i, i < r → ∀ j,
        mulQ M E (listToFunQ stackedE) i j = listToFunQ stackedE i j := by
      intro i hi j
      have hiE : E i = fun k => if i = k then (1 : ℚ) else 0 := by
        funext k
        show ((elimRun prOps M n stackedP p).1 i k).2 = _
        rw [elimRun_low_rows prOps M n stackedP p i (by rw [← hrval]; exact hi),
          replayPivots_low_rows prOps M stackedP p i (by rw [← hrval]; exact hi)]
        exact congrFun (sndT_idRow i) k
      unfold mulQ
      rw [hiE]
      exact dotQ_delta M i (lt_of_lt_of_le (lt_of_lt_of_le hi hrle) hlen'M) _
    -- relation of the new rows
    have hrel' : ∀ i, i < len' → ∀ j, j < n →
        mulQ M E (listToFunQ stackedE) i j
          = dotQ n ((Tse₂.getD i fun _ _ => 0) j) vece := by
      intro i hi j hj
      by_cases hir : i < r
      · rw [hlowrow i hir j]
        rw [hTse₂def, getD_append_left _ _ _ _ (by rw [hTse_len, ← hrT]; exact hir)]
        have hib : i < brows.length := by rw [← hplen, ← hrval]; exact hir
        have h1 : listToFunQ stackedE i j = (be.getD i fun _ => 0) j := by
          show (stackedE.getD i fun _ => 0) j = _
          rw [hstackedE, getD_append_left _ _ _ _ (by rw [hbe_len]; exact hib)]
        rw [h1]
        exact cert.hrel i hib j hj
      · push_neg at hir
        have hTse₂get : Tse₂.getD i (fun _ _ => 0) = sumMatsQ
            ((List.range M).map fun k =>
              smulQ (E i k) (Tse₁.getD k fun _ _ => 0)) := by
          rw [hTse₂def, getD_append_right _ _ _ _ (by rw [hTse_len, ← hrT]; exact hir),
            hTse_len, ← hrT, hnew'val]
          rw [getD_map_range' r (len' - r) (i - r) _ _ (by omega)]
          have hri : r + (i - r) = i := by omega
          rw [hri]
        rw [hTse₂get, dotQ_sumMatsQ, List.map_map]
        have hterm : ∀ k ∈ List.range M,
            ((fun Mm => dotQ n (Mm j) vece) ∘ fun k =>
              smulQ (E i k) (Tse₁.getD k fun _ _ => 0)) k
              = E i k * (stackedE.getD k fun _ => 0) j := by
          intro k hk
          have hkM : k < M := List.mem_range.mp hk
          show dotQ n (fun b => E i k * (Tse₁.getD k fun _ _ => 0) j b) vece = _
          rw [dotQ_smul_left, ← F5 k hkM j hj]
        rw [List.map_congr_left hterm]
        rfl
    -- adjoin membership of the new transition matrices
    have hadj' : ∀ i, i < len' →
        finMat n (Tse₂.getD i fun _ _ => 0) ∈ Algebra.adjoin ℚ (adjGens n Matse) := by
      intro i hi
      by_cases hir : i < r
      · rw [hTse₂def, getD_append_left _ _ _ _ (by rw [hTse_len, ← hrT]; exact hir)]
        exact cert.hadj i (by rw [← hrT]; exact hir)
      · push_neg at hir
        have hTse₂get : Tse₂.getD i (fun _ _ => 0) = sumMatsQ
            ((List.range M).map fun k =>
              smulQ (E i k) (Tse₁.getD k fun _ _ => 0)) := by
          rw [hTse₂def, getD_append_right _ _ _ _ (by rw [hTse_len, ← hrT]; exact hir),
            hTse_len, ← hrT, hnew'val]
          rw [getD_map_range' r (len' - r) (i - r) _ _ (by omega)]
          have hri : r + (i - r) = i := by omega
          rw [hri]
        rw [hTse₂get]
        apply finMat_sumMatsQ_mem
        intro Mm hMm
        obtain ⟨k, hk, rfl⟩ := List.mem_map.mp hMm
        rw [finMat_smulQ]
        exact Subalgebra.smul_mem _ (F6 k (List.mem_range.mp hk)) _
    -- the new certificate
    have cert' : OrbitCert n Matse vece brows' Ts₂ be' Tse₂ := by
      refine ⟨⟨?_, ?_⟩, ?_, ?_, ?_, ?_⟩
      · rw [hbe'len, hbrows'len]
      · intro i hi j hj
        rw [hbrows'len] at hi
        rw [hbePdef, getD_map_range len' i _ _ hi]
        rw [hbrows'val, getD_map_range len' i _ _ hi]
        have hres1 : res.1 = liftT (REFcore prOps M n stackedP p).1 := by rw [hres2]
        rw [hres1]
        exact hprodmem i (lt_of_lt_of_le hi hlen'M) j hj
      · rw [hTs₂val, htake, hTse₂def]
        apply MatsEncl_append n _ _ _ _ cert.hTs
        have hrange : List.range Ts₁.length = List.range M := by rw [hT1len]
        rw [hrange]
        apply MatsEncl_map
        intro i hi a ha b hb
        have hiM : i < M := lt_of_lt_of_le (hnew'mem i hi).2 hlen'M
        apply sumMats_encl
        · apply MatsEncl_map
          intro k hk x hx y hy
          have hkM : k < M := List.mem_range.mp hk
          apply smulMat_encl
          · have hres21 : res.2.1 = liftT (REFcore prOps M n stackedP p).2.1 := by
              rw [hres2]
            rw [hres21]
            exact hinv.hmem i hiM k hkM
          · intro a' ha' b' hb'
            exact F2.2 k (by rw [hT1len]; exact hkM) a' ha' b' hb'
          · exact hx
          · exact hy
        · exact ha
        · exact hb
      · rw [hTs₂val, htake, List.length_append, List.length_map, hnew'len,
          hbrows'len, ← hrT]
        omega
      · intro i hi j hj
        rw [hbrows'len] at hi
        rw [hbePdef, getD_map_range len' i _ _ hi]
        exact hrel' i hi j hj
      · intro i hi
        rw [hTs₂val, htake, List.length_append, List.length_map, hnew'len, ← hrT] at hi
        exact hadj' i (by omega)
    -- the new pivot-side facts
    have piv' : OrbitPiv n be' res.2.2 := by
      refine ⟨hpivEl.1, hpivEl.2.1, hpivEl.2.2.2, ?_, ?_⟩
      · rw [hbe'len, hlenPdef]
      · intro jp hjp
        have hjp2 : jp.2 < len' := by
          rw [hlenPdef]
          exact pivotsOk_val_lt hpivEl jp hjp
        have hjpel : jp ∈ (elimRun prOps M n stackedP p).2 := by
          rw [← hp22]
          exact hjp
        have hpat := hinv.hpat jp hjpel
        constructor
        · rw [hbePdef, getD_map_range len' jp.2 _ _ hjp2]
          exact hpat.1
        · intro i hi hilen
          rw [hbePdef, getD_map_range len' i _ _ hilen]
          exact hpat.2 i hi (lt_of_lt_of_le hilen hlen'M)
    have hnew'brows : ∀ i ∈ new', i < brows'.length := by
      intro i hi
      rw [hbrows'len]
      exact (hnew'mem i hi).2
    exact ih hnew'brows ⟨be', Tse₂, cert', piv'⟩ l T' hok
  | case3 brows Ts p new hguard =>
    intro hnew hcert l T' hok
    rw [orbitLoop.eq_def, dif_neg hguard] at hok
    rw [Except.ok.injEq, Prod.mk.injEq] at hok
    obtain ⟨be, Tse, cert, piv⟩ := hcert
    rw [← hok.1, ← hok.2]
    exact ⟨be, Tse, cert⟩

theorem dotQ_one (u v : ℕ → ℚ) : dotQ 1 u v = u 0 * v 0 := by
  show u 0 * v 0 + 0 = u 0 * v 0
  ring

/-- **C6.**  If `orbit(Mats, vec, transition=True)` returns `(b, T)`, then
for every exact selection of the family (entrywise enclosed in `Mats`) and
every exact seed enclosed in `vec`, there are exact selections of `b` and
`T` (entrywise enclosed) such that each exact basis row is its exact
transition matrix applied to the exact seed, and each exact transition
matrix lies in the (unital) algebra generated by the exact selection of the
family — in particular it is polynomial in the family. -/
theorem orbit_transition_certifies (n : ℕ) (Mats : List (ℕ → ℕ → Ball))
    (vec : ℕ → Ball) (Matse : List (ℕ → ℕ → ℚ)) (vece : ℕ → ℚ)
    (hME : MatsEncl n Mats Matse) (hvec : ∀ j, j < n → Ball.mem (vece j) (vec j))
    (l : List (ℕ → Ball)) (T' : List (ℕ → ℕ → Ball))
    (hok : orbit n Mats vec true = Except.ok (l, T')) :
    ∃ le Tse, OrbitCert n Matse vece l T' le Tse := by
  unfold orbit at hok
  simp only [] at hok
  by_cases hdet : (detB 1 (REFcore ballOps 1 n (rowMat vec) []).2.1).containsZero = true
  · rw [if_pos hdet] at hok
    exact absurd hok (by simp)
  · rw [if_neg hdet] at hok
    by_cases hlen0 : (REFcore ballOps 1 n (rowMat vec) []).2.2.length = 0
    · rw [if_pos hlen0] at hok
      rw [Except.ok.injEq, Prod.mk.injEq] at hok
      rw [← hok.1, ← hok.2]
      refine ⟨[], [], ⟨RowsEncl_nil n, MatsEncl_nil n, rfl, ?_, ?_⟩⟩
      · intro i hi
        exact absurd hi (by simp)
      · intro i hi
        exact absurd hi (by simp)
    · rw [if_neg hlen0] at hok
      set vecP := (fun i j => (rowMat vec i j, rowMatQ vece i j) : ℕ → ℕ → Ball × ℚ)
        with hvecP
      have hm1 : ∀ i, i < 1 → ∀ j, j < n → pmem (vecP i j) := by
        intro i hi j hj
        have hi0 : i = 0 := by omega
        subst hi0
        exact hvec j hj
      have hinv0 := elimRun_inv 1 n vecP hm1 [] (init_inv_nil 1 n vecP)
      have hres0fst : REFcore ballOps 1 n (rowMat vec) []
          = (liftT (REFcore prOps 1 n vecP []).1,
             liftT (REFcore prOps 1 n vecP []).2.1,
             (REFcore prOps 1 n vecP []).2.2) := by
        have h0 : rowMat vec = liftT vecP := rfl
        rw [h0]
        exact REFcore_fst 1 n vecP []
      set E0 := sndT (elimRun prOps 1 n vecP []).1 with hE0def
      have hprod0 : matMem 1 n (mulQ 1 E0 (sndT vecP))
          (liftT (REFcore prOps 1 n vecP []).1) :=
        REFcore_pair_sound 1 n vecP hm1 [] hinv0
      have hp0 : (REFcore ballOps 1 n (rowMat vec) []).2.2
          = (elimRun prOps 1 n vecP []).2 := by
        rw [hres0fst]
        rfl
      have hpiv0 : pivotsOk 1 n (REFcore ballOps 1 n (rowMat vec) []).2.2 := by
        rw [hp0]
        exact hinv0.hpiv
      have hlen1 : (REFcore ballOps 1 n (rowMat vec) []).2.2.length = 1 := by
        have := hpiv0.2.2.1
        omega
      set be0 := [fun j => mulQ 1 E0 (sndT vecP) 0 j] with hbe0
      set Tse0 := [smulQ (E0 0 0) idQ] with hTse0
      have cert0 : OrbitCert n Matse vece
          [fun j => (REFcore ballOps 1 n (rowMat vec) []).1 0 j]
          [smulMat ((REFcore ballOps 1 n (rowMat vec) []).2.1 0 0) (idMat ballOps)]
          be0 Tse0 := by
        refine ⟨⟨rfl, ?_⟩, ⟨rfl, ?_⟩, rfl, ?_, ?_⟩
        · intro i hi j hj
          have hi0 : i = 0 := by simp at hi; omega
          subst hi0
          show Ball.mem (mulQ 1 E0 (sndT vecP) 0 j)
            ((REFcore ballOps 1 n (rowMat vec) []).1 0 j)
          have h1 : (REFcore ballOps 1 n (rowMat vec) []).1
              = liftT (REFcore prOps 1 n vecP []).1 := by rw [hres0fst]
          rw [h1]
          exact hprod0 0 (by omega) j hj
        · intro i hi a ha b hb
          have hi0 : i = 0 := by simp at hi; omega
          subst hi0
          show Ball.mem (E0 0 0 * idQ a b)
            (((REFcore ballOps 1 n (rowMat vec) []).2.1 0 0).mul (idMat ballOps a b))
          have h1 : (REFcore ballOps 1 n (rowMat vec) []).2.1
              = liftT (REFcore prOps 1 n vecP []).2.1 := by rw [hres0fst]
          have hmemE : Ball.mem (E0 0 0)
              ((REFcore ballOps 1 n (rowMat vec) []).2.1 0 0) := by
            rw [h1]
            exact hinv0.hmem 0 (by omega) 0 (by omega)
          apply Ball.mem_mul hmemE
          show Ball.mem (if a = b then (1 : ℚ) else 0)
            (if a = b then ballOps.one else ballOps.zero)
          by_cases hab : a = b
          · rw [if_pos hab, if_pos hab]
            exact Ball.mem_one
          · rw [if_neg hab, if_neg hab]
            exact Ball.mem_zero
        · intro i hi j hj
          have hi0 : i = 0 := by simp at hi; omega
          subst hi0
          show mulQ 1 E0 (sndT vecP) 0 j = dotQ n (fun k => E0 0 0 * idQ j k) vece
          have hlhs : mulQ 1 E0 (sndT vecP) 0 j = E0 0 0 * vece j := by
            unfold mulQ
            rw [dotQ_one]
            have : sndT vecP 0 j = vece j := rfl
            rw [this]
          rw [hlhs, dotQ_smul_left]
          congr 1
          exact (dotQ_delta n j hj vece).symm
        · intro i hi
          have hi0 : i = 0 := by simp at hi; omega
          subst hi0
          show finMat n (smulQ (E0 0 0) idQ) ∈ Algebra.adjoin ℚ (adjGens n Matse)
          rw [finMat_smulQ, finMat_idQ]
          exact Subalgebra.smul_mem _ (one_mem _) _
      have piv0 : OrbitPiv n be0 (REFcore ballOps 1 n (rowMat vec) []).2.2 := by
        refine ⟨hpiv0.1, hpiv0.2.1, hpiv0.2.2.2, by rw [hlen1]; rfl, ?_⟩
        intro jp hjp
        have hjp2 : jp.2 = 0 := by
          have := pivotsOk_val_lt hpiv0 jp hjp
          omega
        have hjpel : jp ∈ (elimRun prOps 1 n vecP []).2 := by
          rw [← hp0]
          exact hjp
        have hpat := hinv0.hpat jp hjpel
        constructor
        · rw [hjp2]
          show mulQ 1 E0 (sndT vecP) 0 jp.1 = 1
          rw [← hjp2]
          exact hpat.1
        · intro i hi hilen
          rw [hlen1] at hilen
          omega
      have hnew0 : ∀ i ∈ List.range' 0 1,
          i < ([fun j => (REFcore ballOps 1 n (rowMat vec) []).1 0 j] :
            List (ℕ → Ball)).length := by
        intro i hi
        have := List.mem_range'_1.mp hi
        simp only [List.length_cons, List.length_nil]
        omega
      exact orbitLoop_certifies n Mats Matse vece hME _ _ _ _ hnew0
        ⟨be0, Tse0, cert0, piv0⟩ l T' hok

set_option maxRecDepth 10000

unseal Rat.add Rat.mul Rat.sub Rat.inv in
/-- Witness for C6: the empty family with the exact seed `[1]`. -/
theorem orbit_transition_certifies_witness :
    ∃ le Tse, OrbitCert 1 [] (fun _ => (1 : ℚ))
      [fun j => (REFcore ballOps 1 1 (rowMat fun _ => Ball.one) []).1 0 j]
      [smulMat ((REFcore ballOps 1 1 (rowMat fun _ => Ball.one) []).2.1 0 0)
        (idMat ballOps)] le Tse :=
  orbit_transition_certifies 1 [] (fun _ => Ball.one) [] (fun _ => 1)
    ⟨rfl, fun i hi => absurd hi (by simp)⟩
    (fun _ _ => Ball.mem_one) _ _
    (by
      unfold orbit
      simp only []
      rw [if_neg (by decide), if_neg (by decide)]
      rw [orbitLoop.eq_def, dif_neg (by decide)]
      rfl)

/-!
## `generated_algebra` (reduction.py lines 309-326)

The basis of the generated algebra is kept as a matrix of flattened
(row-major, as Sage's `mat.list()`) `n×n` matrices with `n²` columns; the
loop stacks the flattened pairwise products `b[i]*b[j]` for `i in range(r)`,
`j in new`, reduces resuming from the certified pivots and trims to the
pivot rows. -/

/-- `mat.list()`: the row-major flattening of an `n×n` matrix. -/
def flatRow (n : ℕ) (M : ℕ → ℕ → Ball) : ℕ → Ball :=
  fun t => M (t / n) (t % n)

/-- Exact flattening. -/
def flatRowQ (n : ℕ) (M : ℕ → ℕ → ℚ) : ℕ → ℚ :=
  fun t => M (t / n) (t % n)

/-- `(matrix(n, u) * matrix(n, v)).list()`: the flattened product of two
flattened matrices. -/
def prodRow (n : ℕ) (u v : ℕ → Ball) : ℕ → Ball :=
  fun t => ballOps.dot n (fun k => u (n * (t / n) + k)) (fun k => v (n * k + t % n))

/-- Exact flattened product. -/
def prodRowQ (n : ℕ) (u v : ℕ → ℚ) : ℕ → ℚ :=
  fun t => dotQ n (fun k => u (n * (t / n) + k)) (fun k => v (n * k + t % n))

/-- Un-flattening, exact side. -/
def unflattenQ (n : ℕ) (u : ℕ → ℚ) : ℕ → ℕ → ℚ :=
  fun a b => u (n * a + b)

/-- The `while` loop of `generated_algebra` (lines 317-325).  As in `orbit`
the loop variable `r` equals `len(p)` at the head of each iteration, and the
inner `REF(b, pivots=True, prec_pivots=p)` is `REFcore` (no transformation,
so by C4 no error can be raised). -/
def generatedAlgebraLoop (n : ℕ) (brows : List (ℕ → Ball)) (p : List (ℕ × ℕ))
    (new : List ℕ) : List (ℕ → Ball) :=
  if h : 0 < new.length ∧ p.length < n ^ 2 then
    let r := p.length
    let stacked := brows ++ ((List.range r).bind fun i => new.map fun j =>
      prodRow n (brows.getD i fun _ => Ball.zero) (brows.getD j fun _ => Ball.zero))
    let res := REFcore ballOps stacked.length (n ^ 2) (listToFun stacked) p
    let new' := List.range' r (res.2.2.length - r)
    let brows' := (List.range res.2.2.length).map fun i => fun j => res.1 i j
    generatedAlgebraLoop n brows' res.2.2 new'
  else brows
termination_by 2 * (n ^ 2 - p.length) + (if new = [] then 0 else 1)
decreasing_by
  have hpre : p <+: res.2.2 :=
    elimRun_grows ballOps stacked.length (n ^ 2) (listToFun stacked) p
  have hlen : p.length ≤ res.2.2.length := hpre.length_le
  have hne : new ≠ [] := by
    intro hc
    rw [hc] at h
    exact absurd h.1 (by simp)
  have h2 := h.2
  rw [if_neg hne]
  show 2 * (n ^ 2 - res.2.2.length) + (if new' = [] then 0 else 1)
    < 2 * (n ^ 2 - p.length) + 1
  by_cases heq : res.2.2.length = p.length
  · have hnil : new' = [] := by
      show List.range' p.length (res.2.2.length - p.length) = []
      rw [heq, Nat.sub_self]
      rfl
    rw [if_pos hnil, heq]
    omega
  · have hgt : p.length < res.2.2.length := by
      omega
    by_cases hnil : new' = []
    · rw [if_pos hnil]
      omega
    · rw [if_neg hnil]
      omega

/-- `generated_algebra(Mats)` (reduction.py lines 309-326): the initial
reduction of the stacked flattened family, the trim to the pivot rows, and
the loop. -/
def generated_algebra (n : ℕ) (Mats : List (ℕ → ℕ → Ball)) : List (ℕ → Ball) :=
  let res := REFcore ballOps Mats.length (n ^ 2) (listToFun (Mats.map (flatRow n))) []
  let r := res.2.2.length
  generatedAlgebraLoop n ((List.range r).map fun i => fun j => res.1 i j)
    res.2.2 (List.range' 0 r)

theorem flatIdx_lt {n a b : ℕ} (ha : a < n) (hb : b < n) : n * a + b < n ^ 2 := by
  have h1 : n * a + b < n * a + n := by omega
  have h2 : n * a + n = n * (a + 1) := by ring
  have h3 : n * (a + 1) ≤ n * n := Nat.mul_le_mul_left n (by omega)
  have h4 : n * n = n ^ 2 := by ring
  omega

theorem flatIdx_div {n a b : ℕ} (hn : 0 < n) (hb : b < n) : (n * a + b) / n = a := by
  rw [Nat.mul_add_div hn, Nat.div_eq_of_lt hb]
  omega

theorem flatIdx_mod {n a b : ℕ} (hb : b < n) : (n * a + b) % n = b := by
  rw [Nat.mul_add_mod]
  exact Nat.mod_eq_of_lt hb

theorem div_lt_of_lt_sq {n t : ℕ} (ht : t < n ^ 2) : t / n < n := by
  rcases Nat.eq_zero_or_pos n with hn | hn
  · subst hn
    simp at ht
  · apply Nat.div_lt_of_lt_mul
    have : n ^ 2 = n * n := by ring
    omega

theorem mod_lt_of_lt_sq {n t : ℕ} (ht : t < n ^ 2) : t % n < n := by
  rcases Nat.eq_zero_or_pos n with hn | hn
  · subst hn
    simp at ht
  · exact Nat.mod_lt t hn

theorem getD_map {α β : Type} (l : List α) (f : α → β) (i : ℕ) (d : β) (d' : α)
    (h : i < l.length) : (l.map f).getD i d = f (l.getD i d') := by
  rw [List.getD_eq_getElem _ _ (by simpa using h), List.getElem_map,
    List.getD_eq_getElem _ _ h]

theorem finMat_unflattenQ_flatRowQ (n : ℕ) (M : ℕ → ℕ → ℚ) (hn : 0 < n) :
    finMat n (unflattenQ n (flatRowQ n M)) = finMat n M := by
  funext a b
  show M ((n * a.1 + b.1) / n) ((n * a.1 + b.1) % n) = M a.1 b.1
  rw [flatIdx_div hn b.2, flatIdx_mod b.2]

theorem finMat_unflatten_prodRowQ (n : ℕ) (u v : ℕ → ℚ) (hn : 0 < n) :
    finMat n (unflattenQ n (prodRowQ n u v))
      = finMat n (unflattenQ n u) * finMat n (unflattenQ n v) := by
  funext a b
  show prodRowQ n u v (n * a.1 + b.1) = _
  unfold prodRowQ
  rw [flatIdx_div hn b.2, flatIdx_mod b.2, Matrix.mul_apply, dotQ_eq_sum]
  rfl

theorem finMat_unflatten_dotQ_mem (n m : ℕ)
    (S : Subalgebra ℚ (Matrix (Fin n) (Fin n) ℚ)) (E : ℕ → ℚ) (rows : ℕ → ℕ → ℚ)
    (hrows : ∀ k, k < m → finMat n (unflattenQ n (rows k)) ∈ S) :
    finMat n (unflattenQ n (fun t => dotQ m E (fun k => rows k t))) ∈ S := by
  have heq : finMat n (unflattenQ n (fun t => dotQ m E (fun k => rows k t)))
      = ∑ k : Fin m, E k.1 • finMat n (unflattenQ n (rows k.1)) := by
    funext a b
    show dotQ m E (fun k => rows k (n * a.1 + b.1)) = _
    rw [dotQ_eq_sum, Matrix.sum_apply]
    apply Finset.sum_congr rfl
    intro k _
    rfl
  rw [heq]
  apply Subalgebra.sum_mem
  intro k _
  exact Subalgebra.smul_mem S (hrows k.1 k.2) _

theorem prodRow_encl (n : ℕ) (u v : ℕ → Ball) (ue ve : ℕ → ℚ)
    (hu : ∀ s, s < n ^ 2 → Ball.mem (ue s) (u s))
    (hv : ∀ s, s < n ^ 2 → Ball.mem (ve s) (v s)) :
    ∀ t, t < n ^ 2 → Ball.mem (prodRowQ n ue ve t) (prodRow n u v t) := by
  intro t ht
  apply dot_mem
  · intro k hk
    exact hu _ (flatIdx_lt (div_lt_of_lt_sq ht) hk)
  · intro k hk
    exact hv _ (flatIdx_lt hk (mod_lt_of_lt_sq ht))

theorem pivots_length_le (n : ℕ) (p : List (ℕ × ℕ))
    (hnod : (p.map Prod.fst).Nodup) (hkeys : ∀ jp ∈ p, jp.1 < n) :
    p.length ≤ n := by
  have h1 : (p.map Prod.fst).toFinset.card = (p.map Prod.fst).length :=
    List.toFinset_card_of_nodup hnod
  have h2 : (p.map Prod.fst).toFinset ⊆ Finset.range n := by
    intro x hx
    rw [List.mem_toFinset] at hx
    rcases List.mem_map.mp hx with ⟨jp, hjp, rfl⟩
    rw [Finset.mem_range]
    exact hkeys jp hjp
  have h3 := Finset.card_le_card h2
  rw [h1, Finset.card_range, List.length_map] at h3
  exact h3

theorem getD_range (r t : ℕ) (d : ℕ) (h : t < r) : (List.range r).getD t d = t := by
  rw [List.getD_eq_getElem _ _ (by simpa using h)]
  exact List.getElem_range _ _

theorem bind_rows_encl_gen {α α' : Type} (n : ℕ) (l : List α) (le : List α')
    (F : α → List (ℕ → Ball)) (Fe : α' → List (ℕ → ℚ)) (d₀ : α) (d₀' : α')
    (hlen : le.length = l.length)
    (h : ∀ t, t < l.length → RowsEncl n (F (l.getD t d₀)) (Fe (le.getD t d₀'))) :
    RowsEncl n (l.bind F) (le.bind Fe) := by
  induction l generalizing le with
  | nil =>
    have he : le = [] := List.length_eq_zero.mp (by rw [hlen]; rfl)
    subst he
    exact RowsEncl_nil n
  | cons x t ih =>
    cases le with
    | nil => exact absurd hlen (by simp)
    | cons xe te =>
      show RowsEncl n (F x ++ t.bind F) (Fe xe ++ te.bind Fe)
      apply RowsEncl_append
      · exact h 0 (by simp)
      · exact ih te (by simpa using hlen)
          (fun t' ht' => h (t' + 1) (by simpa using ht'))

unseal Rat.add Rat.mul Rat.sub Rat.inv in
/-- **C8 (counterexample).**  On the family `[[0 ± 1]]` (one `1×1` matrix),
`generated_algebra` returns the empty basis, although the enclosed exact
selection `[[1/2]]` generates the full `1×1` matrix algebra: the returned
length being `n²` is *sufficient* for the family to span, but not
*necessary*, refuting the claimed equivalence. -/
theorem generated_algebra_span_iff_fails :
    generated_algebra 1 [fun _ _ => (⟨0, 1⟩ : Ball)] = []
    ∧ MatsEncl 1 [fun _ _ => (⟨0, 1⟩ : Ball)] [fun _ _ => (1/2 : ℚ)]
    ∧ Algebra.adjoin ℚ (adjGens 1 [fun _ _ => (1/2 : ℚ)]) = ⊤
    ∧ ([] : List (ℕ → Ball)).length ≠ 1 ^ 2 := by
  refine ⟨?_, ?_, ?_, by decide⟩
  · unfold generated_algebra
    simp only []
    rw [generatedAlgebraLoop.eq_def, dif_neg (by decide)]
    rfl
  · refine ⟨rfl, ?_⟩
    intro i hi a ha b hb
    have hi0 : i = 0 := by simp at hi; omega
    subst hi0
    show Ball.mem (1/2) ⟨0, 1⟩
    decide
  · rw [eq_top_iff]
    intro A _
    have hA : A = (2 * A 0 0) • finMat 1 (fun _ _ => (1/2 : ℚ)) := by
      funext i j
      have hi : i = 0 := Subsingleton.elim i 0
      have hj : j = 0 := Subsingleton.elim j 0
      subst hi hj
      show A 0 0 = 2 * A 0 0 * (1/2)
      ring
    rw [hA]
    apply Subalgebra.smul_mem
    apply Algebra.subset_adjoin
    exact ⟨fun _ _ => (1/2 : ℚ), List.mem_singleton_self _, rfl⟩

theorem gaLoop_certifies (n : ℕ) (S : Subalgebra ℚ (Matrix (Fin n) (Fin n) ℚ))
    (brows : List (ℕ → Ball)) (p : List (ℕ × ℕ)) (new : List ℕ) :
    (∀ i ∈ new, i < brows.length) →
    (∃ be, RowsEncl (n ^ 2) brows be
      ∧ (∀ i, i < brows.length → finMat n (unflattenQ n (be.getD i fun _ => 0)) ∈ S)
      ∧ OrbitPiv (n ^ 2) be p) →
    ∃ be p', RowsEncl (n ^ 2) (generatedAlgebraLoop n brows p new) be
      ∧ (∀ i, i < (generatedAlgebraLoop n brows p new).length →
          finMat n (unflattenQ n (be.getD i fun _ => 0)) ∈ S)
      ∧ OrbitPiv (n ^ 2) be p' := by
  induction brows, p, new using generatedAlgebraLoop.induct n with
  | case2 brows p new hguard =>
    intro hnew hcert
    obtain ⟨be, hrows, hadj, piv⟩ := hcert
    rw [generatedAlgebraLoop.eq_def, dif_neg hguard]
    exact ⟨be, p, hrows, hadj, piv⟩
  | case1 brows p new hguard r stacked res new' brows' ih =>
    intro hnew hcert
    obtain ⟨be, hrows, hadj, piv⟩ := hcert
    rw [generatedAlgebraLoop.eq_def, dif_pos hguard]
    simp only []
    have hn : 0 < n := by
      rcases Nat.eq_zero_or_pos n with h0 | h0
      · subst h0
        exact absurd hguard.2 (by simp)
      · exact h0
    have hrval : r = p.length := rfl
    have hstackedval : stacked = brows ++ ((List.range r).bind fun i => new.map fun j =>
        prodRow n (brows.getD i fun _ => Ball.zero) (brows.getD j fun _ => Ball.zero)) := rfl
    have hresval : res = REFcore ballOps stacked.length (n ^ 2) (listToFun stacked) p := rfl
    have hnew'val : new' = List.range' r (res.2.2.length - r) := rfl
    have hbrows'val : brows' = (List.range res.2.2.length).map (fun i j => res.1 i j) := rfl
    set M := stacked.length with hM
    set bindE := ((List.range r).bind fun i => new.map fun j =>
      prodRowQ n (be.getD i fun _ => 0) (be.getD j fun _ => 0)) with hbindE
    set stackedE := be ++ bindE with hstackedE
    set stackedP := (fun i j => (listToFun stacked i j, listToFunQ stackedE i j) :
      ℕ → ℕ → Ball × ℚ) with hstackedP
    have hbe_len : be.length = brows.length := hrows.1
    have hplen : p.length = brows.length := by rw [piv.hlen, hbe_len]
    -- enclosure of the stacked rows
    have F1 : RowsEncl (n ^ 2) stacked stackedE := by
      rw [hstackedval, hstackedE, hbindE]
      apply RowsEncl_append _ _ _ _ _ hrows
      apply bind_rows_encl_gen (n ^ 2) (List.range r) (List.range r) _ _ 0 0 rfl
      intro t ht
      rw [List.length_range] at ht
      rw [getD_range r t 0 ht]
      apply RowsEncl_map
      intro j hj s hs
      apply prodRow_encl
      · intro s' hs'
        exact hrows.2 t (by omega) s' hs'
      · intro s' hs'
        exact hrows.2 j (hnew j hj) s' hs'
      · exact hs
    have hSElen : stackedE.length = M := F1.1
    have hbrowsM : brows.length ≤ M := by
      rw [hM, hstackedval, List.length_append]
      omega
    have hmatP : ∀ i, i < M → ∀ j, j < n ^ 2 → pmem (stackedP i j) := by
      intro i hi j hj
      exact F1.2 i hi j hj
    -- algebra membership of the stacked exact rows
    have FS : ∀ k, k < M →
        finMat n (unflattenQ n (stackedE.getD k fun _ => 0)) ∈ S := by
      intro k hk
      by_cases hkb : k < brows.length
      · rw [hstackedE, getD_append_left _ _ _ _ (by rw [hbe_len]; exact hkb)]
        exact hadj k hkb
      · push_neg at hkb
        rw [hstackedE, getD_append_right _ _ _ _ (by rw [hbe_len]; exact hkb), hbe_len]
        have hkbound : k - brows.length
            < ((List.range r).bind fun i => new.map fun j =>
                prodRowQ n (be.getD i fun _ => 0) (be.getD j fun _ => 0)).length := by
          rw [length_bind_map, List.length_range]
          rw [hM, hstackedval, List.length_append, length_bind_map,
            List.length_range] at hk
          omega
        have := parallel_bind_map_getD
          (fun (_ : ℕ → ℚ) (u : ℕ → ℚ) => finMat n (unflattenQ n u) ∈ S)
          (List.range r) (List.range r) new
          (fun i j => prodRowQ n (be.getD i fun _ => 0) (be.getD j fun _ => 0))
          (fun i j => prodRowQ n (be.getD i fun _ => 0) (be.getD j fun _ => 0))
          0 0 (fun _ => 0) (fun _ => 0) rfl
          ?_ (k - brows.length) hkbound
        · exact this
        · intro t ht j hj
          rw [List.length_range] at ht
          rw [getD_range r t 0 ht]
          rw [finMat_unflatten_prodRowQ n _ _ hn]
          exact mul_mem (hadj t (by omega)) (hadj j (hnew j hj))
    -- the paired elimination
    have F7 : pivotsOk M (n ^ 2) p :=
      ⟨piv.hsnd, piv.hkeys, by rw [hplen]; exact hbrowsM, piv.hnod⟩
    have F8 : ∀ jp ∈ p, sndT stackedP jp.2 jp.1 = 1
        ∧ ∀ i, jp.2 < i → i < p.length → sndT stackedP i jp.1 = 0 := by
      intro jp hjp
      have hjp2 : jp.2 < p.length := pivotsOk_val_lt F7 jp hjp
      constructor
      · show (stackedE.getD jp.2 fun _ => 0) jp.1 = 1
        rw [hstackedE, getD_append_left _ _ _ _ (by rw [hbe_len, ← hplen]; exact hjp2)]
        exact (piv.hpat jp hjp).1
      · intro i hi hip
        show (stackedE.getD i fun _ => 0) jp.1 = 0
        rw [hstackedE, getD_append_left _ _ _ _ (by rw [hbe_len, ← hplen]; exact hip)]
        exact (piv.hpat jp hjp).2 i hi hip
    have hreplay := init_inv_replay M (n ^ 2) stackedP hmatP p F7 F8
    have hinv := elimRun_inv M (n ^ 2) stackedP hmatP p hreplay
    have hres2 : res = (liftT (REFcore prOps M (n ^ 2) stackedP p).1,
        liftT (REFcore prOps M (n ^ 2) stackedP p).2.1,
        (REFcore prOps M (n ^ 2) stackedP p).2.2) := by
      have h0 : res = REFcore ballOps M (n ^ 2) (liftT stackedP) p := rfl
      rw [h0]
      exact REFcore_fst M (n ^ 2) stackedP p
    set E := sndT (elimRun prOps M (n ^ 2) stackedP p).1 with hEdef
    have hprodmem : matMem M (n ^ 2) (mulQ M E (sndT stackedP))
        (liftT (REFcore prOps M (n ^ 2) stackedP p).1) :=
      REFcore_pair_sound M (n ^ 2) stackedP hmatP p hinv
    have hp22 : res.2.2 = (elimRun prOps M (n ^ 2) stackedP p).2 := by
      rw [hres2]
      rfl
    set len' := res.2.2.length with hlenPdef
    have hpivEl : pivotsOk M (n ^ 2) res.2.2 := by
      rw [hp22]
      exact hinv.hpiv
    have hlen'M : len' ≤ M := by
      rw [hlenPdef, hp22]
      exact hinv.hpiv.2.2.1
    set be' := (List.range len').map
      (fun i => fun t => mulQ M E (listToFunQ stackedE) i t) with hbePdef
    have hbe'len : be'.length = len' := by
      rw [hbePdef, List.length_map, List.length_range]
    have hbrows'len : brows'.length = len' := by
      rw [hbrows'val, List.length_map, List.length_range]
    have hrows' : RowsEncl (n ^ 2) brows' be' := by
      refine ⟨by rw [hbe'len, hbrows'len], ?_⟩
      intro i hi j hj
      rw [hbrows'len] at hi
      rw [hbePdef, getD_map_range len' i _ _ hi]
      rw [hbrows'val, getD_map_range len' i _ _ hi]
      have hres1 : res.1 = liftT (REFcore prOps M (n ^ 2) stackedP p).1 := by
        rw [hres2]
      rw [hres1]
      exact hprodmem i (lt_of_lt_of_le hi hlen'M) j hj
    have hadj' : ∀ i, i < brows'.length →
        finMat n (unflattenQ n (be'.getD i fun _ => 0)) ∈ S := by
      intro i hi
      rw [hbrows'len] at hi
      rw [hbePdef, getD_map_range len' i _ _ hi]
      exact finMat_unflatten_dotQ_mem n M S (E i)
        (fun k => stackedE.getD k fun _ => 0) FS
    have piv' : OrbitPiv (n ^ 2) be' res.2.2 := by
      refine ⟨hpivEl.1, hpivEl.2.1, hpivEl.2.2.2, by rw [hbe'len, hlenPdef], ?_⟩
      intro jp hjp
      have hjp2 : jp.2 < len' := by
        rw [hlenPdef]
        exact pivotsOk_val_lt hpivEl jp hjp
      have hjpel : jp ∈ (elimRun prOps M (n ^ 2) stackedP p).2 := by
        rw [← hp22]
        exact hjp
      have hpat := hinv.hpat jp hjpel
      constructor
      · rw [hbePdef, getD_map_range len' jp.2 _ _ hjp2]
        exact hpat.1
      · intro i hi hilen
        rw [hbePdef, getD_map_range len' i _ _ hilen]
        exact hpat.2 i hi (lt_of_lt_of_le hilen hlen'M)
    have hnew' : ∀ i ∈ new', i < brows'.length := by
      intro i hi
      rw [hnew'val] at hi
      have := List.mem_range'_1.mp hi
      rw [hbrows'len]
      omega
    exact ih hnew' ⟨be', hrows', hadj', piv'⟩

theorem matrix_fin_zero_eq (A B : Matrix (Fin 0) (Fin 0) ℚ) : A = B := by
  funext i
  exact i.elim0

theorem generated_algebra_certifies (n : ℕ) (Mats : List (ℕ → ℕ → Ball))
    (Matse : List (ℕ → ℕ → ℚ)) (hME : MatsEncl n Mats Matse) :
    ∃ be p', RowsEncl (n ^ 2) (generated_algebra n Mats) be
      ∧ (∀ i, i < (generated_algebra n Mats).length →
          finMat n (unflattenQ n (be.getD i fun _ => 0))
            ∈ Algebra.adjoin ℚ (adjGens n Matse))
      ∧ OrbitPiv (n ^ 2) be p' := by
  set matP₀ := (fun i j => (listToFun (Mats.map (flatRow n)) i j,
      listToFunQ (Matse.map (flatRowQ n)) i j) : ℕ → ℕ → Ball × ℚ) with hmatP₀
  have hm₀ : ∀ i, i < Mats.length → ∀ j, j < n ^ 2 → pmem (matP₀ i j) := by
    intro i hi j hj
    show Ball.mem ((Matse.map (flatRowQ n)).getD i (fun _ => 0) j)
      (((Mats.map (flatRow n)).getD i (fun _ => Ball.zero)) j)
    rw [getD_map Mats (flatRow n) i _ (fun _ _ => Ball.zero) hi,
      getD_map Matse (flatRowQ n) i _ (fun _ _ => 0) (by rw [hME.1]; exact hi)]
    exact hME.2 i hi _ (div_lt_of_lt_sq hj) _ (mod_lt_of_lt_sq hj)
  have hinv₀ := elimRun_inv Mats.length (n ^ 2) matP₀ hm₀ []
    (init_inv_nil Mats.length (n ^ 2) matP₀)
  have hres₀ : REFcore ballOps Mats.length (n ^ 2) (listToFun (Mats.map (flatRow n))) []
      = (liftT (REFcore prOps Mats.length (n ^ 2) matP₀ []).1,
         liftT (REFcore prOps Mats.length (n ^ 2) matP₀ []).2.1,
         (REFcore prOps Mats.length (n ^ 2) matP₀ []).2.2) := by
    have h0 : listToFun (Mats.map (flatRow n)) = liftT matP₀ := rfl
    rw [h0]
    exact REFcore_fst Mats.length (n ^ 2) matP₀ []
  set E₀ := sndT (elimRun prOps Mats.length (n ^ 2) matP₀ []).1 with hE₀def
  have hprod₀ : matMem Mats.length (n ^ 2) (mulQ Mats.length E₀ (sndT matP₀))
      (liftT (REFcore prOps Mats.length (n ^ 2) matP₀ []).1) :=
    REFcore_pair_sound Mats.length (n ^ 2) matP₀ hm₀ [] hinv₀
  have hp₀ : (REFcore ballOps Mats.length (n ^ 2) (listToFun (Mats.map (flatRow n))) []).2.2
      = (elimRun prOps Mats.length (n ^ 2) matP₀ []).2 := by
    rw [hres₀]
    rfl
  have hpiv₀ : pivotsOk Mats.length (n ^ 2)
      (REFcore ballOps Mats.length (n ^ 2) (listToFun (Mats.map (flatRow n))) []).2.2 := by
    rw [hp₀]
    exact hinv₀.hpiv
  set r₀ := (REFcore ballOps Mats.length (n ^ 2)
    (listToFun (Mats.map (flatRow n))) []).2.2.length with hr₀def
  have hr₀M : r₀ ≤ Mats.length := hpiv₀.2.2.1
  set be₀ := (List.range r₀).map
    (fun i => fun t => mulQ Mats.length E₀ (sndT matP₀) i t) with hbe₀def
  have hadjrows₀ : ∀ k, k < Mats.length →
      finMat n (unflattenQ n (sndT matP₀ k)) ∈ Algebra.adjoin ℚ (adjGens n Matse) := by
    intro k hk
    have hkMe : k < Matse.length := by rw [hME.1]; exact hk
    have hsnd : sndT matP₀ k = flatRowQ n (Matse.getD k fun _ _ => 0) := by
      funext t
      show (Matse.map (flatRowQ n)).getD k (fun _ => 0) t = _
      rw [getD_map Matse (flatRowQ n) k _ (fun _ _ => 0) hkMe]
    rw [hsnd]
    rcases Nat.eq_zero_or_pos n with hn | hn
    · subst hn
      have : finMat 0 (unflattenQ 0 (flatRowQ 0 (Matse.getD k fun _ _ => 0))) = 1 :=
        matrix_fin_zero_eq _ _
      rw [this]
      exact one_mem _
    · rw [finMat_unflattenQ_flatRowQ n _ hn]
      apply Algebra.subset_adjoin
      refine ⟨Matse.getD k fun _ _ => 0, ?_, rfl⟩
      rw [List.getD_eq_getElem _ _ hkMe]
      exact List.getElem_mem _
  have cert₀ :
      RowsEncl (n ^ 2) ((List.range r₀).map fun i => fun j =>
          (REFcore ballOps Mats.length (n ^ 2) (listToFun (Mats.map (flatRow n))) []).1 i j)
        be₀
      ∧ (∀ i, i < ((List.range r₀).map fun i => fun j =>
          (REFcore ballOps Mats.length (n ^ 2)
            (listToFun (Mats.map (flatRow n))) []).1 i j).length →
          finMat n (unflattenQ n (be₀.getD i fun _ => 0))
            ∈ Algebra.adjoin ℚ (adjGens n Matse))
      ∧ OrbitPiv (n ^ 2) be₀
          (REFcore ballOps Mats.length (n ^ 2)
            (listToFun (Mats.map (flatRow n))) []).2.2 := by
    refine ⟨⟨by simp [hbe₀def], ?_⟩, ?_, ?_⟩
    · intro i hi j hj
      rw [List.length_map, List.length_range] at hi
      rw [hbe₀def, getD_map_range r₀ i _ _ hi, getD_map_range r₀ i _ _ hi]
      have h1 : (REFcore ballOps Mats.length (n ^ 2)
          (listToFun (Mats.map (flatRow n))) []).1
          = liftT (REFcore prOps Mats.length (n ^ 2) matP₀ []).1 := by
        rw [hres₀]
      rw [h1]
      exact hprod₀ i (lt_of_lt_of_le hi hr₀M) j hj
    · intro i hi
      rw [List.length_map, List.length_range] at hi
      rw [hbe₀def, getD_map_range r₀ i _ _ hi]
      exact finMat_unflatten_dotQ_mem n Mats.length _ (E₀ i) (sndT matP₀) hadjrows₀
    · refine ⟨hpiv₀.1, hpiv₀.2.1, hpiv₀.2.2.2, by simp [hbe₀def], ?_⟩
      intro jp hjp
      have hjp2 : jp.2 < r₀ := pivotsOk_val_lt hpiv₀ jp hjp
      have hjpel : jp ∈ (elimRun prOps Mats.length (n ^ 2) matP₀ []).2 := by
        rw [← hp₀]
        exact hjp
      have hpat := hinv₀.hpat jp hjpel
      constructor
      · rw [hbe₀def, getD_map_range r₀ jp.2 _ _ hjp2]
        exact hpat.1
      · intro i hi hilen
        rw [hbe₀def, getD_map_range r₀ i _ _ hilen]
        exact hpat.2 i hi (lt_of_lt_of_le hilen hr₀M)
  have hnew₀ : ∀ i ∈ List.range' 0 r₀,
      i < ((List.range r₀).map fun i => fun j =>
        (REFcore ballOps Mats.length (n ^ 2)
          (listToFun (Mats.map (flatRow n))) []).1 i j).length := by
    intro i hi
    have := List.mem_range'_1.mp hi
    rw [List.length_map, List.length_range]
    omega
  have := gaLoop_certifies n (Algebra.adjoin ℚ (adjGens n Matse))
    ((List.range r₀).map fun i => fun j =>
      (REFcore ballOps Mats.length (n ^ 2) (listToFun (Mats.map (flatRow n))) []).1 i j)
    (REFcore ballOps Mats.length (n ^ 2) (listToFun (Mats.map (flatRow n))) []).2.2
    (List.range' 0 r₀) hnew₀ ⟨be₀, cert₀⟩
  exact this

/-- **C8 (amended).**  `generated_algebra` always terminates with a basis of
length at most `n²`; and when the length *equals* `n²`, every exact
selection of the family (entrywise enclosed in `Mats`) generates the full
matrix algebra.  The converse direction of the claim is false
(`generated_algebra_span_iff_fails`): a spanning family whose enclosures
certify nothing yields a shorter basis. -/
theorem generated_algebra_length_le_and_spans (n : ℕ) (Mats : List (ℕ → ℕ → Ball))
    (Matse : List (ℕ → ℕ → ℚ)) (hME : MatsEncl n Mats Matse) :
    (generated_algebra n Mats).length ≤ n ^ 2
    ∧ ((generated_algebra n Mats).length = n ^ 2 →
        Algebra.adjoin ℚ (adjGens n Matse) = ⊤) := by
  obtain ⟨be, p', hrows, hadj, piv⟩ := generated_algebra_certifies n Mats Matse hME
  have hblen : be.length = (generated_algebra n Mats).length := hrows.1
  have hpblen : p'.length = be.length := piv.hlen
  constructor
  · have h3 : p'.length ≤ n ^ 2 := pivots_length_le (n ^ 2) p' piv.hnod piv.hkeys
    omega
  · intro hlen
    rcases Nat.eq_zero_or_pos n with hn | hn
    · subst hn
      rw [eq_top_iff]
      intro A _
      have hA : A = 1 := by
        funext i
        exact i.elim0
      rw [hA]
      exact one_mem _
    · set S := Algebra.adjoin ℚ (adjGens n Matse) with hSdef
      set N := n ^ 2 with hNdef
      have hbeN : be.length = N := by omega
      have hpN : p'.length = N := by omega
      have hpOk : pivotsOk N N p' := ⟨piv.hsnd, piv.hkeys, by omega, piv.hnod⟩
      -- the pivot submatrix of the exact basis rows
      set B := (Matrix.of fun i t : Fin N =>
        (be.getD i.1 fun _ => 0) ((p'.get ⟨t.1, by omega⟩).1)) with hBdef
      have hBdiag : ∀ t : Fin N, B t t = 1 := by
        intro t
        have hmem := List.get_mem p' t.1 (by omega)
        have hsnd := pivotsOk_snd_get hpOk t.1 (by omega)
        have := (piv.hpat _ hmem).1
        rw [hsnd] at this
        exact this
      have hBlow : ∀ i t : Fin N, t.1 < i.1 → B i t = 0 := by
        intro i t hlt
        have hmem := List.get_mem p' t.1 (by omega)
        have hsnd := pivotsOk_snd_get hpOk t.1 (by omega)
        have := (piv.hpat _ hmem).2 i.1 (by rw [hsnd]; exact hlt) (by omega)
        exact this
      have hBdet : B.det = 1 := by
        rw [Matrix.det_of_upperTriangular]
        · rw [Finset.prod_congr rfl fun t _ => hBdiag t]
          exact Finset.prod_const_one
        · intro i j hij
          exact hBlow i j hij
      have hBunit : IsUnit B.det := by
        rw [hBdet]
        exact isUnit_one
      -- the column-selection linear map
      have hkeylt : ∀ t : Fin N, (p'.get ⟨t.1, by omega⟩).1 < N :=
        fun t => piv.hkeys _ (List.get_mem p' t.1 (by omega))
      set Φ : Matrix (Fin n) (Fin n) ℚ →ₗ[ℚ] (Fin N → ℚ) := {
        toFun := fun A t =>
          A ⟨(p'.get ⟨t.1, by omega⟩).1 / n, div_lt_of_lt_sq (hkeylt t)⟩
            ⟨(p'.get ⟨t.1, by omega⟩).1 % n, mod_lt_of_lt_sq (hkeylt t)⟩
        map_add' := by
          intro A A'
          funext t
          rfl
        map_smul' := by
          intro c A
          funext t
          rfl } with hΦdef
      set f := (fun i : Fin N =>
        finMat n (unflattenQ n (be.getD i.1 fun _ => 0))) with hfdef
      have hΦf : ∀ i : Fin N, Φ (f i) = fun t => B i t := by
        intro i
        funext t
        show unflattenQ n (be.getD i.1 fun _ => 0)
          ((p'.get ⟨t.1, by omega⟩).1 / n) ((p'.get ⟨t.1, by omega⟩).1 % n) = _
        unfold unflattenQ
        rw [Nat.div_add_mod]
        rfl
      have hcomp : LinearIndependent ℚ (Φ ∘ f) := by
        rw [Fintype.linearIndependent_iff]
        intro g hg
        have hvec : Matrix.vecMul g B = 0 := by
          funext t
          have := congrFun hg t
          simp only [Finset.sum_apply, Pi.smul_apply, Function.comp_apply,
            Pi.zero_apply, smul_eq_mul] at this
          show (Finset.univ.sum fun i => g i * B i t) = 0
          rw [← this]
          apply Finset.sum_congr rfl
          intro i _
          congr 1
          have := congrFun (hΦf i) t
          rw [this]
        have hg0 : g = 0 := by
          have h1 : Matrix.vecMul (Matrix.vecMul g B) B⁻¹ = 0 := by
            rw [hvec]
            funext t
            simp [Matrix.vecMul]
          rw [Matrix.vecMul_vecMul, Matrix.mul_nonsing_inv B (by rw [hBdet]; norm_num),
            Matrix.vecMul_one] at h1
          exact h1
        intro i
        rw [hg0]
        rfl
      have hindep : LinearIndependent ℚ f := LinearIndependent.of_comp Φ hcomp
      have hmemS : ∀ i : Fin N, f i ∈ Subalgebra.toSubmodule S := by
        intro i
        exact hadj i.1 (by omega)
      set f' := (fun i : Fin N => (⟨f i, hmemS i⟩ : Subalgebra.toSubmodule S)) with hfPdef
      have hindep' : LinearIndependent ℚ f' := by
        apply LinearIndependent.of_comp (Submodule.subtype (Subalgebra.toSubmodule S))
        have : (Submodule.subtype (Subalgebra.toSubmodule S)) ∘ f' = f := rfl
        rw [this]
        exact hindep
      have hcard : N ≤ Module.finrank ℚ (Subalgebra.toSubmodule S) := by
        have := hindep'.fintype_card_le_finrank
        simpa using this
      have hfrV : Module.finrank ℚ (Matrix (Fin n) (Fin n) ℚ) = N := by
        rw [Module.finrank_matrix]
        simp [hNdef]
        ring
      have hle : Module.finrank ℚ (Subalgebra.toSubmodule S)
          ≤ Module.finrank ℚ (Matrix (Fin n) (Fin n) ℚ) :=
        Submodule.finrank_le _
      have htop : Subalgebra.toSubmodule S = ⊤ :=
        Submodule.eq_top_of_finrank_eq (by omega)
      exact Algebra.toSubmodule_eq_top.mp htop

/-- Witness for the amended C8: the family `[I]` in dimension 1. -/
theorem generated_algebra_length_le_and_spans_witness :
    (generated_algebra 1 [idMat ballOps]).length ≤ 1 ^ 2
    ∧ ((generated_algebra 1 [idMat ballOps]).length = 1 ^ 2 →
        Algebra.adjoin ℚ (adjGens 1 [idQ]) = ⊤) :=
  generated_algebra_length_le_and_spans 1 [idMat ballOps] [idQ]
    ⟨rfl, by
      intro i hi a ha b hb
      have hi0 : i = 0 := by simp at hi; omega
      have ha0 : a = 0 := by omega
      have hb0 : b = 0 := by omega
      subst hi0 ha0 hb0
      exact Ball.mem_one⟩
